import Mathlib

/-! The OBJ importer core (`code/ObjFileParser.cpp`)

A shallow embedding of `Assimp::ObjFileParser`.

* The iterator pair `m_DataIt`, `m_DataItEnd` is the list of bytes that lie between the
  two iterators: the parser only ever moves `m_DataIt` forward, so the bytes it can still
  read are exactly that list, and `m_DataIt == m_DataItEnd` is `m_DataIt = []`.
* `m_buffer` is the list of its `BUFFERSIZE` cells. It is a member of the parser, so what a
  handler leaves in it is still there when the next handler runs.
* A step that C++ leaves undefined (reading `*m_DataIt` at `m_DataItEnd`, writing outside
  `m_buffer`, a failed `assert`) ends the run with a `Fault`; every handler returns
  `Except Fault`.
* Pointers into `m_Objects` are positions in that vector, `unsigned int` values are naturals
  below `2 ^ 32`, `int` values are integers wrapped to 32 bits.
-/

namespace Assimp

/-- What stops a run: each constructor is one kind of undefined or aborting step. -/
inductive Fault where
  /-- A read of `*m_DataIt` at `m_DataItEnd`, of a buffer cell at or after `pEnd`, or of an
  array element at or after the end of the array. -/
  | readPastEnd
  /-- A write to `pBuffer[index]` with `index` outside the buffer. -/
  | writePastEnd
  /-- The condition of an `assert` or `ai_assert` is false. -/
  | assertFailed
  /-- A use of `m_pCurrent` that points to no object of `m_Objects`, or of a pointer that is
  null or points to no live block of the free store. -/
  | badPointer
  /-- A `delete` expression without `[]` on a block that `new[]` has made. -/
  | mismatchedDelete
  deriving DecidableEq, Repr

namespace ObjFile

/-- Modelled from the spec: `ObjFile::Face` (ObjFileData.h is not among the sources). A face
holds the three accumulated index lists and the material it references; the constructor
`Face(pIndices, pNormalID, pTexID)` stores the position, normal and texture-coordinate
lists in that order and leaves the material unset. -/
structure Face where
  m_pVertices : List Nat
  m_pNormals : List Nat
  m_pTexturCoords : List Nat
  m_pMaterial : Option Nat
  deriving DecidableEq, Repr

/-- Modelled from the spec: `ObjFile::Object` (ObjFileData.h is not among the sources): a
name and the ordered sequence of the faces it owns, empty when the object is created. -/
structure Object where
  m_strObjName : List Char
  m_Faces : List Face
  deriving DecidableEq, Repr

/-- Modelled from the spec: `ObjFile::Model` (ObjFileData.h is not among the sources), the
intermediate model of section 3 with the members `ObjFileParser.cpp` uses. `Fl` is the type
of a parsed float. `m_pCurrent` is a position in `m_Objects`; a material pointer is the
ordinal of the `new ObjFile::Material()` that made it, `materialCount` counting those made
so far; `m_Groups` maps the address of a `std::string` to the ordinal of a face-index
array, `faceIDArrays` holding the arrays made so far. `none` is the null pointer. -/
structure Model (Fl : Type) where
  m_ModelName : List Char
  m_Objects : List Object
  m_pCurrent : Option Nat
  m_pCurrentMaterial : Option Nat
  m_pDefaultMaterial : Option Nat
  m_MaterialLib : List (List Char)
  m_strActiveGroup : List Char
  m_pGroupFaceIDs : Option Nat
  m_Vertices : List (Fl × Fl × Fl)
  m_Normals : List (Fl × Fl × Fl)
  m_TextureCoord : List (Fl × Fl)
  m_Groups : List (Nat × Nat)
  m_MaterialMap : List (List Char × Nat)
  faceIDArrays : List (List Nat)
  materialCount : Nat

end ObjFile

open ObjFile

/-- The members of `ObjFileParser`. `m_DataIt` is the input from the cursor to
`m_DataItEnd`; `m_buffer` is the working buffer, `char m_buffer[BUFFERSIZE]`. -/
structure ObjFileParser (Fl : Type) where
  m_strAbsPath : List Char
  m_DataIt : List Char
  m_pModel : Model Fl
  m_uiLine : Nat
  m_buffer : List Char

/-- Modelled from the spec: the constant `BUFFERSIZE` (ObjFileParser.h is not among the
sources) is the capacity of the bounded working buffer, the number of cells of `m_buffer`. -/
def ObjFileParser.BUFFERSIZE {Fl : Type} (p : ObjFileParser Fl) : Nat :=
  p.m_buffer.length

/-- The collaborators of section 6, consumed as primitives: the float parser `fast_atof`
(applied to the C string it is given), `IOSystem.Exists`, `IOSystem.getOsSeparator`, and the
address of the local `strGroupName` of `getGroupName`, the key `m_Groups` is searched by. -/
structure Env (Fl : Type) where
  fast_atof : List Char → Fl
  ioExists : List Char → Bool
  getOsSeparator : List Char
  strGroupNameAddr : Nat

/-! ## Scanner primitives -/

/-- Modelled from the spec: the whitespace classification `isSpace` of the scanner
primitives (ObjTools.h is not among the sources): blank, tab, line feed, carriage return,
form feed. -/
def isSpace (token : Char) : Bool :=
  token = ' ' || token = '\n' || token = '\x0c' || token = '\r' || token = '\t'

/-- Modelled from the spec: `getNextWord` (ObjTools.h is not among the sources), "advance to
next word": step over whitespace up to the first byte that is none, or to the end. -/
def getNextWord : List Char → List Char
  | [] => []
  | c :: cs => if isSpace c then getNextWord cs else c :: cs

/-- Modelled from the spec: `getNextToken` (ObjTools.h is not among the sources), "advance to
next token": step over the bytes of the current token up to the first whitespace, then to
the next word. -/
def getNextToken : List Char → List Char
  | [] => []
  | c :: cs => if isSpace c then getNextWord (c :: cs) else getNextToken cs

/-- The C string a `char*` points to: the cells before the first NUL. -/
def cString (pBuffer : List Char) : List Char :=
  pBuffer.takeWhile (fun c => c != '\x00')

/-- The assignment `pBuffer[index] = c`. -/
def writeBuffer (pBuffer : List Char) (index : Nat) (c : Char) : Except Fault (List Char) :=
  if index < pBuffer.length then .ok (pBuffer.set index c) else .error .writePastEnd

/-- The `while` loop of `copyNextWord`: the cursor, the buffer and `index` after it. The
test reads `*m_DataIt` before it compares with `m_DataItEnd`; `break` leaves the cursor on
the byte just copied. -/
def copyNextWord.loop (length : Nat) :
    List Char → List Char → Nat → Except Fault (List Char × List Char × Nat)
  | [], _, _ => .error .readPastEnd
  | c :: cs, pBuffer, index =>
    if isSpace c then .ok (c :: cs, pBuffer, index)
    else
      match writeBuffer pBuffer index c with
      | .error e => .error e
      | .ok pBuffer1 =>
        if index + 1 = length - 1 then .ok (c :: cs, pBuffer1, index + 1)
        else copyNextWord.loop length cs pBuffer1 (index + 1)

/-- `ObjFileParser::copyNextWord(m_buffer, length)`. -/
def copyNextWord {Fl : Type} (p : ObjFileParser Fl) (length : Nat) :
    Except Fault (ObjFileParser Fl) :=
  match copyNextWord.loop length (getNextWord p.m_DataIt) p.m_buffer 0 with
  | .error e => .error e
  | .ok (it, pBuffer, index) =>
    match writeBuffer pBuffer index '\x00' with
    | .error e => .error e
    | .ok pBuffer1 => .ok { p with m_DataIt := it, m_buffer := pBuffer1 }

/-- The `while` loop of `copyNextLine`: the cursor, the buffer and `index` after it. -/
def copyNextLine.loop (length : Nat) :
    List Char → List Char → Nat → Except Fault (List Char × List Char × Nat)
  | [], pBuffer, index => .ok ([], pBuffer, index)
  | c :: cs, pBuffer, index =>
    if c = '\n' || c = '\r' then .ok (c :: cs, pBuffer, index)
    else if index + 1 ≤ length then
      match writeBuffer pBuffer index c with
      | .error e => .error e
      | .ok pBuffer1 => copyNextLine.loop length cs pBuffer1 (index + 1)
    else .error .assertFailed

/-- `ObjFileParser::copyNextLine(m_buffer, length)`. -/
def copyNextLine {Fl : Type} (p : ObjFileParser Fl) (length : Nat) :
    Except Fault (ObjFileParser Fl) :=
  match copyNextLine.loop length p.m_DataIt p.m_buffer 0 with
  | .error e => .error e
  | .ok (it, pBuffer, index) =>
    match writeBuffer pBuffer index '\x00' with
    | .error e => .error e
    | .ok pBuffer1 => .ok { p with m_DataIt := it, m_buffer := pBuffer1 }

/-- The `while` loop of `skipLine`: the cursor moved to the first line feed, or to the end. -/
def skipLine.loop : List Char → List Char
  | [] => []
  | c :: cs => if c = '\n' then c :: cs else skipLine.loop cs

/-- `ObjFileParser::skipLine`. -/
def skipLine {Fl : Type} (p : ObjFileParser Fl) : ObjFileParser Fl :=
  match skipLine.loop p.m_DataIt with
  | [] => { p with m_DataIt := [] }
  | _ :: cs => { p with m_DataIt := cs, m_uiLine := p.m_uiLine + 1 }

/-- The loop `while (!isSpace(*m_DataIt)) m_DataIt++` of the name handlers: the bytes
stepped over, from `pStart`, and the cursor after them. The byte is read with no test
against `m_DataItEnd` (or before that test, in `getMaterialDesc`). -/
def readName : List Char → Except Fault (List Char × List Char)
  | [] => .error .readPastEnd
  | c :: cs =>
    if isSpace c then .ok ([], c :: cs)
    else
      match readName cs with
      | .error e => .error e
      | .ok (name, it) => .ok (c :: name, it)

/-! ## Geometry accumulators -/

/-- The two arrays `getVector3` is called with. -/
inductive Point3Array where
  | vertices
  | normals
  deriving DecidableEq, Repr

/-- The call `point3d_array.push_back(new aiVector3D(x,y,z))` on the chosen array. -/
def Point3Array.push_back {Fl : Type} (a : Point3Array) (m : Model Fl) (v : Fl × Fl × Fl) :
    Model Fl :=
  match a with
  | .vertices => { m with m_Vertices := m.m_Vertices ++ [v] }
  | .normals => { m with m_Normals := m.m_Normals ++ [v] }

/-- `ObjFileParser::getVector3`. -/
def getVector3 {Fl : Type} (env : Env Fl) (p : ObjFileParser Fl) (point3d_array : Point3Array) :
    Except Fault (ObjFileParser Fl) := do
  let p ← copyNextWord p p.BUFFERSIZE
  let x := env.fast_atof (cString p.m_buffer)
  let p ← copyNextWord p p.BUFFERSIZE
  let y := env.fast_atof (cString p.m_buffer)
  let p ← copyNextWord p p.BUFFERSIZE
  let z := env.fast_atof (cString p.m_buffer)
  return skipLine { p with m_pModel := point3d_array.push_back p.m_pModel (x, y, z) }

/-- `ObjFileParser::getVector2`, called with `m_TextureCoord`. -/
def getVector2 {Fl : Type} (env : Env Fl) (p : ObjFileParser Fl) :
    Except Fault (ObjFileParser Fl) := do
  let p ← copyNextWord p p.BUFFERSIZE
  let x := env.fast_atof (cString p.m_buffer)
  let p ← copyNextWord p p.BUFFERSIZE
  let y := env.fast_atof (cString p.m_buffer)
  return skipLine
    { p with m_pModel := { p.m_pModel with m_TextureCoord := p.m_pModel.m_TextureCoord ++ [(x, y)] } }

/-! ## Face builder -/

/-- The C library classification `isspace` that `atoi` skips by. -/
def isspace (c : Char) : Bool :=
  c = ' ' || c = '\t' || c = '\n' || c = '\x0b' || c = '\x0c' || c = '\r'

/-- An `int`: the integer wrapped to 32 bits, two's complement. -/
def toInt32 (z : Int) : Int :=
  Int.bmod z (2 ^ 32)

/-- The conversion of an `int` to `unsigned int`. -/
def toUInt32 (z : Int) : Nat :=
  (z % 2 ^ 32).toNat

/-- The digits `atoi` accumulates, up to the first byte that is no digit. The bytes come
from the working buffer; running off its last cell is a read past `pEnd`. -/
def atoi.digits : List Char → Nat → Except Fault Nat
  | [], _ => .error .readPastEnd
  | c :: cs, acc =>
    if c.isDigit then atoi.digits cs (10 * acc + (c.toNat - '0'.toNat)) else .ok acc

/-- The C library `atoi` on the cells from `pPtr`: leading `isspace` bytes are skipped, one
sign is accepted, the decimal digits that follow are the value, as an `int`. -/
def atoi : List Char → Except Fault Int
  | [] => .error .readPastEnd
  | c :: cs =>
    if isspace c then atoi cs
    else if c = '-' then
      match atoi.digits cs 0 with
      | .error e => .error e
      | .ok n => .ok (toInt32 (-(n : Int)))
    else if c = '+' then
      match atoi.digits cs 0 with
      | .error e => .error e
      | .ok n => .ok (toInt32 (n : Int))
    else
      match atoi.digits (c :: cs) 0 with
      | .error e => .error e
      | .ok n => .ok (toInt32 (n : Int))

/-- The loop `while ((tmp = tmp / 10) != 0) ++iStep` of `getFace`, `/` truncating toward
zero. `tmp` is an `int`, so the body runs at most nine times; the first argument bounds
the recursion and is never used up from 32. -/
def getFace.countSteps : Nat → Int → Nat → Nat
  | 0, _, iStep => iStep
  | fuel + 1, tmp, iStep =>
    if Int.tdiv tmp 10 ≠ 0 then getFace.countSteps fuel (Int.tdiv tmp 10) (iStep + 1)
    else iStep

/-- The three index vectors `getFace` fills. -/
structure FaceIndices where
  pIndices : List Nat
  pTexID : List Nat
  pNormalID : List Nat
  deriving DecidableEq, Repr

/-- `ObjFileParser::reportErrorTokenInFace`: it skips a line of the input (and writes a
message to `std::cerr`). -/
def reportErrorTokenInFace {Fl : Type} (p : ObjFileParser Fl) : ObjFileParser Fl :=
  skipLine p

/-- The statement `if (0 != iVal) ...` of `getFace`: the parsed index is stored in the
vector of slot `iPos`, as `iVal-1`; a slot other than 0, 1, 2 is reported. -/
def getFace.store {Fl : Type} (iPos iVal : Int) (p : ObjFileParser Fl) (ix : FaceIndices) :
    ObjFileParser Fl × FaceIndices :=
  if iVal ≠ 0 then
    if iPos = 0 then (p, { ix with pIndices := ix.pIndices ++ [toUInt32 (iVal - 1)] })
    else if iPos = 1 then (p, { ix with pTexID := ix.pTexID ++ [toUInt32 (iVal - 1)] })
    else if iPos = 2 then (p, { ix with pNormalID := ix.pNormalID ++ [toUInt32 (iVal - 1)] })
    else (reportErrorTokenInFace p, ix)
  else (p, ix)

/-- The loop `while (pPtr != pEnd)` of `getFace` over the cells from `pPtr` to `pEnd`. The
second argument counts the `++pPtr` steps of the inner `for` loop still to do, so that a
pass of the `while` body starts when it is 0; then come `iPos`, the parser (whose cursor
`reportErrorTokenInFace` moves) and the index vectors. -/
def getFace.loop {Fl : Type} (vt vn : Bool) :
    List Char → Nat → Int → ObjFileParser Fl → FaceIndices →
      Except Fault (ObjFileParser Fl × FaceIndices)
  | [], 0, _, p, ix => .ok (p, ix)
  | [], _ + 1, _, _, _ => .error .readPastEnd
  | _ :: cs, pending + 1, iPos, p, ix => getFace.loop vt vn cs pending iPos p ix
  | c :: cs, 0, iPos, p, ix =>
    if c = '\x00' then .ok (p, ix)
    else if c = '\r' then .ok (p, ix)
    else if c = '/' then
      getFace.loop vt vn cs 0 ((if iPos = 0 ∧ (!vt && vn) = true then 1 else iPos) + 1) p ix
    else if isSpace c then getFace.loop vt vn cs 0 0 p ix
    else
      match atoi (c :: cs) with
      | .error e => .error e
      | .ok iVal =>
        getFace.loop vt vn cs (getFace.countSteps 32 iVal 1 - 1) iPos
          (getFace.store iPos iVal p ix).1 (getFace.store iPos iVal p ix).2

/-- `ObjFileParser::createObject`. -/
def createObject {Fl : Type} (p : ObjFileParser Fl) (strObjectName : List Char) :
    Except Fault (ObjFileParser Fl) :=
  if strObjectName = [] then .error .assertFailed
  else
    .ok { p with m_pModel :=
      { p.m_pModel with
        m_pCurrent := some p.m_pModel.m_Objects.length
        m_Objects := p.m_pModel.m_Objects ++ [{ m_strObjName := strObjectName, m_Faces := [] }] } }

/-- The statement `m_pModel->m_pCurrent->m_Faces.push_back(face)`. -/
def pushFace {Fl : Type} (p : ObjFileParser Fl) (face : Face) : Except Fault (ObjFileParser Fl) :=
  match p.m_pModel.m_pCurrent with
  | none => .error .badPointer
  | some i =>
    match p.m_pModel.m_Objects[i]? with
    | none => .error .badPointer
    | some o =>
      .ok { p with m_pModel :=
        { p.m_pModel with
          m_Objects := p.m_pModel.m_Objects.set i { o with m_Faces := o.m_Faces ++ [face] } } }

/-- The end of `getFace`, from `new ObjFile::Face(pIndices, pNormalID, pTexID)` on: the face
gets the current material, or the default one when none is current; an object named
`defaultobject` is created when none is current; the face is stored and the rest of the
line skipped. -/
def getFace.finish {Fl : Type} (p : ObjFileParser Fl) (ix : FaceIndices) :
    Except Fault (ObjFileParser Fl) :=
  let face : Face :=
    { m_pVertices := ix.pIndices
      m_pNormals := ix.pNormalID
      m_pTexturCoords := ix.pTexID
      m_pMaterial :=
        if p.m_pModel.m_pCurrentMaterial ≠ none then p.m_pModel.m_pCurrentMaterial
        else p.m_pModel.m_pDefaultMaterial }
  match (if p.m_pModel.m_pCurrent = none then createObject p "defaultobject".toList
         else .ok p) with
  | .error e => .error e
  | .ok p1 =>
    match pushFace p1 face with
    | .error e => .error e
    | .ok p2 => .ok (skipLine p2)

/-- `ObjFileParser::getFace`. The test `pPtr == '\0'` compares the pointer itself with the
null pointer, which `pPtr` never is, so it returns on no input. `pEnd` is the end of
`m_buffer`. -/
def getFace {Fl : Type} (p : ObjFileParser Fl) : Except Fault (ObjFileParser Fl) :=
  match copyNextLine p p.BUFFERSIZE with
  | .error e => .error e
  | .ok p1 =>
    if p1.m_DataIt = [] then .ok p1
    else
      match getFace.loop (!p1.m_pModel.m_TextureCoord.isEmpty) (!p1.m_pModel.m_Normals.isEmpty)
          (getNextToken p1.m_buffer) 0 0 p1 ⟨[], [], []⟩ with
      | .error e => .error e
      | .ok (p2, ix) => getFace.finish p2 ix

/-! ## Registries -/

/-- `ObjFileParser::getMaterialDesc`. -/
def getMaterialDesc {Fl : Type} (p : ObjFileParser Fl) : Except Fault (ObjFileParser Fl) :=
  match getNextToken p.m_DataIt with
  | [] => .ok { p with m_DataIt := [] }
  | c :: cs =>
    match readName (c :: cs) with
    | .error e => .error e
    | .ok (strName, it) =>
      if strName = [] then .ok { p with m_DataIt := it }
      else
        match p.m_pModel.m_MaterialMap.lookup strName with
        | none =>
          .ok (skipLine { p with
            m_DataIt := it
            m_pModel :=
              { p.m_pModel with
                m_pCurrentMaterial := some p.m_pModel.materialCount
                materialCount := p.m_pModel.materialCount + 1
                m_MaterialMap := p.m_pModel.m_MaterialMap ++ [(strName, p.m_pModel.materialCount)] } })
        | some _ => .ok (skipLine { p with m_DataIt := it })

/-- The `while (true)` loop of `getComment`: the cursor after the first line feed. The test
reads `*m_DataIt` before it compares with `m_DataItEnd`; the line counter is not touched. -/
def getComment.loop : List Char → Except Fault (List Char)
  | [] => .error .readPastEnd
  | c :: cs => if c = '\n' then .ok cs else getComment.loop cs

/-- `ObjFileParser::getComment`. -/
def getComment {Fl : Type} (p : ObjFileParser Fl) : Except Fault (ObjFileParser Fl) :=
  match getComment.loop p.m_DataIt with
  | .error e => .error e
  | .ok it => .ok { p with m_DataIt := it }

/-- `ObjFileParser::getMaterialLib`. Opening and reading the companion file changes nothing
in the parser: its contents are read and deleted. -/
def getMaterialLib {Fl : Type} (env : Env Fl) (p : ObjFileParser Fl) :
    Except Fault (ObjFileParser Fl) :=
  match getNextToken p.m_DataIt with
  | [] => .ok { p with m_DataIt := [] }
  | c :: cs =>
    match readName (c :: cs) with
    | .error e => .error e
    | .ok (strMatName, it) =>
      if env.ioExists (p.m_strAbsPath ++ env.getOsSeparator ++ strMatName) then
        .ok (skipLine { p with
          m_DataIt := it
          m_pModel := { p.m_pModel with m_MaterialLib := p.m_pModel.m_MaterialLib ++ [strMatName] } })
      else .ok (skipLine { p with m_DataIt := it })

/-- `ObjFileParser::getGroupName`. `m_Groups` is keyed by `std::string*`: `find` and
`operator[]` are given `&strGroupName`, the address of the local. -/
def getGroupName {Fl : Type} (env : Env Fl) (p : ObjFileParser Fl) :
    Except Fault (ObjFileParser Fl) :=
  match readName (getNextWord (getNextToken p.m_DataIt)) with
  | .error e => .error e
  | .ok (strGroupName, it) =>
    if p.m_pModel.m_strActiveGroup ≠ strGroupName then
      match p.m_pModel.m_Groups.lookup env.strGroupNameAddr with
      | none =>
        .ok (skipLine { p with
          m_DataIt := it
          m_pModel :=
            { p.m_pModel with
              faceIDArrays := p.m_pModel.faceIDArrays ++ [[]]
              m_Groups := p.m_pModel.m_Groups ++ [(env.strGroupNameAddr, p.m_pModel.faceIDArrays.length)]
              m_pGroupFaceIDs := some p.m_pModel.faceIDArrays.length
              m_strActiveGroup := strGroupName } })
      | some pFaceIDArray =>
        .ok (skipLine { p with
          m_DataIt := it
          m_pModel :=
            { p.m_pModel with
              m_pGroupFaceIDs := some pFaceIDArray
              m_strActiveGroup := strGroupName } })
    else .ok (skipLine { p with m_DataIt := it })

/-- `ObjFileParser::getGroupNumber`. -/
def getGroupNumber {Fl : Type} (p : ObjFileParser Fl) : Except Fault (ObjFileParser Fl) :=
  .ok (skipLine p)

/-- The search loop of `getObjectName`: the position of the first object of the vector
whose name is `strObjectName`, counted from `i`. -/
def getObjectName.search (strObjectName : List Char) : List Object → Nat → Option Nat
  | [], _ => none
  | o :: os, i =>
    if o.m_strObjName = strObjectName then some i
    else getObjectName.search strObjectName os (i + 1)

/-- `ObjFileParser::getObjectName`. -/
def getObjectName {Fl : Type} (p : ObjFileParser Fl) : Except Fault (ObjFileParser Fl) :=
  match getNextToken p.m_DataIt with
  | [] => .ok { p with m_DataIt := [] }
  | c :: cs =>
    match readName (c :: cs) with
    | .error e => .error e
    | .ok (strObjectName, it) =>
      if strObjectName ≠ [] then
        match getObjectName.search strObjectName p.m_pModel.m_Objects 0 with
        | some i =>
          .ok (skipLine { p with m_DataIt := it, m_pModel := { p.m_pModel with m_pCurrent := some i } })
        | none =>
          match createObject
              { p with m_DataIt := it, m_pModel := { p.m_pModel with m_pCurrent := none } }
              strObjectName with
          | .error e => .error e
          | .ok p1 => .ok (skipLine p1)
      else .ok (skipLine { p with m_DataIt := it })

/-! ## Line dispatcher -/

/-- One pass of the body of the `while` loop of `parseFile`: the `switch` on `*m_DataIt`,
entered with the cursor before `m_DataItEnd`. -/
def parseFile.dispatch {Fl : Type} (env : Env Fl) (p : ObjFileParser Fl) :
    Except Fault (ObjFileParser Fl) :=
  match p.m_DataIt with
  | [] => .ok p
  | c :: cs =>
    if c = 'v' then
      match cs with
      | [] => .error .readPastEnd
      | d :: _ =>
        if d = ' ' then getVector3 env { p with m_DataIt := cs } .vertices
        else if d = 't' then getVector2 env { p with m_DataIt := cs }
        else if d = 'n' then getVector3 env { p with m_DataIt := cs } .normals
        else .ok { p with m_DataIt := cs }
    else if c = 'f' then getFace p
    else if c = '#' then getComment p
    else if c = 'u' then getMaterialDesc p
    else if c = 'm' then getMaterialLib env p
    else if c = 'g' then getGroupName env p
    else if c = 's' then getGroupNumber p
    else if c = 'o' then getObjectName p
    else .ok (skipLine p)

/-- The `while (m_DataIt != m_DataItEnd)` loop of `parseFile`, run for at most the given
number of passes. -/
def parseFile.loop {Fl : Type} (env : Env Fl) : Nat → ObjFileParser Fl → Except Fault (ObjFileParser Fl)
  | 0, p => .ok p
  | n + 1, p =>
    match p.m_DataIt with
    | [] => .ok p
    | _ :: _ =>
      match parseFile.dispatch env p with
      | .error e => .error e
      | .ok p1 => parseFile.loop env n p1

/-- `ObjFileParser::parseFile`. Every pass of the loop moves the cursor by at least one
byte, so the number of bytes left bounds the number of passes. -/
def parseFile {Fl : Type} (env : Env Fl) (p : ObjFileParser Fl) : Except Fault (ObjFileParser Fl) :=
  parseFile.loop env p.m_DataIt.length p

/-! ## The parser at the start of a parse, and the vocabulary of the properties -/

/-- Modelled from the spec: the `ObjFile::Model` constructor (ObjFileData.h is not among the
sources): every sequence and table empty, no current object, group or material, and the
default material pointer as given. -/
def ObjFile.Model.new (Fl : Type) (strModelName : List Char) (pDefaultMaterial : Option Nat) :
    Model Fl :=
  { m_ModelName := strModelName
    m_Objects := []
    m_pCurrent := none
    m_pCurrentMaterial := none
    m_pDefaultMaterial := pDefaultMaterial
    m_MaterialLib := []
    m_strActiveGroup := []
    m_pGroupFaceIDs := none
    m_Vertices := []
    m_Normals := []
    m_TextureCoord := []
    m_Groups := []
    m_MaterialMap := []
    faceIDArrays := []
    materialCount := match pDefaultMaterial with
      | none => 0
      | some i => i + 1 }

/-- The parser as the constructor `ObjFileParser::ObjFileParser` leaves it when it calls
`parseFile`: the cursor at the first byte of `Data`, line 0, a model with no default
material. The constructor does not initialise `m_buffer`; its cells are given. -/
def ObjFileParser.start (Fl : Type) (Data strAbsPath strModelName m_buffer : List Char) :
    ObjFileParser Fl :=
  { m_strAbsPath := strAbsPath
    m_DataIt := Data
    m_pModel := Model.new Fl strModelName none
    m_uiLine := 0
    m_buffer := m_buffer }

/-- A float parser for worked examples: it returns the text it is given; no companion
file exists. -/
def Env.text : Env (List Char) :=
  { fast_atof := fun s => s
    ioExists := fun _ => false
    getOsSeparator := ['/']
    strGroupNameAddr := 0 }

/-- A word: one byte or more, none of them whitespace. -/
def IsWord (w : List Char) : Prop :=
  w ≠ [] ∧ ∀ c ∈ w, isSpace c = false

instance (w : List Char) : Decidable (IsWord w) := by
  unfold IsWord; exact inferInstance

/-- The value of a run of decimal digits. -/
def decimal (t : List Char) : Nat :=
  t.foldl (fun acc c => 10 * acc + (c.toNat - '0'.toNat)) 0

/-- An integer written in plain decimal: one digit or more, no sign, no leading zero. -/
def IsPlainDecimal (t : List Char) : Prop :=
  t ≠ [] ∧ (∀ c ∈ t, c.isDigit = true) ∧ t.head? ≠ some '0'

instance (t : List Char) : Decidable (IsPlainDecimal t) := by
  unfold IsPlainDecimal; exact inferInstance

/-- The pointer `m_pCurrent` is null or points to an object of `m_Objects`. -/
def ObjFile.Model.CurrentValid {Fl : Type} (m : Model Fl) : Prop :=
  ∀ i, m.m_pCurrent = some i → i < m.m_Objects.length

/-- The material a new face references: the current one, or the default one when no
material is current. -/
def ObjFile.Model.activeMaterial {Fl : Type} (m : Model Fl) : Option Nat :=
  match m.m_pCurrentMaterial with
  | some pMaterial => some pMaterial
  | none => m.m_pDefaultMaterial

/-- The model with `face` added at the end of the face list of the current object; with no
current object, an object named `defaultobject` is added after the others, becomes current
and holds `face` alone. -/
def ObjFile.Model.addFace {Fl : Type} (m : Model Fl) (face : Face) : Model Fl :=
  match m.m_pCurrent with
  | none =>
    { m with
      m_pCurrent := some m.m_Objects.length
      m_Objects := m.m_Objects ++ [{ m_strObjName := "defaultobject".toList, m_Faces := [face] }] }
  | some i =>
    match m.m_Objects[i]? with
    | none => m
    | some o => { m with m_Objects := m.m_Objects.set i { o with m_Faces := o.m_Faces ++ [face] } }

/-- The face made of the three index vectors: `ObjFile::Face(pIndices, pNormalID, pTexID)`
with its material set. -/
def FaceIndices.toFace (ix : FaceIndices) (pMaterial : Option Nat) : Face :=
  { m_pVertices := ix.pIndices
    m_pNormals := ix.pNormalID
    m_pTexturCoords := ix.pTexID
    m_pMaterial := pMaterial }

/-- The number of faces of the model, over all its objects. -/
def ObjFile.Model.faceCount {Fl : Type} (m : Model Fl) : Nat :=
  (m.m_Objects.map (fun o => o.m_Faces.length)).sum

/-- The text of a list of tokens, each after one blank and `n` more. -/
def spaced : List (Nat × List Char) → List Char
  | [] => []
  | (n, t) :: ts => List.replicate (n + 1) ' ' ++ (t ++ spaced ts)

/-- The text of a list of records `a/b/c`, each after one blank and `n` more. -/
def spacedRecords : List (Nat × List Char × List Char × List Char) → List Char
  | [] => []
  | (n, a, b, c) :: rs =>
    List.replicate (n + 1) ' ' ++ (a ++ '/' :: (b ++ '/' :: (c ++ spacedRecords rs)))

/-- The three tokens of a record `a/b/c` are plain decimal integers below `2 ^ 31`. -/
def IsRecord (r : Nat × List Char × List Char × List Char) : Prop :=
  (IsPlainDecimal r.2.1 ∧ decimal r.2.1 < 2 ^ 31) ∧
  (IsPlainDecimal r.2.2.1 ∧ decimal r.2.2.1 < 2 ^ 31) ∧
  (IsPlainDecimal r.2.2.2 ∧ decimal r.2.2.2 < 2 ^ 31)

instance (r : Nat × List Char × List Char × List Char) : Decidable (IsRecord r) := by
  unfold IsRecord; exact inferInstance

/-- The text of a list of records `a//c`, each after one blank and `n` more. -/
def spacedPairs : List (Nat × List Char × List Char) → List Char
  | [] => []
  | (n, a, c) :: rs => List.replicate (n + 1) ' ' ++ (a ++ '/' :: '/' :: (c ++ spacedPairs rs))

/-- The parser after `copyNextLine` has copied `line` and stopped before `tail`: the
buffer holds the line, its terminator, and behind them what it held before. -/
def afterCopy {Fl : Type} (p : ObjFileParser Fl) (line tail : List Char) : ObjFileParser Fl :=
  { p with
    m_DataIt := tail
    m_buffer := line ++ '\x00' :: p.m_buffer.drop (line.length + 1) }

/-- The input after its first line feed: where one call of `skipLine` leaves the cursor. -/
def dropLine (it : List Char) : List Char :=
  match skipLine.loop it with
  | [] => []
  | _ :: cs => cs

/-- No entry of the three index vectors is `2 ^ 32 - 1`, the `unsigned int` image of
`-1`. -/
def FaceIndices.NoMinusOne (ix : FaceIndices) : Prop :=
  ∀ e, e ∈ ix.pIndices ∨ e ∈ ix.pTexID ∨ e ∈ ix.pNormalID → e ≠ 2 ^ 32 - 1

/-- The face-index sequence `m_pGroupFaceIDs` points to: the target of the active group. -/
def ObjFile.Model.groupFaceIDs {Fl : Type} (m : Model Fl) : Option (List Nat) :=
  match m.m_pGroupFaceIDs with
  | none => none
  | some pFaceIDArray => m.faceIDArrays[pFaceIDArray]?

/-- The text of a list of face lines: `f`, a blank, the text of the line, a line feed. -/
def faceLines : List (List Char) → List Char
  | [] => []
  | text :: ls => 'f' :: ' ' :: (text ++ '\n' :: faceLines ls)

/-- The value `atoi` returns on a token made of `c0`, a sign or a zero, and the plain
decimal integer `t`. -/
def prefixedValue (c0 : Char) (t : List Char) : Int :=
  if c0 = '-' then -(decimal t : Int) else (decimal t : Int)

/-- The invariant of the object registry: no two objects of `m_Objects` have the same
name, and `m_pCurrent` is null exactly when `m_Objects` is empty and points to an object of
`m_Objects` otherwise. -/
def ObjFile.Model.ObjectsInv {Fl : Type} (m : Model Fl) : Prop :=
  (m.m_Objects.map (fun o => o.m_strObjName)).Nodup ∧
    (m.m_pCurrent = none ↔ m.m_Objects = []) ∧ m.CurrentValid

/-- The text of a list of comment lines: `#`, the text of the comment, a line feed. -/
def commentLines : List (List Char) → List Char
  | [] => []
  | text :: ls => '#' :: (text ++ '\n' :: commentLines ls)

/-- The text of a face line the scan reports nothing on: no slash in it, and the line
fits a buffer of `size` cells with its tag and its terminator. -/
def IsPlainFaceText (size : Nat) (text : List Char) : Prop :=
  (∀ c ∈ text, c ≠ '\n' ∧ c ≠ '\r' ∧ c ≠ '/') ∧ ('f' :: ' ' :: text).length < size

instance (size : Nat) (text : List Char) : Decidable (IsPlainFaceText size text) := by
  unfold IsPlainFaceText; exact inferInstance

/-! ## The public mesh model (`include/aiMesh.h`) -/

/-- `struct aiFace`: the number of indices and the pointer to the index array. A pointer to
an index array is the ordinal of its block in the free store; `none` is `NULL`. -/
structure aiFace where
  mNumIndices : Nat
  mIndices : Option Nat
  deriving DecidableEq, Repr

/-- The memory the operations of `aiFace` work on. `faces` holds the `aiFace` objects, the
address of an object being its position; `arrays` holds the blocks that
`new unsigned int[n]` has made, in the order they were made, a block being `none` once it
is deleted. -/
structure Memory where
  faces : List aiFace
  arrays : List (Option (List Nat))
  deriving DecidableEq, Repr

/-- The read of `mIndices[i]` through the pointer `ptr`. -/
def Memory.readIndex (s : Memory) (ptr : Option Nat) (i : Nat) : Except Fault Nat :=
  match ptr with
  | none => .error .badPointer
  | some a =>
    match s.arrays[a]? with
    | some (some cells) =>
      match cells[i]? with
      | some v => .ok v
      | none => .error .readPastEnd
    | _ => .error .badPointer

/-- The assignment `mIndices[i] = v` through the pointer `ptr`. -/
def Memory.writeIndex (s : Memory) (ptr : Option Nat) (i v : Nat) : Except Fault Memory :=
  match ptr with
  | none => .error .badPointer
  | some a =>
    match s.arrays[a]? with
    | some (some cells) =>
      if i < cells.length then .ok { s with arrays := s.arrays.set a (some (cells.set i v)) }
      else .error .writePastEnd
    | _ => .error .badPointer

/-- The statement `delete mIndices` of `operator=`, a `delete` expression without `[]`:
nothing on `NULL`. Every block of the free store is made by `new unsigned int[n]`, so on a
pointer to a live block the expression is the wrong form of `delete` for the block, and the
behaviour is undefined (the destructor has `delete [] mIndices`). -/
def Memory.delete (s : Memory) (ptr : Option Nat) : Except Fault Memory :=
  match ptr with
  | none => .ok s
  | some a =>
    match s.arrays[a]? with
    | some (some _) => .error .mismatchedDelete
    | _ => .error .badPointer

/-- The statement `delete [] mIndices` of the destructor: nothing on `NULL`, otherwise the
block, which `new unsigned int[n]` has made, is released. -/
def Memory.deleteArray (s : Memory) (ptr : Option Nat) : Except Fault Memory :=
  match ptr with
  | none => .ok s
  | some a =>
    match s.arrays[a]? with
    | some (some _) => .ok { s with arrays := s.arrays.set a none }
    | _ => .error .badPointer

/-- The expression `new unsigned int[n]`: a block of `n` cells at an address no block has,
never `NULL`, also when `n` is 0. The cells are not initialised; they hold 0 here, and
`operator=` overwrites every one of them before any is read. -/
def Memory.newArray (s : Memory) (n : Nat) : Memory × Nat :=
  ({ s with arrays := s.arrays ++ [some (List.replicate n 0)] }, s.arrays.length)

/-- The call `memcpy(dst, src, n * sizeof(unsigned int))`: the first `n` cells of the block
at `src` are copied to the block at `dst`. A copy of 0 bytes reads and writes nothing,
whatever the two pointers are. -/
def Memory.memcpy (s : Memory) (dst src : Option Nat) (n : Nat) : Except Fault Memory :=
  if n = 0 then .ok s
  else
    match dst, src with
    | some d, some r =>
      match s.arrays[d]?, s.arrays[r]? with
      | some (some dcells), some (some rcells) =>
        if n ≤ dcells.length then
          if n ≤ rcells.length then
            .ok { s with arrays := s.arrays.set d (some (rcells.take n ++ dcells.drop n)) }
          else .error .readPastEnd
        else .error .writePastEnd
      | _, _ => .error .badPointer
    | _, _ => .error .badPointer

/-- The default constructor `aiFace::aiFace()`: a new object with no index and a null
array pointer. The result is the memory and the address of the object. -/
def aiFace.new (s : Memory) : Memory × Nat :=
  ({ s with faces := s.faces ++ [{ mNumIndices := 0, mIndices := none }] }, s.faces.length)

/-- The destructor `aiFace::~aiFace`, on the object `f`. -/
def aiFace.destroy (s : Memory) (f : aiFace) : Except Fault Memory :=
  s.deleteArray f.mIndices

/-- The assignment `aiFace::operator=`, on the objects at the addresses `this` and `o`. -/
def aiFace.operatorAssign (s : Memory) (this o : Nat) : Except Fault Memory :=
  if o = this then .ok s
  else
    match s.faces[this]?, s.faces[o]? with
    | some fthis, some fo =>
      match s.delete fthis.mIndices with
      | .error e => .error e
      | .ok s1 =>
        match s1.newArray fo.mNumIndices with
        | (s2, a) =>
          match s2.memcpy (some a) fo.mIndices fo.mNumIndices with
          | .error e => .error e
          | .ok s3 =>
            .ok { s3 with
              faces := s3.faces.set this { mNumIndices := fo.mNumIndices, mIndices := some a } }
    | _, _ => .error .badPointer

/-- The copy constructor `aiFace::aiFace(const aiFace& o)`: the new object starts with a
null array pointer and with `mNumIndices` not initialised (`uninit` is what the member
holds), and is then assigned `o`. The result is the memory and the address of the new
object. -/
def aiFace.newCopy (s : Memory) (o uninit : Nat) : Except Fault (Memory × Nat) :=
  match aiFace.operatorAssign
      { s with faces := s.faces ++ [{ mNumIndices := uninit, mIndices := none }] }
      s.faces.length o with
  | .error e => .error e
  | .ok s1 => .ok (s1, s.faces.length)

/-- The `for` loop of `operator==`, with `n` passes left from index `i`. -/
def aiFace.operatorEq.loop (s : Memory) (this o : aiFace) : Nat → Nat → Except Fault Bool
  | 0, _ => .ok true
  | n + 1, i =>
    match s.readIndex this.mIndices i with
    | .error e => .error e
    | .ok x =>
      match s.readIndex o.mIndices i with
      | .error e => .error e
      | .ok y => if x ≠ y then .ok false else aiFace.operatorEq.loop s this o n (i + 1)

/-- The comparison `aiFace::operator==`. -/
def aiFace.operatorEq (s : Memory) (this o : aiFace) : Except Fault Bool :=
  if this.mIndices = o.mIndices then .ok true
  else if this.mIndices ≠ none ∧ this.mNumIndices = o.mNumIndices then
    aiFace.operatorEq.loop s this o this.mNumIndices 0
  else .ok false

/-- The comparison `aiFace::operator!=`. -/
def aiFace.operatorNe (s : Memory) (this o : aiFace) : Except Fault Bool :=
  match aiFace.operatorEq s this o with
  | .error e => .error e
  | .ok b => .ok (!b)

/-- The constant `AI_MAX_NUMBER_OF_COLOR_SETS`. -/
def AI_MAX_NUMBER_OF_COLOR_SETS : Nat := 0x4

/-- The constant `AI_MAX_NUMBER_OF_TEXTURECOORDS`. -/
def AI_MAX_NUMBER_OF_TEXTURECOORDS : Nat := 0x4

/-- `struct aiMesh`. A pointer member is `none` when null; the two channel arrays
`mColors` and `mTextureCoords` have one pointer per index below their bound. -/
structure aiMesh where
  mNumVertices : Nat
  mNumFaces : Nat
  mVertices : Option Nat
  mNormals : Option Nat
  mTangents : Option Nat
  mBitangents : Option Nat
  mColors : Fin AI_MAX_NUMBER_OF_COLOR_SETS → Option Nat
  mTextureCoords : Fin AI_MAX_NUMBER_OF_TEXTURECOORDS → Option Nat
  mNumUVComponents : Fin AI_MAX_NUMBER_OF_TEXTURECOORDS → Nat
  mFaces : Option Nat
  mNumBones : Nat
  mBones : Option Nat
  mMaterialIndex : Nat

/-- The constructor `aiMesh::aiMesh()`. -/
def aiMesh.new : aiMesh :=
  { mNumVertices := 0
    mNumFaces := 0
    mVertices := none
    mNormals := none
    mTangents := none
    mBitangents := none
    mColors := fun _ => none
    mTextureCoords := fun _ => none
    mNumUVComponents := fun _ => 0
    mFaces := none
    mNumBones := 0
    mBones := none
    mMaterialIndex := 0 }

/-- `aiMesh::HasVertexColors`. The read of `mColors[pIndex]` is a read of the array only
for an index below its bound. -/
def aiMesh.HasVertexColors (m : aiMesh) (pIndex : Nat) : Except Fault Bool :=
  if pIndex ≥ AI_MAX_NUMBER_OF_COLOR_SETS then .ok false
  else if h : pIndex < AI_MAX_NUMBER_OF_COLOR_SETS then .ok (m.mColors ⟨pIndex, h⟩ != none)
  else .error .readPastEnd

/-- `aiMesh::HasTextureCoords`. The read of `mTextureCoords[pIndex]` is a read of the array
only for an index below its bound. -/
def aiMesh.HasTextureCoords (m : aiMesh) (pIndex : Nat) : Except Fault Bool :=
  if pIndex > AI_MAX_NUMBER_OF_TEXTURECOORDS then .ok false
  else if h : pIndex < AI_MAX_NUMBER_OF_TEXTURECOORDS then
    .ok (m.mTextureCoords ⟨pIndex, h⟩ != none)
  else .error .readPastEnd

/-- The index array of a face as a list, an absent array being the empty one; `none` when
the pointer is to no live block. -/
def aiFace.indices (s : Memory) (f : aiFace) : Option (List Nat) :=
  match f.mIndices with
  | none => some []
  | some a =>
    match s.arrays[a]? with
    | some (some cells) => some (cells.take f.mNumIndices)
    | _ => none

/-- The number of cells of the block a face points to, 0 for a null pointer; `none` when
the pointer is to no live block. -/
def aiFace.arrayLength (s : Memory) (f : aiFace) : Option Nat :=
  match f.mIndices with
  | none => some 0
  | some a =>
    match s.arrays[a]? with
    | some (some cells) => some cells.length
    | _ => none

/-- A face that owns what it says: with a null pointer it has no index, and otherwise its
pointer is to a live block of `mNumIndices` cells. -/
def aiFace.WellFormed (s : Memory) (f : aiFace) : Prop :=
  aiFace.arrayLength s f = some f.mNumIndices

instance (s : Memory) (f : aiFace) : Decidable (aiFace.WellFormed s f) := by
  unfold aiFace.WellFormed; exact inferInstance
/-! ## Scanner primitives: what the copy loops leave behind -/

theorem getNextWord_of_not_space (c : Char) (cs : List Char) (h : isSpace c = false) :
    getNextWord (c :: cs) = c :: cs := by
  simp [getNextWord, h]

theorem getNextWord_blanks (n : Nat) (cs : List Char) :
    getNextWord (List.replicate n ' ' ++ cs) = getNextWord cs := by
  induction n with
  | zero => simp
  | succ n ih => simp [List.replicate_succ, getNextWord, isSpace, ih]

theorem cString_append_nul (w t : List Char) :
    cString (w ++ '\x00' :: t) = cString w := by
  induction w with
  | nil => simp [cString]
  | cons c w ih =>
    simp only [cString] at ih ⊢
    by_cases hc : (c != '\x00') = true
    · simp [List.takeWhile_cons, hc, ih]
    · simp [List.takeWhile_cons, hc]

theorem cString_of_no_nul (w : List Char) (h : ∀ c ∈ w, c ≠ '\x00') : cString w = w := by
  simp only [cString]
  rw [List.takeWhile_eq_self_iff]
  intro c hc
  simpa using h c hc

theorem take_succ_set (l : List Char) (i : Nat) (c : Char) (h : i < l.length) :
    List.take (i + 1) (l.set i c) = List.take i l ++ [c] := by
  rw [List.set_eq_take_append_cons_drop, if_pos h]
  rw [List.take_append_eq_append_take]
  simp [List.length_take, Nat.min_eq_left (Nat.le_of_lt h)]

/-- The copy loop on a word that leaves room for the terminator and one more cell. -/
theorem copyNextWord_loop_word (length : Nat) (w : List Char) (s : Char) (r : List Char)
    (hw : ∀ c ∈ w, isSpace c = false) (hs : isSpace s = true) :
    ∀ (pBuffer : List Char) (index : Nat), index + w.length + 1 < length →
      index + w.length ≤ pBuffer.length →
      copyNextWord.loop length (w ++ s :: r) pBuffer index =
        .ok (s :: r, pBuffer.take index ++ w ++ pBuffer.drop (index + w.length), index + w.length) := by
  induction w with
  | nil =>
    intro pBuffer index _ _
    simp [copyNextWord.loop, hs]
  | cons c w ih =>
    intro pBuffer index h1 h2
    have hc : isSpace c = false := hw c (by simp)
    have hw' : ∀ c ∈ w, isSpace c = false := fun d hd => hw d (by simp [hd])
    simp only [List.length_cons] at h1 h2
    have hlt : index < pBuffer.length := by omega
    have hne : ¬ (index + 1 = length - 1) := by omega
    rw [List.cons_append, copyNextWord.loop]
    simp only [hc, writeBuffer, hlt, if_true, hne, if_false, Bool.false_eq_true]
    rw [ih hw' (pBuffer.set index c) (index + 1) (by omega) (by simp; omega)]
    have e1 : List.take (index + 1) (pBuffer.set index c) = List.take index pBuffer ++ [c] :=
      take_succ_set pBuffer index c hlt
    have e2 : List.drop (index + 1 + w.length) (pBuffer.set index c)
        = List.drop (index + (w.length + 1)) pBuffer := by
      rw [List.drop_set_of_lt c pBuffer (by omega)]
      congr 1; omega
    rw [e1, e2]
    simp
    omega

theorem set_zero_drop (l : List Char) (k : Nat) (c : Char) (h : k < l.length) :
    (List.drop k l).set 0 c = c :: List.drop (k + 1) l := by
  rw [List.drop_eq_getElem_cons h]
  rfl

theorem copyNextWord_word {Fl : Type} (p : ObjFileParser Fl) (n : Nat) (w : List Char) (s : Char)
    (r : List Char) (hne : w ≠ []) (hw : ∀ c ∈ w, isSpace c = false) (hs : isSpace s = true)
    (hlen : w.length + 2 ≤ p.m_buffer.length)
    (hit : p.m_DataIt = List.replicate n ' ' ++ (w ++ s :: r)) :
    copyNextWord p p.BUFFERSIZE =
      .ok { p with m_DataIt := s :: r, m_buffer := w ++ '\x00' :: p.m_buffer.drop (w.length + 1) } := by
  have hword : getNextWord (w ++ s :: r) = w ++ s :: r := by
    cases w with
    | nil => exact absurd rfl hne
    | cons c w => exact getNextWord_of_not_space c _ (hw c (by simp))
  have hl := copyNextWord_loop_word p.m_buffer.length w s r hw hs p.m_buffer 0 (by omega) (by omega)
  have hset : (w ++ List.drop w.length p.m_buffer).set w.length '\x00'
      = w ++ '\x00' :: List.drop (w.length + 1) p.m_buffer := by
    rw [List.set_append]
    simp only [Nat.lt_irrefl, if_false, Nat.sub_self]
    rw [set_zero_drop p.m_buffer w.length '\x00' (by omega)]
  simp only [copyNextWord, ObjFileParser.BUFFERSIZE, hit, getNextWord_blanks, hword, hl]
  simp only [List.take_zero, List.nil_append, Nat.zero_add, writeBuffer, List.length_append,
    List.length_drop]
  rw [if_pos (by omega), hset]

theorem skipLine_loop_line (pre rest : List Char) (h : ∀ c ∈ pre, c ≠ '\n') :
    skipLine.loop (pre ++ '\n' :: rest) = '\n' :: rest := by
  induction pre with
  | nil => simp [skipLine.loop]
  | cons c pre ih =>
    have hc : c ≠ '\n' := h c (by simp)
    have := ih (fun d hd => h d (by simp [hd]))
    simp [skipLine.loop, hc, this]

theorem skipLine_line {Fl : Type} (p : ObjFileParser Fl) (pre rest : List Char)
    (h : ∀ c ∈ pre, c ≠ '\n') (hit : p.m_DataIt = pre ++ '\n' :: rest) :
    skipLine p = { p with m_DataIt := rest, m_uiLine := p.m_uiLine + 1 } := by
  simp [skipLine, hit, skipLine_loop_line pre rest h]

theorem length_word_buffer (w buf : List Char) (h : w.length + 1 ≤ buf.length) :
    (w ++ '\x00' :: buf.drop (w.length + 1)).length = buf.length := by
  simp; omega

/-- A blank is whitespace, and whitespace-free bytes are no line feed. -/
theorem ne_newline_of_not_space (c : Char) (h : isSpace c = false) : c ≠ '\n' := by
  intro hc; subst hc; simp [isSpace] at h

/-- What `copyNextWord` leaves behind on a word that fits the buffer with room to spare. -/
theorem copyNextWord_word_spec {Fl : Type} (p : ObjFileParser Fl) (n : Nat) (w : List Char)
    (s : Char) (r : List Char) (hw : w ≠ [] ∧ ∀ c ∈ w, isSpace c = false)
    (hs : isSpace s = true) (hlen : w.length + 2 ≤ p.m_buffer.length)
    (hit : p.m_DataIt = List.replicate n ' ' ++ (w ++ s :: r)) :
    ∃ p1, copyNextWord p p.BUFFERSIZE = .ok p1 ∧ p1.m_DataIt = s :: r ∧
      cString p1.m_buffer = cString w ∧ p1.m_buffer.length = p.m_buffer.length ∧
      p1.m_pModel = p.m_pModel ∧ p1.m_uiLine = p.m_uiLine ∧ p1.m_strAbsPath = p.m_strAbsPath :=
  ⟨_, copyNextWord_word p n w s r hw.1 hw.2 hs hlen hit, rfl, cString_append_nul w _,
    length_word_buffer w p.m_buffer (by omega), rfl, rfl, rfl⟩

/-- The copy loop on a word that fills the buffer up to the cell of the terminator: the
`break` is taken on its last byte, and the cursor stays on that byte. -/
theorem copyNextWord_loop_full (length : Nat) (w : List Char) (c : Char) (r : List Char)
    (hw : ∀ d ∈ w, isSpace d = false) (hc : isSpace c = false) :
    ∀ (pBuffer : List Char) (index : Nat), index + w.length + 2 = length →
      index + w.length < pBuffer.length →
      copyNextWord.loop length (w ++ c :: r) pBuffer index =
        .ok (c :: r, pBuffer.take index ++ w ++ c :: pBuffer.drop (index + w.length + 1),
          index + w.length + 1) := by
  induction w with
  | nil =>
    intro pBuffer index h1 h2
    simp only [List.length_nil, Nat.add_zero] at h1 h2
    have he : index + 1 = length - 1 := by omega
    rw [List.nil_append, copyNextWord.loop]
    simp only [hc, writeBuffer, h2, if_true, he, Bool.false_eq_true, if_false]
    rw [List.set_eq_take_append_cons_drop, if_pos h2]
    simp
    omega
  | cons d w ih =>
    intro pBuffer index h1 h2
    have hd : isSpace d = false := hw d (by simp)
    have hw1 : ∀ e ∈ w, isSpace e = false := fun e he => hw e (by simp [he])
    simp only [List.length_cons] at h1 h2
    have hlt : index < pBuffer.length := by omega
    have hne : ¬ (index + 1 = length - 1) := by omega
    rw [List.cons_append, copyNextWord.loop]
    simp only [hd, writeBuffer, hlt, if_true, hne, if_false, Bool.false_eq_true]
    rw [ih hw1 (pBuffer.set index d) (index + 1) (by omega) (by simp; omega)]
    rw [take_succ_set pBuffer index d hlt, List.drop_set_of_lt d pBuffer (by omega)]
    have e3 : index + 1 + w.length + 1 = index + (w.length + 1) + 1 := by omega
    rw [e3]
    simp

theorem copyNextWord_full_spec {Fl : Type} (p : ObjFileParser Fl) (n : Nat) (w : List Char)
    (c : Char) (r : List Char) (hw : ∀ d ∈ w, isSpace d = false) (hc : isSpace c = false)
    (hlen : w.length + 2 = p.m_buffer.length)
    (hit : p.m_DataIt = List.replicate n ' ' ++ (w ++ c :: r)) :
    ∃ p1, copyNextWord p p.BUFFERSIZE = .ok p1 ∧ p1.m_DataIt = c :: r ∧
      cString p1.m_buffer = cString (w ++ [c]) ∧ p1.m_buffer.length = p.m_buffer.length ∧
      p1.m_pModel = p.m_pModel ∧ p1.m_uiLine = p.m_uiLine ∧ p1.m_strAbsPath = p.m_strAbsPath := by
  have hword : getNextWord (w ++ c :: r) = w ++ c :: r := by
    cases w with
    | nil => exact getNextWord_of_not_space c _ hc
    | cons d w => exact getNextWord_of_not_space d _ (hw d (by simp))
  have hl := copyNextWord_loop_full p.m_buffer.length w c r hw hc p.m_buffer 0 (by omega) (by omega)
  obtain ⟨e, hdrop⟩ : ∃ e, List.drop (w.length + 1) p.m_buffer = [e] :=
    List.length_eq_one.1 (by simp; omega)
  have hset : (w ++ c :: List.drop (w.length + 1) p.m_buffer).set (w.length + 1) '\x00'
      = (w ++ [c]) ++ '\x00' :: [] := by
    rw [hdrop, List.set_append]
    simp
  refine ⟨{ p with m_DataIt := c :: r, m_buffer := (w ++ [c]) ++ '\x00' :: [] }, ?_, rfl,
    cString_append_nul _ _, by simp; omega, rfl, rfl, rfl⟩
  simp only [copyNextWord, ObjFileParser.BUFFERSIZE, hit, getNextWord_blanks, hword, hl]
  simp only [List.take_zero, List.nil_append, Nat.zero_add, writeBuffer, List.length_append,
    List.length_cons, List.length_drop]
  rw [if_pos (by omega), hset]

@[simp] theorem skipLine_m_pModel {Fl : Type} (p : ObjFileParser Fl) :
    (skipLine p).m_pModel = p.m_pModel := by
  unfold skipLine; split <;> rfl

@[simp] theorem skipLine_m_buffer {Fl : Type} (p : ObjFileParser Fl) :
    (skipLine p).m_buffer = p.m_buffer := by
  unfold skipLine; split <;> rfl

theorem skipLine_m_DataIt {Fl : Type} (p : ObjFileParser Fl) (pre rest : List Char)
    (h : ∀ c ∈ pre, c ≠ '\n') (hit : p.m_DataIt = pre ++ '\n' :: rest) :
    (skipLine p).m_DataIt = rest := by
  rw [skipLine_line p pre rest h hit]

theorem getVector3_eq {Fl : Type} (env : Env Fl) (p p1 p2 p3 : ObjFileParser Fl) (a : Point3Array)
    (e1 : copyNextWord p p.BUFFERSIZE = .ok p1) (e2 : copyNextWord p1 p1.BUFFERSIZE = .ok p2)
    (e3 : copyNextWord p2 p2.BUFFERSIZE = .ok p3) :
    getVector3 env p a = .ok (skipLine { p3 with m_pModel := (a.push_back p3.m_pModel
      (env.fast_atof (cString p1.m_buffer), env.fast_atof (cString p2.m_buffer),
        env.fast_atof (cString p3.m_buffer))) }) := by
  simp only [getVector3, bind, Except.bind, e1, e2, e3, pure, Except.pure]

theorem getVector2_eq {Fl : Type} (env : Env Fl) (p p1 p2 : ObjFileParser Fl)
    (e1 : copyNextWord p p.BUFFERSIZE = .ok p1) (e2 : copyNextWord p1 p1.BUFFERSIZE = .ok p2) :
    getVector2 env p = .ok (skipLine { p2 with m_pModel := { p2.m_pModel with
      m_TextureCoord := p2.m_pModel.m_TextureCoord ++
        [(env.fast_atof (cString p1.m_buffer), env.fast_atof (cString p2.m_buffer))] } }) := by
  simp only [getVector2, bind, Except.bind, e1, e2, pure, Except.pure]

theorem IsWord.no_newline {w : List Char} (h : IsWord w) : ∀ c ∈ w, c ≠ '\n' :=
  fun c hc => ne_newline_of_not_space c (h.2 c hc)

/-- The rest of a line, `pre` up to its line feed, starts with whitespace when `pre` is
empty or starts with whitespace. -/
theorem tail_starts_with_space (pre rest : List Char) (h : ∀ c ∈ pre.head?, isSpace c = true) :
    ∃ s r, pre ++ '\n' :: rest = s :: r ∧ isSpace s = true := by
  cases pre with
  | nil => exact ⟨'\n', rest, rfl, by decide⟩
  | cons c pre => exact ⟨c, pre ++ '\n' :: rest, rfl, h c (by simp)⟩

/-- `getVector3` on three words that each leave two cells of the buffer free, the rest of
the line following the third after whitespace. -/
theorem getVector3_words {Fl : Type} (env : Env Fl) (p : ObjFileParser Fl) (a : Point3Array)
    (n1 n2 n3 : Nat) (x y z pre rest : List Char)
    (hx : IsWord x) (hy : IsWord y) (hz : IsWord z)
    (hxl : x.length + 2 ≤ p.m_buffer.length) (hyl : y.length + 2 ≤ p.m_buffer.length)
    (hzl : z.length + 2 ≤ p.m_buffer.length)
    (hpre : ∀ c ∈ pre, c ≠ '\n') (hpre0 : ∀ c ∈ pre.head?, isSpace c = true)
    (hit : p.m_DataIt = List.replicate n1 ' ' ++ (x ++ List.replicate (n2 + 1) ' ' ++
      (y ++ List.replicate (n3 + 1) ' ' ++ (z ++ (pre ++ '\n' :: rest))))) :
    ∃ p1, getVector3 env p a = .ok p1 ∧
      p1.m_pModel = a.push_back p.m_pModel
        (env.fast_atof (cString x), env.fast_atof (cString y), env.fast_atof (cString z)) ∧
      p1.m_DataIt = rest ∧ p1.m_buffer.length = p.m_buffer.length := by
  obtain ⟨s, r, hsr, hs⟩ := tail_starts_with_space pre rest hpre0
  obtain ⟨p1, e1, d1, c1, b1, m1, u1, -⟩ := copyNextWord_word_spec p n1 x ' '
    (List.replicate n2 ' ' ++
      (y ++ List.replicate (n3 + 1) ' ' ++ (z ++ (pre ++ '\n' :: rest))))
    hx (by decide) hxl (by rw [hit]; simp [List.replicate_succ])
  obtain ⟨p2, e2, d2, c2, b2, m2, u2, -⟩ := copyNextWord_word_spec p1 (n2 + 1) y ' '
    (List.replicate n3 ' ' ++ (z ++ (pre ++ '\n' :: rest)))
    hy (by decide) (by omega) (by rw [d1]; simp [List.replicate_succ])
  obtain ⟨p3, e3, d3, c3, b3, m3, u3, -⟩ := copyNextWord_word_spec p2 (n3 + 1) z s r
    hz hs (by omega) (by rw [d2, ← hsr]; simp [List.replicate_succ])
  refine ⟨_, getVector3_eq env p p1 p2 p3 a e1 e2 e3, ?_, ?_, ?_⟩
  · simp [c1, c2, c3, m1, m2, m3]
  · exact skipLine_m_DataIt _ pre rest hpre (by simp [d3, hsr])
  · simp [b1, b2, b3]

/-- `getVector2` on two words that each leave two cells of the buffer free. -/
theorem getVector2_words {Fl : Type} (env : Env Fl) (p : ObjFileParser Fl)
    (n1 n2 : Nat) (x y pre rest : List Char) (hx : IsWord x) (hy : IsWord y)
    (hxl : x.length + 2 ≤ p.m_buffer.length) (hyl : y.length + 2 ≤ p.m_buffer.length)
    (hpre : ∀ c ∈ pre, c ≠ '\n') (hpre0 : ∀ c ∈ pre.head?, isSpace c = true)
    (hit : p.m_DataIt = List.replicate n1 ' ' ++ (x ++ List.replicate (n2 + 1) ' ' ++
      (y ++ (pre ++ '\n' :: rest)))) :
    ∃ p1, getVector2 env p = .ok p1 ∧
      p1.m_pModel = { p.m_pModel with m_TextureCoord := p.m_pModel.m_TextureCoord ++
        [(env.fast_atof (cString x), env.fast_atof (cString y))] } ∧
      p1.m_DataIt = rest ∧ p1.m_buffer.length = p.m_buffer.length := by
  obtain ⟨s, r, hsr, hs⟩ := tail_starts_with_space pre rest hpre0
  obtain ⟨p1, e1, d1, c1, b1, m1, u1, -⟩ := copyNextWord_word_spec p n1 x ' '
    (List.replicate n2 ' ' ++ (y ++ (pre ++ '\n' :: rest)))
    hx (by decide) hxl (by rw [hit]; simp [List.replicate_succ])
  obtain ⟨p2, e2, d2, c2, b2, m2, u2, -⟩ := copyNextWord_word_spec p1 (n2 + 1) y s r
    hy hs (by omega) (by rw [d1, ← hsr]; simp [List.replicate_succ])
  refine ⟨_, getVector2_eq env p p1 p2 e1 e2, ?_, ?_, ?_⟩
  · simp [c1, c2, m1, m2]
  · exact skipLine_m_DataIt _ pre rest hpre (by simp [d2, hsr])
  · simp [b1, b2]

theorem dispatch_vertex_line {Fl : Type} (env : Env Fl) (p : ObjFileParser Fl)
    (n1 n2 n3 n4 : Nat) (x y z rest : List Char)
    (hx : IsWord x) (hy : IsWord y) (hz : IsWord z)
    (hxl : x.length + 2 ≤ p.BUFFERSIZE) (hyl : y.length + 2 ≤ p.BUFFERSIZE)
    (hzl : z.length + 2 ≤ p.BUFFERSIZE)
    (hit : p.m_DataIt = 'v' :: ' ' :: (List.replicate n1 ' ' ++ (x ++ ' ' :: (List.replicate n2 ' ' ++
      (y ++ ' ' :: (List.replicate n3 ' ' ++ (z ++ (List.replicate n4 ' ' ++ '\n' :: rest)))))))) :
    ∃ p1, parseFile.dispatch env p = .ok p1 ∧
      p1.m_pModel = { p.m_pModel with m_Vertices := p.m_pModel.m_Vertices ++
        [(env.fast_atof (cString x), env.fast_atof (cString y), env.fast_atof (cString z))] } ∧
      p1.m_DataIt = rest := by
  obtain ⟨p1, e, m, d, -⟩ := getVector3_words env
    { p with m_DataIt := ' ' :: (List.replicate n1 ' ' ++ (x ++ ' ' :: (List.replicate n2 ' ' ++
      (y ++ ' ' :: (List.replicate n3 ' ' ++ (z ++ (List.replicate n4 ' ' ++ '\n' :: rest))))))) }
    .vertices (n1 + 1) n2 n3 x y z (List.replicate n4 ' ') rest hx hy hz hxl hyl hzl
    (by intro c hc; rw [(List.mem_replicate.1 hc).2]; decide)
    (by intro c hc
        cases n4 with
        | zero => simp at hc
        | succ k => simp [List.replicate_succ] at hc; rw [← hc]; decide)
    (by simp [List.replicate_succ])
  refine ⟨p1, ?_, m, d⟩
  rw [← e]
  simp [parseFile.dispatch, hit]

/-! ## Geometry lines -/

theorem dispatch_v_blank {Fl : Type} (env : Env Fl) (p : ObjFileParser Fl) (cs : List Char)
    (hit : p.m_DataIt = 'v' :: ' ' :: cs) :
    parseFile.dispatch env p = getVector3 env { p with m_DataIt := ' ' :: cs } .vertices := by
  simp [parseFile.dispatch, hit]

theorem dispatch_v_t {Fl : Type} (env : Env Fl) (p : ObjFileParser Fl) (cs : List Char)
    (hit : p.m_DataIt = 'v' :: 't' :: cs) :
    parseFile.dispatch env p = getVector2 env { p with m_DataIt := 't' :: cs } := by
  simp [parseFile.dispatch, hit]

theorem dispatch_v_n {Fl : Type} (env : Env Fl) (p : ObjFileParser Fl) (cs : List Char)
    (hit : p.m_DataIt = 'v' :: 'n' :: cs) :
    parseFile.dispatch env p = getVector3 env { p with m_DataIt := 'n' :: cs } .normals := by
  simp [parseFile.dispatch, hit]

/-- C1 (defect): a first token of exactly `BUFFERSIZE - 1` bytes is shorter than the word
buffer, yet the `v` line does not append `(F x, F y, F z)`: `copyNextWord` breaks on the
last byte `c` of the token without stepping over it, so the second component is parsed from
that byte alone and the third from the second token. -/
theorem dispatch_vertex_word_fills_buffer {Fl : Type} (env : Env Fl) (p : ObjFileParser Fl)
    (w : List Char) (c : Char) (y z rest : List Char)
    (hw : IsWord w) (hc : isSpace c = false) (hy : IsWord y) (hz : IsWord z)
    (hxl : (w ++ [c]).length + 1 = p.BUFFERSIZE) (hyl : y.length + 2 ≤ p.BUFFERSIZE)
    (hit : p.m_DataIt = 'v' :: ' ' :: ((w ++ [c]) ++ ' ' :: (y ++ ' ' :: (z ++ '\n' :: rest)))) :
    ∃ p1, parseFile.dispatch env p = .ok p1 ∧
      p1.m_pModel = { p.m_pModel with m_Vertices := p.m_pModel.m_Vertices ++
        [(env.fast_atof (cString (w ++ [c])), env.fast_atof (cString [c]),
          env.fast_atof (cString y))] } ∧
      p1.m_DataIt = rest := by
  have hB : p.m_buffer.length = w.length + 2 := by
    simp [ObjFileParser.BUFFERSIZE] at hxl; omega
  have hw1 : 1 ≤ w.length := by
    rcases w with _ | ⟨a, w⟩
    · exact absurd rfl hw.1
    · simp
  obtain ⟨p1, e1, d1, c1, b1, m1, u1, -⟩ := copyNextWord_full_spec
    { p with m_DataIt := ' ' :: ((w ++ [c]) ++ ' ' :: (y ++ ' ' :: (z ++ '\n' :: rest))) }
    1 w c (' ' :: (y ++ ' ' :: (z ++ '\n' :: rest))) hw.2 hc (by simp [hB]) (by simp)
  obtain ⟨p2, e2, d2, c2, b2, m2, u2, -⟩ := copyNextWord_word_spec p1 0 [c] ' '
    (y ++ ' ' :: (z ++ '\n' :: rest)) ⟨by simp, by simpa using hc⟩ (by decide)
    (by simp at b1 ⊢; omega) (by simp [d1])
  obtain ⟨p3, e3, d3, c3, b3, m3, u3, -⟩ := copyNextWord_word_spec p2 1 y ' '
    (z ++ '\n' :: rest) hy (by decide)
    (by simp [ObjFileParser.BUFFERSIZE] at hyl b1 b2 ⊢; omega) (by simp [d2])
  refine ⟨_, (dispatch_v_blank env p _ hit).trans (getVector3_eq env _ p1 p2 p3 _ e1 e2 e3),
    ?_, ?_⟩
  · simp [c1, c2, c3, m1, m2, m3, Point3Array.push_back]
  · exact skipLine_m_DataIt _ (' ' :: z) rest
      (by intro d hd; simp at hd; rcases hd with h | h
          · rw [h]; decide
          · exact hz.no_newline d h)
      (by simp [d3])

/-- C1, witness: with an 8-cell buffer, `v 1234567 2 3` appends the point parsed from
`1234567`, `7` and `2`. -/
theorem dispatch_vertex_word_fills_buffer_witness :
    ∃ p1, parseFile.dispatch Env.text
        (ObjFileParser.start (List Char) "v 1234567 2 3\n".toList [] [] (List.replicate 8 'x')) = .ok p1 ∧
      p1.m_pModel = { Model.new (List Char) [] none with
        m_Vertices := [("1234567".toList, "7".toList, "2".toList)] } ∧
      p1.m_DataIt = [] :=
  dispatch_vertex_word_fills_buffer Env.text
    (ObjFileParser.start (List Char) "v 1234567 2 3\n".toList [] [] (List.replicate 8 'x'))
    "123456".toList '7' "2".toList "3".toList []
    (by simp [IsWord]; decide) (by decide) (by simp [IsWord]; decide) (by simp [IsWord]; decide)
    (by decide) (by decide) (by decide)

/-- C2 (defect): on a line `vt u v` the cursor is still on the `t` of the tag when
`getVector2` runs, so the first word it copies is `t`: the appended point is
`(F "t", F u)`, not `(F u, F v)`. -/
theorem dispatch_vt_line {Fl : Type} (env : Env Fl) (p : ObjFileParser Fl)
    (u v rest : List Char) (hu : IsWord u) (hv : IsWord v)
    (hB : 3 ≤ p.BUFFERSIZE) (hul : u.length + 2 ≤ p.BUFFERSIZE)
    (hit : p.m_DataIt = 'v' :: 't' :: ' ' :: (u ++ ' ' :: (v ++ '\n' :: rest))) :
    ∃ p1, parseFile.dispatch env p = .ok p1 ∧
      p1.m_pModel = { p.m_pModel with m_TextureCoord := p.m_pModel.m_TextureCoord ++
        [(env.fast_atof ['t'], env.fast_atof (cString u))] } ∧
      p1.m_DataIt = rest := by
  obtain ⟨p1, e, m, d, -⟩ := getVector2_words env
    { p with m_DataIt := 't' :: ' ' :: (u ++ ' ' :: (v ++ '\n' :: rest)) }
    0 0 ['t'] u (' ' :: v) rest ⟨by simp, by decide⟩ hu hB hul
    (by intro d hd; simp at hd; rcases hd with h | h
        · rw [h]; decide
        · exact hv.no_newline d h)
    (by simp; decide) (by simp)
  exact ⟨p1, (dispatch_v_t env p _ hit).trans e, m, d⟩

/-- C2, witness: `vt 0.5 0.25` appends the point parsed from `t` and `0.5`. -/
theorem dispatch_vt_line_witness :
    ∃ p1, parseFile.dispatch Env.text
        (ObjFileParser.start (List Char) "vt 0.5 0.25\n".toList [] [] (List.replicate 16 'x')) = .ok p1 ∧
      p1.m_pModel = { Model.new (List Char) [] none with
        m_TextureCoord := [("t".toList, "0.5".toList)] } ∧
      p1.m_DataIt = [] :=
  dispatch_vt_line Env.text
    (ObjFileParser.start (List Char) "vt 0.5 0.25\n".toList [] [] (List.replicate 16 'x'))
    "0.5".toList "0.25".toList [] (by simp [IsWord]; decide) (by simp [IsWord]; decide)
    (by decide) (by decide) (by decide)

/-- The same defect on a line `vn x y z`: the appended normal is `(F "n", F x, F y)`. -/
theorem dispatch_vn_line {Fl : Type} (env : Env Fl) (p : ObjFileParser Fl)
    (x y z rest : List Char) (hx : IsWord x) (hy : IsWord y) (hz : IsWord z)
    (hB : 3 ≤ p.BUFFERSIZE) (hxl : x.length + 2 ≤ p.BUFFERSIZE)
    (hyl : y.length + 2 ≤ p.BUFFERSIZE)
    (hit : p.m_DataIt = 'v' :: 'n' :: ' ' :: (x ++ ' ' :: (y ++ ' ' :: (z ++ '\n' :: rest)))) :
    ∃ p1, parseFile.dispatch env p = .ok p1 ∧
      p1.m_pModel = { p.m_pModel with m_Normals := p.m_pModel.m_Normals ++
        [(env.fast_atof ['n'], env.fast_atof (cString x), env.fast_atof (cString y))] } ∧
      p1.m_DataIt = rest := by
  obtain ⟨p1, e, m, d, -⟩ := getVector3_words env
    { p with m_DataIt := 'n' :: ' ' :: (x ++ ' ' :: (y ++ ' ' :: (z ++ '\n' :: rest))) }
    .normals 0 0 0 ['n'] x y (' ' :: z) rest ⟨by simp, by decide⟩ hx hy hB hxl hyl
    (by intro d hd; simp at hd; rcases hd with h | h
        · rw [h]; decide
        · exact hz.no_newline d h)
    (by simp; decide) (by simp)
  exact ⟨p1, (dispatch_v_n env p _ hit).trans e, m, d⟩

/-! ## The face scan -/

/-- A bound on the step count: a value of fewer than `j` decimal digits moves `pPtr` by at
most `j` cells, however the recursion bound is chosen. -/
theorem countSteps_le (fuel : Nat) : ∀ (tmp : Int) (iStep j : Nat), tmp.natAbs < 10 ^ j →
    getFace.countSteps fuel tmp iStep ≤ iStep + (j - 1) := by
  induction fuel with
  | zero => intro tmp iStep j _; simp [getFace.countSteps]
  | succ fuel ih =>
    intro tmp iStep j h
    rw [getFace.countSteps]
    split
    · rename_i hne
      have h1 : (Int.tdiv tmp 10).natAbs = tmp.natAbs / 10 := by
        rw [Int.natAbs_tdiv]; rfl
      have h2 : tmp.natAbs / 10 ≠ 0 := by
        intro h0; apply hne; apply Int.natAbs_eq_zero.1; rw [h1, h0]
      have h3 : 2 ≤ j := by
        by_contra hj
        have : j = 0 ∨ j = 1 := by omega
        rcases this with rfl | rfl <;> simp at h <;> omega
      obtain ⟨j', rfl⟩ : ∃ j', j = j' + 2 := ⟨j - 2, by omega⟩
      have h4 : (Int.tdiv tmp 10).natAbs < 10 ^ (j' + 1) := by
        rw [h1]
        apply Nat.div_lt_of_lt_mul
        rw [← Nat.pow_succ']
        exact h
      have := ih (Int.tdiv tmp 10) (iStep + 1) (j' + 1) h4
      simp at this ⊢
      omega
    · omega

/-- The exact step count of a value with exactly `j + 1` decimal digits. -/
theorem countSteps_eq : ∀ (j fuel : Nat) (n : Nat) (iStep : Nat), j ≤ fuel →
    10 ^ j ≤ n → n < 10 ^ (j + 1) → getFace.countSteps fuel (n : Int) iStep = iStep + j := by
  intro j
  induction j with
  | zero =>
    intro fuel n iStep _ _ h2
    cases fuel with
    | zero => simp [getFace.countSteps]
    | succ fuel =>
      have : Int.tdiv (n : Int) 10 = 0 := by
        rw [Int.tdiv_eq_ediv (by omega) (by omega)]
        omega
      simp [getFace.countSteps, this]
  | succ j ih =>
    intro fuel n iStep hf h1 h2
    obtain ⟨fuel, rfl⟩ : ∃ f, fuel = f + 1 := ⟨fuel - 1, by omega⟩
    have hd : Int.tdiv (n : Int) 10 = ((n / 10 : Nat) : Int) := by
      rw [Int.tdiv_eq_ediv (by omega) (by omega)]
      simp
    have h3 : 10 ^ j ≤ n / 10 := by
      rw [Nat.le_div_iff_mul_le (by omega)]
      rw [← Nat.pow_succ]; exact h1
    have h4 : n / 10 < 10 ^ (j + 1) := by
      apply Nat.div_lt_of_lt_mul
      rw [← Nat.pow_succ']; exact h2
    have h5 : ((n / 10 : Nat) : Int) ≠ 0 := by
      have : 0 < 10 ^ j := Nat.pos_pow_of_pos j (by omega)
      omega
    rw [getFace.countSteps, hd, if_pos h5, ih fuel (n / 10) (iStep + 1) (by omega) h3 h4]
    omega


theorem ne_of_isDigit {c : Char} (h : c.isDigit = true) (d : Char) (hd : d.isDigit = false) :
    c ≠ d := by
  rintro rfl; simp [h] at hd

theorem isSpace_of_isDigit {c : Char} (h : c.isDigit = true) : isSpace c = false := by
  have h1 := ne_of_isDigit h ' ' (by decide)
  have h2 := ne_of_isDigit h '\n' (by decide)
  have h3 := ne_of_isDigit h '\x0c' (by decide)
  have h4 := ne_of_isDigit h '\r' (by decide)
  have h5 := ne_of_isDigit h '\t' (by decide)
  simp [isSpace, h1, h2, h3, h4, h5]

theorem isspace_of_isDigit {c : Char} (h : c.isDigit = true) : isspace c = false := by
  have h1 := ne_of_isDigit h ' ' (by decide)
  have h2 := ne_of_isDigit h '\n' (by decide)
  have h3 := ne_of_isDigit h '\x0c' (by decide)
  have h4 := ne_of_isDigit h '\r' (by decide)
  have h5 := ne_of_isDigit h '\t' (by decide)
  have h6 := ne_of_isDigit h '\x0b' (by decide)
  simp [isspace, h1, h2, h3, h4, h5, h6]

theorem digit_value_le {c : Char} (h : c.isDigit = true) : c.toNat - '0'.toNat ≤ 9 := by
  simp only [Char.isDigit, Bool.and_eq_true, decide_eq_true_eq] at h
  have h2 : c.val.toNat ≤ 57 := by
    have := h.2
    exact UInt32.le_def.1 this
  have : '0'.toNat = 48 := by decide
  simp only [Char.toNat] at *
  omega

theorem atoi_digits_run (t : List Char) (c : Char) (r : List Char)
    (ht : ∀ d ∈ t, d.isDigit = true) (hc : c.isDigit = false) :
    ∀ acc, atoi.digits (t ++ c :: r) acc =
      .ok (t.foldl (fun acc c => 10 * acc + (c.toNat - '0'.toNat)) acc) := by
  induction t with
  | nil => intro acc; simp [atoi.digits, hc]
  | cons d t ih =>
    intro acc
    have hd : d.isDigit = true := ht d (by simp)
    rw [List.cons_append, atoi.digits]
    simp only [hd, if_true, List.foldl_cons]
    exact ih (fun e he => ht e (by simp [he])) _

theorem foldl_digits_lt (t : List Char) (ht : ∀ d ∈ t, d.isDigit = true) :
    ∀ acc, t.foldl (fun acc c => 10 * acc + (c.toNat - '0'.toNat)) acc
      < (acc + 1) * 10 ^ t.length := by
  induction t with
  | nil => intro acc; simp
  | cons d t ih =>
    intro acc
    have hd := digit_value_le (ht d (by simp))
    have := ih (fun e he => ht e (by simp [he])) (10 * acc + (d.toNat - '0'.toNat))
    simp only [List.foldl_cons, List.length_cons]
    calc _ < (10 * acc + (d.toNat - '0'.toNat) + 1) * 10 ^ t.length := this
      _ ≤ ((acc + 1) * 10) * 10 ^ t.length := Nat.mul_le_mul_right _ (by omega)
      _ = (acc + 1) * 10 ^ (t.length + 1) := by rw [Nat.pow_succ']; ring

theorem foldl_digits_ge (t : List Char) :
    ∀ acc, acc * 10 ^ t.length ≤ t.foldl (fun acc c => 10 * acc + (c.toNat - '0'.toNat)) acc := by
  induction t with
  | nil => intro acc; simp
  | cons d t ih =>
    intro acc
    have := ih (10 * acc + (d.toNat - '0'.toNat))
    simp only [List.foldl_cons, List.length_cons]
    calc acc * 10 ^ (t.length + 1) = (10 * acc) * 10 ^ t.length := by rw [Nat.pow_succ']; ring
      _ ≤ (10 * acc + (d.toNat - '0'.toNat)) * 10 ^ t.length := Nat.mul_le_mul_right _ (by omega)
      _ ≤ _ := this

theorem decimal_lt (t : List Char) (ht : ∀ d ∈ t, d.isDigit = true) :
    decimal t < 10 ^ t.length := by
  have := foldl_digits_lt t ht 0
  simpa [decimal] using this

theorem decimal_ge {t : List Char} (ht : IsPlainDecimal t) : 10 ^ (t.length - 1) ≤ decimal t := by
  obtain ⟨h0, hd, hz⟩ := ht
  cases t with
  | nil => exact absurd rfl h0
  | cons c t =>
    have hc : c.isDigit = true := hd c (by simp)
    have hc0 : c ≠ '0' := by simpa using hz
    have h1 : 1 ≤ c.toNat - '0'.toNat := by
      simp only [Char.isDigit, Bool.and_eq_true, decide_eq_true_eq] at hc
      have h2 : 48 ≤ c.val.toNat := UInt32.le_def.1 hc.1
      have h3 : c.toNat ≠ 48 := by
        intro h; apply hc0
        apply Char.ext; apply UInt32.ext
        simp [Char.toNat] at h; simpa using h
      have : '0'.toNat = 48 := by decide
      simp only [Char.toNat] at *
      omega
    have := foldl_digits_ge t (10 * 0 + (c.toNat - '0'.toNat))
    simp only [decimal, List.foldl_cons, List.length_cons, Nat.add_sub_cancel]
    calc 10 ^ t.length = 1 * 10 ^ t.length := by simp
      _ ≤ (10 * 0 + (c.toNat - '0'.toNat)) * 10 ^ t.length := Nat.mul_le_mul_right _ (by omega)
      _ ≤ _ := this

theorem toInt32_of_lt (n : Nat) (h : n < 2 ^ 31) : toInt32 (n : Int) = n := by
  simp only [toInt32, Int.bmod_def]
  have h1 : ((n : Int) % ((2 ^ 32 : Nat) : Int)) = n := by
    apply Int.emod_eq_of_lt <;> omega
  rw [h1]
  norm_num
  omega

theorem toUInt32_pred (n : Nat) (h1 : 1 ≤ n) (h2 : n < 2 ^ 32) : toUInt32 ((n : Int) - 1) = n - 1 := by
  simp only [toUInt32]
  have h3 : (((n : Int) - 1) % 2 ^ 32) = (n : Int) - 1 := by
    apply Int.emod_eq_of_lt <;> omega
  rw [h3]
  omega

/-- `atoi` on a plain decimal token below `2 ^ 31` that a non-digit byte ends. -/
theorem atoi_plain (t : List Char) (c : Char) (r : List Char) (ht : IsPlainDecimal t)
    (hv : decimal t < 2 ^ 31) (hc : c.isDigit = false) :
    atoi (t ++ c :: r) = .ok (decimal t : Int) := by
  obtain ⟨h0, hd, hz⟩ := ht
  cases t with
  | nil => exact absurd rfl h0
  | cons d t =>
    have hdd : d.isDigit = true := hd d (by simp)
    have e := atoi_digits_run (d :: t) c r hd hc 0
    rw [List.cons_append] at e ⊢
    rw [atoi]
    simp only [isspace_of_isDigit hdd, ne_of_isDigit hdd '-' (by decide),
      ne_of_isDigit hdd '+' (by decide), if_false, Bool.false_eq_true, e]
    rw [show List.foldl (fun acc c => 10 * acc + (c.toNat - '0'.toNat)) 0 (d :: t)
        = decimal (d :: t) from rfl, toInt32_of_lt _ hv]

/-- The step count on a plain decimal token below `2 ^ 31` is its length. -/
theorem countSteps_plain (t : List Char) (ht : IsPlainDecimal t) (hv : decimal t < 2 ^ 31) :
    getFace.countSteps 32 (decimal t : Int) 1 = t.length := by
  have h1 := decimal_ge ht
  have h2 := decimal_lt t ht.2.1
  have hpos : 1 ≤ t.length := by
    rcases t with _ | ⟨a, t⟩
    · exact absurd rfl ht.1
    · simp
  have hlen : t.length - 1 ≤ 32 := by
    by_contra hcon
    have : 10 ^ 10 ≤ 10 ^ (t.length - 1) := Nat.pow_le_pow_right (by omega) (by omega)
    have : (2 : Nat) ^ 31 < 10 ^ 10 := by norm_num
    omega
  rw [countSteps_eq (t.length - 1) 32 (decimal t) 1 hlen h1 (by rwa [Nat.sub_add_cancel hpos])]
  omega

variable {Fl : Type}

/-- The pending `++pPtr` steps of the inner `for` loop run over the cells they skip. -/
theorem getFace_loop_pending (vt vn : Bool) (xs rest : List Char) (iPos : Int)
    (p : ObjFileParser Fl) (ix : FaceIndices) :
    getFace.loop vt vn (xs ++ rest) xs.length iPos p ix = getFace.loop vt vn rest 0 iPos p ix := by
  induction xs with
  | nil => rfl
  | cons x xs ih => simpa [getFace.loop] using ih

theorem getFace_loop_nul (vt vn : Bool) (cs : List Char) (iPos : Int)
    (p : ObjFileParser Fl) (ix : FaceIndices) :
    getFace.loop vt vn ('\x00' :: cs) 0 iPos p ix = .ok (p, ix) := by
  simp [getFace.loop]

theorem getFace_loop_slash (vt vn : Bool) (cs : List Char) (iPos : Int)
    (p : ObjFileParser Fl) (ix : FaceIndices) :
    getFace.loop vt vn ('/' :: cs) 0 iPos p ix =
      getFace.loop vt vn cs 0 ((if iPos = 0 ∧ (!vt && vn) = true then 1 else iPos) + 1) p ix := by
  rw [getFace.loop]
  simp

theorem getFace_loop_blanks (vt vn : Bool) (n : Nat) (cs : List Char) (iPos : Int)
    (p : ObjFileParser Fl) (ix : FaceIndices) :
    getFace.loop vt vn (List.replicate (n + 1) ' ' ++ cs) 0 iPos p ix =
      getFace.loop vt vn cs 0 0 p ix := by
  induction n generalizing iPos with
  | zero => rw [getFace.loop.eq_def]; simp [isSpace]
  | succ n ih =>
    rw [List.replicate_succ, List.cons_append, getFace.loop]
    simp only [isSpace]
    simp
    exact ih 0

/-- One pass of the scan on a plain decimal token below `2 ^ 31`: the token is consumed
whole and its value stored in the slot `iPos`. -/
theorem getFace_loop_plain (vt vn : Bool) (t : List Char) (c : Char) (r : List Char)
    (ht : IsPlainDecimal t) (hv : decimal t < 2 ^ 31) (hc : c.isDigit = false) (iPos : Int)
    (p : ObjFileParser Fl) (ix : FaceIndices) :
    getFace.loop vt vn (t ++ c :: r) 0 iPos p ix =
      getFace.loop vt vn (c :: r) 0 iPos (getFace.store iPos (decimal t) p ix).1
        (getFace.store iPos (decimal t) p ix).2 := by
  have ha := atoi_plain t c r ht hv hc
  have hs := countSteps_plain t ht hv
  obtain ⟨h0, hd, hz⟩ := ht
  cases t with
  | nil => exact absurd rfl h0
  | cons d t =>
    have hdd : d.isDigit = true := hd d (by simp)
    rw [List.cons_append] at ha ⊢
    rw [getFace.loop]
    simp only [ne_of_isDigit hdd '\x00' (by decide), ne_of_isDigit hdd '\r' (by decide),
      ne_of_isDigit hdd '/' (by decide), isSpace_of_isDigit hdd, if_false, Bool.false_eq_true, ha,
      hs, List.length_cons, Nat.add_sub_cancel]
    exact getFace_loop_pending vt vn t (c :: r) iPos _ _


/-! ## The line copy -/

/-- The copy loop of `copyNextLine` on a line that an end-of-line byte follows. -/
theorem copyNextLine_loop_line (length : Nat) (line : List Char) (t : Char) (rest : List Char)
    (hline : ∀ c ∈ line, c ≠ '\n' ∧ c ≠ '\r') (ht : t = '\n' ∨ t = '\r') :
    ∀ (pBuffer : List Char) (index : Nat), index + line.length ≤ length →
      index + line.length ≤ pBuffer.length →
      copyNextLine.loop length (line ++ t :: rest) pBuffer index =
        .ok (t :: rest, pBuffer.take index ++ line ++ pBuffer.drop (index + line.length),
          index + line.length) := by
  induction line with
  | nil =>
    intro pBuffer index _ _
    rcases ht with rfl | rfl <;> simp [copyNextLine.loop]
  | cons c line ih =>
    intro pBuffer index h1 h2
    have hc := hline c (by simp)
    simp only [List.length_cons] at h1 h2
    have hlt : index < pBuffer.length := by omega
    rw [List.cons_append, copyNextLine.loop]
    simp only [hc.1, hc.2, decide_False, Bool.or_self, Bool.false_eq_true, if_false,
      show index + 1 ≤ length by omega, if_true, writeBuffer, hlt]
    rw [ih (fun d hd => hline d (by simp [hd])) (pBuffer.set index c) (index + 1) (by omega)
      (by simp; omega)]
    rw [take_succ_set pBuffer index c hlt, List.drop_set_of_lt c pBuffer (by omega)]
    have e3 : index + 1 + line.length = index + (line.length + 1) := by omega
    rw [e3]
    simp

/-- The copy loop of `copyNextLine` on a last line that nothing follows. -/
theorem copyNextLine_loop_eof (length : Nat) (line : List Char)
    (hline : ∀ c ∈ line, c ≠ '\n' ∧ c ≠ '\r') :
    ∀ (pBuffer : List Char) (index : Nat), index + line.length ≤ length →
      index + line.length ≤ pBuffer.length →
      copyNextLine.loop length line pBuffer index =
        .ok ([], pBuffer.take index ++ line ++ pBuffer.drop (index + line.length),
          index + line.length) := by
  induction line with
  | nil =>
    intro pBuffer index _ _
    simp [copyNextLine.loop]
  | cons c line ih =>
    intro pBuffer index h1 h2
    have hc := hline c (by simp)
    simp only [List.length_cons] at h1 h2
    have hlt : index < pBuffer.length := by omega
    rw [copyNextLine.loop]
    simp only [hc.1, hc.2, decide_False, Bool.or_self, Bool.false_eq_true, if_false,
      show index + 1 ≤ length by omega, if_true, writeBuffer, hlt]
    rw [ih (fun d hd => hline d (by simp [hd])) (pBuffer.set index c) (index + 1) (by omega)
      (by simp; omega)]
    rw [take_succ_set pBuffer index c hlt, List.drop_set_of_lt c pBuffer (by omega)]
    have e3 : index + 1 + line.length = index + (line.length + 1) := by omega
    rw [e3]
    simp

theorem set_line_nul (line pBuffer : List Char) (h : line.length < pBuffer.length) :
    (line ++ List.drop line.length pBuffer).set line.length '\x00'
      = line ++ '\x00' :: List.drop (line.length + 1) pBuffer := by
  rw [List.set_append]
  simp only [Nat.lt_irrefl, if_false, Nat.sub_self]
  rw [set_zero_drop pBuffer line.length '\x00' h]

/-- `copyNextLine` on a line that fits the buffer with its terminator. -/
theorem copyNextLine_line (p : ObjFileParser Fl) (line : List Char) (t : Char)
    (rest : List Char) (hline : ∀ c ∈ line, c ≠ '\n' ∧ c ≠ '\r') (ht : t = '\n' ∨ t = '\r')
    (hfit : line.length < p.m_buffer.length) (hit : p.m_DataIt = line ++ t :: rest) :
    copyNextLine p p.BUFFERSIZE = .ok { p with
      m_DataIt := t :: rest
      m_buffer := line ++ '\x00' :: p.m_buffer.drop (line.length + 1) } := by
  have hl := copyNextLine_loop_line p.m_buffer.length line t rest hline ht p.m_buffer 0
    (by omega) (by omega)
  simp only [copyNextLine, ObjFileParser.BUFFERSIZE, hit, hl]
  simp only [List.take_zero, List.nil_append, Nat.zero_add, writeBuffer, List.length_append,
    List.length_drop]
  rw [if_pos (by omega), set_line_nul line p.m_buffer hfit]

/-- `copyNextLine` on a last line with no end-of-line byte: the cursor ends at
`m_DataItEnd`. -/
theorem copyNextLine_eof (p : ObjFileParser Fl) (line : List Char)
    (hline : ∀ c ∈ line, c ≠ '\n' ∧ c ≠ '\r')
    (hfit : line.length < p.m_buffer.length) (hit : p.m_DataIt = line) :
    copyNextLine p p.BUFFERSIZE = .ok { p with
      m_DataIt := []
      m_buffer := line ++ '\x00' :: p.m_buffer.drop (line.length + 1) } := by
  have hl := copyNextLine_loop_eof p.m_buffer.length line hline p.m_buffer 0
    (by omega) (by omega)
  simp only [copyNextLine, ObjFileParser.BUFFERSIZE, hit, hl]
  simp only [List.take_zero, List.nil_append, Nat.zero_add, writeBuffer, List.length_append,
    List.length_drop]
  rw [if_pos (by omega), set_line_nul line p.m_buffer hfit]

theorem getNextToken_tag (tag : List Char) (w : Char) (cs : List Char)
    (htag : ∀ c ∈ tag, isSpace c = false) (hw : isSpace w = true) :
    getNextToken (tag ++ w :: cs) = getNextWord cs := by
  induction tag with
  | nil => simp [getNextToken, getNextWord, hw]
  | cons c tag ih =>
    have hc := htag c (by simp)
    rw [List.cons_append, getNextToken]
    simp only [hc, Bool.false_eq_true, if_false]
    exact ih (fun d hd => htag d (by simp [hd]))

/-! ## Storing the face -/

theorem getFace_finish_material (p : ObjFileParser Fl) :
    (if p.m_pModel.m_pCurrentMaterial ≠ none then p.m_pModel.m_pCurrentMaterial
      else p.m_pModel.m_pDefaultMaterial) = p.m_pModel.activeMaterial := by
  unfold Model.activeMaterial
  cases p.m_pModel.m_pCurrentMaterial <;> simp

/-- The end of `getFace` when the current object pointer is valid. -/
theorem getFace_finish_valid (p : ObjFileParser Fl) (ix : FaceIndices)
    (h : p.m_pModel.CurrentValid) :
    getFace.finish p ix = .ok (skipLine { p with m_pModel := (p.m_pModel.addFace
      (ix.toFace p.m_pModel.activeMaterial)) }) := by
  unfold getFace.finish
  simp only [getFace_finish_material]
  cases hc : p.m_pModel.m_pCurrent with
  | none =>
    simp [createObject, pushFace, Model.addFace, hc, FaceIndices.toFace]
  | some i =>
    have hi := h i hc
    have : p.m_pModel.m_Objects[i]? = some (p.m_pModel.m_Objects[i]) := List.getElem?_eq_getElem hi
    simp [pushFace, Model.addFace, hc, this, FaceIndices.toFace]

/-- Whenever the end of `getFace` returns, it has added the face to the model. -/
theorem getFace_finish_ok (p p1 : ObjFileParser Fl) (ix : FaceIndices)
    (h : getFace.finish p ix = .ok p1) :
    p.m_pModel.CurrentValid ∧ p1 = skipLine { p with m_pModel := (p.m_pModel.addFace
      (ix.toFace p.m_pModel.activeMaterial)) } := by
  have hv : p.m_pModel.CurrentValid := by
    intro i hc
    by_contra hi
    have : p.m_pModel.m_Objects[i]? = none := List.getElem?_eq_none (by omega)
    simp [getFace.finish, pushFace, hc, this] at h
  refine ⟨hv, ?_⟩
  rw [getFace_finish_valid p ix hv] at h
  exact (Except.ok.inj h).symm


/-! ## The scan leaves the model alone -/

theorem getFace_store_frame (iPos iVal : Int) (p : ObjFileParser Fl) (ix : FaceIndices) :
    (getFace.store iPos iVal p ix).1 = p ∨ (getFace.store iPos iVal p ix).1 = skipLine p := by
  unfold getFace.store reportErrorTokenInFace
  split_ifs <;> simp

/-- The scan changes the parser by calls of `skipLine` only. -/
theorem getFace_loop_frame (vt vn : Bool) : ∀ (cs : List Char) (pending : Nat) (iPos : Int)
    (p : ObjFileParser Fl) (ix : FaceIndices) (p2 : ObjFileParser Fl) (ix2 : FaceIndices),
    getFace.loop vt vn cs pending iPos p ix = .ok (p2, ix2) → ∃ k, p2 = skipLine^[k] p := by
  intro cs
  induction cs with
  | nil =>
    intro pending iPos p ix p2 ix2 h
    cases pending with
    | zero =>
      simp only [getFace.loop, Except.ok.injEq, Prod.mk.injEq] at h
      exact ⟨0, h.1.symm⟩
    | succ n => simp [getFace.loop] at h
  | cons c cs ih =>
    intro pending iPos p ix p2 ix2 h
    cases pending with
    | succ n =>
      rw [getFace.loop] at h
      exact ih _ _ _ _ _ _ h
    | zero =>
      rw [getFace.loop] at h
      split_ifs at h
      all_goals first
        | exact ih _ _ _ _ _ _ h
        | (simp only [Except.ok.injEq, Prod.mk.injEq] at h; exact ⟨0, h.1.symm⟩)
        | skip
      split at h
      · exact absurd h (by simp)
      · rename_i iVal ha
        obtain ⟨k, hk⟩ := ih _ _ _ _ _ _ h
        rcases getFace_store_frame iPos iVal p ix with e | e
        · exact ⟨k, by rw [hk, e]⟩
        · exact ⟨k + 1, by rw [hk, e, Function.iterate_succ_apply]⟩

theorem skipLine_iterate_m_pModel (k : Nat) (p : ObjFileParser Fl) :
    (skipLine^[k] p).m_pModel = p.m_pModel := by
  induction k generalizing p with
  | zero => rfl
  | succ k ih => rw [Function.iterate_succ_apply, ih, skipLine_m_pModel]

theorem skipLine_iterate_m_buffer (k : Nat) (p : ObjFileParser Fl) :
    (skipLine^[k] p).m_buffer = p.m_buffer := by
  induction k generalizing p with
  | zero => rfl
  | succ k ih => rw [Function.iterate_succ_apply, ih, skipLine_m_buffer]

/-! ## `getFace` on a line whose tag is followed by whitespace -/

theorem not_eol_of_not_space {c : Char} (h : isSpace c = false) : c ≠ '\n' ∧ c ≠ '\r' := by
  constructor <;> (rintro rfl; simp [isSpace] at h)

/-- `getFace` on a line that fits the buffer and has whitespace after its tag: the scan
runs over the text after that whitespace, the terminator and what the buffer held before. -/
theorem getFace_of_scan (p : ObjFileParser Fl) (tag : List Char) (w : Char)
    (text : List Char) (t : Char) (rest : List Char) (p2 : ObjFileParser Fl) (ix : FaceIndices)
    (htag : ∀ c ∈ tag, isSpace c = false) (hw : isSpace w = true)
    (hwn : w ≠ '\n' ∧ w ≠ '\r') (htext : ∀ c ∈ text, c ≠ '\n' ∧ c ≠ '\r')
    (ht : t = '\n' ∨ t = '\r') (hfit : (tag ++ w :: text).length < p.m_buffer.length)
    (hit : p.m_DataIt = (tag ++ w :: text) ++ t :: rest)
    (hscan : getFace.loop (!p.m_pModel.m_TextureCoord.isEmpty) (!p.m_pModel.m_Normals.isEmpty)
      (getNextWord (text ++ '\x00' :: p.m_buffer.drop ((tag ++ w :: text).length + 1))) 0 0
      { p with
        m_DataIt := t :: rest
        m_buffer := (tag ++ w :: text) ++ '\x00' :: p.m_buffer.drop ((tag ++ w :: text).length + 1) }
      ⟨[], [], []⟩ = .ok (p2, ix)) :
    getFace p = getFace.finish p2 ix := by
  have hline : ∀ c ∈ tag ++ w :: text, c ≠ '\n' ∧ c ≠ '\r' := by
    intro c hc
    simp only [List.mem_append, List.mem_cons] at hc
    rcases hc with h | h | h
    · exact not_eol_of_not_space (htag c h)
    · rw [h]; exact hwn
    · exact htext c h
  have hcopy := copyNextLine_line p (tag ++ w :: text) t rest hline ht hfit hit
  have htok : getNextToken ((tag ++ w :: text) ++ '\x00' ::
      p.m_buffer.drop ((tag ++ w :: text).length + 1))
      = getNextWord (text ++ '\x00' :: p.m_buffer.drop ((tag ++ w :: text).length + 1)) := by
    rw [List.append_assoc, List.cons_append]
    exact getNextToken_tag tag w _ htag hw
  unfold getFace
  rw [hcopy]
  simp only [List.cons_ne_nil, if_false, htok, hscan]

/-! ## Faces of position indices -/

theorem decimal_pos {t : List Char} (ht : IsPlainDecimal t) : 1 ≤ decimal t :=
  Nat.le_trans (Nat.pos_pow_of_pos _ (by omega)) (decimal_ge ht)

/-- Storing a plain decimal value below `2 ^ 31`: the entry is the value less one. -/
theorem getFace_store_plain (t : List Char) (ht : IsPlainDecimal t) (hv : decimal t < 2 ^ 31)
    (iPos : Int) (p : ObjFileParser Fl) (ix : FaceIndices) :
    getFace.store iPos (decimal t : Int) p ix =
      if iPos = 0 then (p, { ix with pIndices := ix.pIndices ++ [decimal t - 1] })
      else if iPos = 1 then (p, { ix with pTexID := ix.pTexID ++ [decimal t - 1] })
      else if iPos = 2 then (p, { ix with pNormalID := ix.pNormalID ++ [decimal t - 1] })
      else (reportErrorTokenInFace p, ix) := by
  have h1 := decimal_pos ht
  have hne : (decimal t : Int) ≠ 0 := by omega
  have hu : toUInt32 ((decimal t : Int) - 1) = decimal t - 1 :=
    toUInt32_pred _ h1 (by omega)
  simp only [getFace.store, hne, ne_eq, not_false_eq_true, if_true, hu]

/-- What follows a list of blank-separated tokens in the buffer starts with no digit. -/
theorem spaced_append_nul (ts : List (Nat × List Char)) (stale : List Char) :
    ∃ c r, spaced ts ++ '\x00' :: stale = c :: r ∧ c.isDigit = false := by
  cases ts with
  | nil => exact ⟨'\x00', stale, rfl, by decide⟩
  | cons nt ts =>
    obtain ⟨n, t⟩ := nt
    exact ⟨' ', List.replicate n ' ' ++ (t ++ spaced ts) ++ '\x00' :: stale,
      by simp [spaced, List.replicate_succ], by decide⟩

/-- The scan over blank-separated plain decimal tokens: every value goes to the position
vector, less one, in order; the parser is not touched. -/
theorem getFace_loop_spaced (vt vn : Bool) (stale : List Char) (p : ObjFileParser Fl) :
    ∀ (ts : List (Nat × List Char)) (iPos : Int) (ix : FaceIndices),
      (∀ nt ∈ ts, IsPlainDecimal nt.2 ∧ decimal nt.2 < 2 ^ 31) →
      getFace.loop vt vn (spaced ts ++ '\x00' :: stale) 0 iPos p ix =
        .ok (p, { ix with pIndices := ix.pIndices ++ ts.map (fun nt => decimal nt.2 - 1) }) := by
  intro ts
  induction ts with
  | nil => intro iPos ix _; simp [spaced, getFace_loop_nul]
  | cons nt ts ih =>
    intro iPos ix h
    obtain ⟨n, t⟩ := nt
    have ht := h (n, t) (by simp)
    obtain ⟨c, r, hcr, hc⟩ := spaced_append_nul ts stale
    have e1 : spaced ((n, t) :: ts) ++ '\x00' :: stale
        = List.replicate (n + 1) ' ' ++ (t ++ c :: r) := by
      simp [spaced, ← hcr]
    rw [e1, getFace_loop_blanks, getFace_loop_plain vt vn t c r ht.1 ht.2 hc,
      getFace_store_plain t ht.1 ht.2]
    simp only [if_true, ← hcr]
    rw [ih 0 _ (fun nt hnt => h nt (by simp [hnt]))]
    simp


theorem isDigit_not_eol {c : Char} (h : c.isDigit = true) : c ≠ '\n' ∧ c ≠ '\r' :=
  ⟨ne_of_isDigit h '\n' (by decide), ne_of_isDigit h '\r' (by decide)⟩

theorem spaced_not_eol (ts : List (Nat × List Char))
    (h : ∀ nt ∈ ts, ∀ c ∈ nt.2, c.isDigit = true) : ∀ c ∈ spaced ts, c ≠ '\n' ∧ c ≠ '\r' := by
  induction ts with
  | nil => simp [spaced]
  | cons nt ts ih =>
    obtain ⟨n, t⟩ := nt
    intro c hc
    simp only [spaced, List.mem_append] at hc
    rcases hc with hc | hc | hc
    · rw [(List.mem_replicate.1 hc).2]; decide
    · exact isDigit_not_eol (h (n, t) (by simp) c hc)
    · exact ih (fun nt hnt => h nt (by simp [hnt])) c hc

/-- `getFace` on a line `f`, a blank, `text`, line feed, when the scan of `text` stores the
index vectors `ix` and reports nothing: one face is added, the cursor ends after the line. -/
theorem getFace_clean_line (p : ObjFileParser Fl) (text rest : List Char) (ix : FaceIndices)
    (htext : ∀ c ∈ text, c ≠ '\n' ∧ c ≠ '\r')
    (hfit : ('f' :: ' ' :: text).length < p.BUFFERSIZE) (hcur : p.m_pModel.CurrentValid)
    (hit : p.m_DataIt = 'f' :: ' ' :: text ++ '\n' :: rest)
    (hscan : ∀ (q : ObjFileParser Fl) (stale : List Char),
      getFace.loop (!p.m_pModel.m_TextureCoord.isEmpty) (!p.m_pModel.m_Normals.isEmpty)
        (getNextWord (text ++ '\x00' :: stale)) 0 0 q ⟨[], [], []⟩ = .ok (q, ix)) :
    ∃ p1, getFace p = .ok p1 ∧
      p1.m_pModel = p.m_pModel.addFace (ix.toFace p.m_pModel.activeMaterial) ∧
      p1.m_DataIt = rest ∧ p1.m_uiLine = p.m_uiLine + 1 ∧
      p1.m_buffer.length = p.m_buffer.length := by
  have hlen : (['f'] ++ ' ' :: text).length < p.m_buffer.length := by
    simpa [ObjFileParser.BUFFERSIZE] using hfit
  have hg := getFace_of_scan p ['f'] ' ' text '\n' rest _ ix (by simp; decide) (by decide)
    (by decide) htext (Or.inl rfl) hlen (by rw [hit]; simp) (hscan _ _)
  rw [getFace_finish_valid _ _ (show ObjFile.Model.CurrentValid
    (ObjFileParser.m_pModel { p with
      m_DataIt := '\n' :: rest
      m_buffer := (['f'] ++ ' ' :: text) ++ '\x00' ::
        p.m_buffer.drop ((['f'] ++ ' ' :: text).length + 1) })
    from hcur)] at hg
  refine ⟨_, hg, ?_, ?_, ?_, ?_⟩
  · simp
  · exact skipLine_m_DataIt _ [] rest (by simp) rfl
  · rw [skipLine_line _ [] rest (by simp) rfl]
  · simp at hlen ⊢
    omega

/-- The scan of a line of blank-separated plain decimal tokens, from the first token. -/
theorem getFace_scan_spaced (vt vn : Bool) (toks : List (Nat × List Char)) (hne : toks ≠ [])
    (htok : ∀ nt ∈ toks, IsPlainDecimal nt.2 ∧ decimal nt.2 < 2 ^ 31) :
    ∃ text, spaced toks = ' ' :: text ∧ (∀ c ∈ text, c ≠ '\n' ∧ c ≠ '\r') ∧
      ∀ (q : ObjFileParser Fl) (stale : List Char),
        getFace.loop vt vn (getNextWord (text ++ '\x00' :: stale)) 0 0 q ⟨[], [], []⟩ =
          .ok (q, ⟨toks.map (fun nt => decimal nt.2 - 1), [], []⟩) := by
  cases toks with
  | nil => exact absurd rfl hne
  | cons nt ts =>
    obtain ⟨n, t⟩ := nt
    have ht := htok (n, t) (by simp)
    have hsp : spaced ((n, t) :: ts) = ' ' :: (List.replicate n ' ' ++ (t ++ spaced ts)) := by
      simp [spaced, List.replicate_succ]
    refine ⟨_, hsp, ?_, ?_⟩
    · intro c hc
      exact spaced_not_eol ((n, t) :: ts) (fun nt hnt => (htok nt hnt).1.2.1) c
        (by rw [hsp]; exact List.mem_cons_of_mem _ hc)
    · intro q stale
      have hword : getNextWord ((List.replicate n ' ' ++ (t ++ spaced ts)) ++ '\x00' :: stale)
          = t ++ (spaced ts ++ '\x00' :: stale) := by
        rw [List.append_assoc, getNextWord_blanks, List.append_assoc]
        obtain ⟨h0, hd, -⟩ := ht.1
        cases t with
        | nil => exact absurd rfl h0
        | cons d t => exact getNextWord_of_not_space d _ (isSpace_of_isDigit (hd d (by simp)))
      have hscan := getFace_loop_spaced vt vn stale q ((n, t) :: ts) 0 ⟨[], [], []⟩ htok
      have e1 : spaced ((n, t) :: ts) ++ '\x00' :: stale
          = List.replicate (n + 1) ' ' ++ (t ++ (spaced ts ++ '\x00' :: stale)) := by
        simp [spaced]
      rw [e1, getFace_loop_blanks, ← hword] at hscan
      simpa using hscan

/-- C3: a line `f i1 i2 ... in` of plain decimal integers below `2 ^ 31`, blank-separated,
that fits the line buffer with its terminator, makes `getFace` store one face whose
position indices are `i1 - 1, ..., in - 1` in that order (and whose other two index lists
are empty); the cursor ends after the line. -/
theorem getFace_position_indices (p : ObjFileParser Fl) (toks : List (Nat × List Char))
    (rest : List Char) (hne : toks ≠ [])
    (htok : ∀ nt ∈ toks, IsPlainDecimal nt.2 ∧ decimal nt.2 < 2 ^ 31)
    (hfit : ('f' :: spaced toks).length < p.BUFFERSIZE)
    (hcur : p.m_pModel.CurrentValid)
    (hit : p.m_DataIt = 'f' :: spaced toks ++ '\n' :: rest) :
    ∃ p1, getFace p = .ok p1 ∧
      p1.m_pModel = p.m_pModel.addFace
        { m_pVertices := toks.map (fun nt => decimal nt.2 - 1)
          m_pNormals := []
          m_pTexturCoords := []
          m_pMaterial := p.m_pModel.activeMaterial } ∧
      p1.m_DataIt = rest := by
  obtain ⟨text, hsp, htext, hscan⟩ := @getFace_scan_spaced Fl
    (!p.m_pModel.m_TextureCoord.isEmpty) (!p.m_pModel.m_Normals.isEmpty) toks hne htok
  rw [hsp] at hfit hit
  obtain ⟨p1, h1, h2, h3, -⟩ := getFace_clean_line p text rest _ htext hfit hcur hit hscan
  exact ⟨p1, h1, h2, h3⟩

/-- C3, witness: `f 1 2 3` on a fresh parser stores the face with position indices
`0, 1, 2` in a new object `defaultobject`. -/
theorem getFace_position_indices_witness :
    ∃ p1, getFace (ObjFileParser.start (List Char) "f 1 2 3\n".toList [] [] (List.replicate 16 'x'))
        = .ok p1 ∧
      p1.m_pModel = (Model.new (List Char) [] none).addFace
        { m_pVertices := [0, 1, 2]
          m_pNormals := []
          m_pTexturCoords := []
          m_pMaterial := none } ∧
      p1.m_DataIt = [] :=
  getFace_position_indices
    (ObjFileParser.start (List Char) "f 1 2 3\n".toList [] [] (List.replicate 16 'x'))
    [(0, ['1']), (0, ['2']), (0, ['3'])] [] (by simp) (by decide) (by decide)
    (by intro i h; simp [ObjFileParser.start, Model.new] at h) rfl


/-! ## Faces of `a/b/c` records -/

/-- What follows a list of records in the buffer starts with no digit. -/
theorem spacedRecords_append_nul (rs : List (Nat × List Char × List Char × List Char))
    (stale : List Char) :
    ∃ c r, spacedRecords rs ++ '\x00' :: stale = c :: r ∧ c.isDigit = false := by
  cases rs with
  | nil => exact ⟨'\x00', stale, rfl, by decide⟩
  | cons r rs =>
    obtain ⟨n, a, b, c⟩ := r
    exact ⟨' ', List.replicate n ' ' ++ (a ++ '/' :: (b ++ '/' :: (c ++ spacedRecords rs)))
      ++ '\x00' :: stale, by simp [spacedRecords, List.replicate_succ], by decide⟩

/-- The scan over `a/b/c` records when a slash after the position moves to the
texture-coordinate slot: the three values of every record go to the three vectors. -/
theorem getFace_loop_records (vt vn : Bool) (hslot : (!vt && vn) = false) (stale : List Char)
    (p : ObjFileParser Fl) :
    ∀ (rs : List (Nat × List Char × List Char × List Char)) (iPos : Int) (ix : FaceIndices),
      (∀ r ∈ rs, IsRecord r) →
      getFace.loop vt vn (spacedRecords rs ++ '\x00' :: stale) 0 iPos p ix =
        .ok (p, { pIndices := ix.pIndices ++ rs.map (fun r => decimal r.2.1 - 1)
                  pTexID := ix.pTexID ++ rs.map (fun r => decimal r.2.2.1 - 1)
                  pNormalID := ix.pNormalID ++ rs.map (fun r => decimal r.2.2.2 - 1) }) := by
  intro rs
  induction rs with
  | nil => intro iPos ix _; simp [spacedRecords, getFace_loop_nul]
  | cons r rs ih =>
    intro iPos ix h
    obtain ⟨n, a, b, c⟩ := r
    obtain ⟨ha, hb, hc⟩ := h (n, a, b, c) (by simp)
    simp only at ha hb hc
    obtain ⟨d, r, hcr, hd⟩ := spacedRecords_append_nul rs stale
    have e1 : spacedRecords ((n, a, b, c) :: rs) ++ '\x00' :: stale
        = List.replicate (n + 1) ' ' ++ (a ++ '/' :: (b ++ '/' :: (c ++ d :: r))) := by
      simp [spacedRecords, ← hcr]
    rw [e1, getFace_loop_blanks, getFace_loop_plain vt vn a '/' _ ha.1 ha.2 (by decide),
      getFace_store_plain a ha.1 ha.2]
    simp only [if_true]
    rw [getFace_loop_slash]
    simp only [hslot, Bool.false_eq_true, and_false, if_false, Int.zero_add]
    rw [getFace_loop_plain vt vn b '/' _ hb.1 hb.2 (by decide), getFace_store_plain b hb.1 hb.2]
    simp only [show ¬ ((1 : Int) = 0) by decide, if_false, if_true]
    rw [getFace_loop_slash]
    simp only [show ¬ ((1 : Int) = 0) by decide, false_and, if_false]
    rw [getFace_loop_plain vt vn c d r hc.1 hc.2 hd, getFace_store_plain c hc.1 hc.2]
    simp only [show ((1 : Int) + 1) = 2 by decide, show ¬ ((2 : Int) = 0) by decide,
      show ¬ ((2 : Int) = 1) by decide, if_false, if_true, ← hcr]
    rw [ih _ _ (fun r hr => h r (by simp [hr]))]
    simp


/-- The scan of a line of `a/b/c` records, from the first record. -/
theorem getFace_scan_records (vt vn : Bool) (hslot : (!vt && vn) = false)
    (recs : List (Nat × List Char × List Char × List Char)) (hne : recs ≠ [])
    (hrec : ∀ r ∈ recs, IsRecord r) :
    ∃ text, spacedRecords recs = ' ' :: text ∧ (∀ c ∈ text, c ≠ '\n' ∧ c ≠ '\r') ∧
      ∀ (q : ObjFileParser Fl) (stale : List Char),
        getFace.loop vt vn (getNextWord (text ++ '\x00' :: stale)) 0 0 q ⟨[], [], []⟩ =
          .ok (q, ⟨recs.map (fun r => decimal r.2.1 - 1), recs.map (fun r => decimal r.2.2.1 - 1),
            recs.map (fun r => decimal r.2.2.2 - 1)⟩) := by
  cases recs with
  | nil => exact absurd rfl hne
  | cons r rs =>
    obtain ⟨n, a, b, c⟩ := r
    obtain ⟨ha, hb, hc⟩ := hrec (n, a, b, c) (by simp)
    simp only at ha hb hc
    have hsp : spacedRecords ((n, a, b, c) :: rs)
        = ' ' :: (List.replicate n ' ' ++ (a ++ '/' :: (b ++ '/' :: (c ++ spacedRecords rs)))) := by
      simp [spacedRecords, List.replicate_succ]
    have hnoeol : ∀ (rs : List (Nat × List Char × List Char × List Char)),
        (∀ r ∈ rs, IsRecord r) → ∀ x ∈ spacedRecords rs, x ≠ '\n' ∧ x ≠ '\r' := by
      intro rs
      induction rs with
      | nil => simp [spacedRecords]
      | cons r rs ih =>
        obtain ⟨n, a, b, c⟩ := r
        intro h x hx
        obtain ⟨ha, hb, hc⟩ := h (n, a, b, c) (by simp)
        simp only at ha hb hc
        simp only [spacedRecords, List.mem_append, List.mem_cons] at hx
        rcases hx with hx | hx | hx | hx | hx | hx | hx
        · rw [(List.mem_replicate.1 hx).2]; decide
        · exact isDigit_not_eol (ha.1.2.1 x hx)
        · rw [hx]; decide
        · exact isDigit_not_eol (hb.1.2.1 x hx)
        · rw [hx]; decide
        · exact isDigit_not_eol (hc.1.2.1 x hx)
        · exact ih (fun r hr => h r (by simp [hr])) x hx
    refine ⟨_, hsp, ?_, ?_⟩
    · intro x hx
      exact hnoeol ((n, a, b, c) :: rs) hrec x (by rw [hsp]; exact List.mem_cons_of_mem _ hx)
    · intro q stale
      have hword : getNextWord ((List.replicate n ' ' ++
            (a ++ '/' :: (b ++ '/' :: (c ++ spacedRecords rs)))) ++ '\x00' :: stale)
          = a ++ '/' :: (b ++ '/' :: (c ++ (spacedRecords rs ++ '\x00' :: stale))) := by
        rw [List.append_assoc, getNextWord_blanks]
        obtain ⟨h0, hd, -⟩ := ha.1
        cases a with
        | nil => exact absurd rfl h0
        | cons d a =>
          simp only [List.cons_append, List.append_assoc]
          exact getNextWord_of_not_space d _ (isSpace_of_isDigit (hd d (by simp)))
      have hscan := getFace_loop_records vt vn hslot stale q ((n, a, b, c) :: rs) 0 ⟨[], [], []⟩ hrec
      have e1 : spacedRecords ((n, a, b, c) :: rs) ++ '\x00' :: stale
          = List.replicate (n + 1) ' ' ++
            (a ++ '/' :: (b ++ '/' :: (c ++ (spacedRecords rs ++ '\x00' :: stale)))) := by
        simp [spacedRecords]
      rw [e1, getFace_loop_blanks, ← hword] at hscan
      simpa using hscan

/-- C4 (amended): a line of records `a/b/c` of plain decimal integers below `2 ^ 31`,
blank-separated, that fits the line buffer with its terminator, parsed in a model that has a
texture coordinate or has no normal, makes `getFace` store one face whose position,
texture-coordinate and normal indices are the `a - 1`, the `b - 1` and the `c - 1` values, in
record order. -/
theorem getFace_record_indices (p : ObjFileParser Fl)
    (recs : List (Nat × List Char × List Char × List Char)) (rest : List Char)
    (hne : recs ≠ []) (hrec : ∀ r ∈ recs, IsRecord r)
    (hmodel : p.m_pModel.m_TextureCoord ≠ [] ∨ p.m_pModel.m_Normals = [])
    (hfit : ('f' :: spacedRecords recs).length < p.BUFFERSIZE)
    (hcur : p.m_pModel.CurrentValid)
    (hit : p.m_DataIt = 'f' :: spacedRecords recs ++ '\n' :: rest) :
    ∃ p1, getFace p = .ok p1 ∧
      p1.m_pModel = p.m_pModel.addFace
        { m_pVertices := recs.map (fun r => decimal r.2.1 - 1)
          m_pNormals := recs.map (fun r => decimal r.2.2.2 - 1)
          m_pTexturCoords := recs.map (fun r => decimal r.2.2.1 - 1)
          m_pMaterial := p.m_pModel.activeMaterial } ∧
      p1.m_DataIt = rest := by
  have hslot : (!(!p.m_pModel.m_TextureCoord.isEmpty) && !p.m_pModel.m_Normals.isEmpty) = false := by
    rcases hmodel with h | h
    · cases hT : p.m_pModel.m_TextureCoord with
      | nil => exact absurd hT h
      | cons _ _ => simp
    · simp [h]
  obtain ⟨text, hsp, htext, hscan⟩ := @getFace_scan_records Fl
    (!p.m_pModel.m_TextureCoord.isEmpty) (!p.m_pModel.m_Normals.isEmpty) hslot recs hne hrec
  rw [hsp] at hfit hit
  obtain ⟨p1, h1, h2, h3, -⟩ := getFace_clean_line p text rest _ htext hfit hcur hit hscan
  exact ⟨p1, h1, h2, h3⟩

/-- C4, witness: `f 1/2/3 4/5/6 7/8/9` on a fresh parser gives positions `0, 3, 6`,
texture coordinates `1, 4, 7` and normals `2, 5, 8`. -/
theorem getFace_record_indices_witness :
    ∃ p1, getFace (ObjFileParser.start (List Char) "f 1/2/3 4/5/6 7/8/9\n".toList [] []
          (List.replicate 32 'x')) = .ok p1 ∧
      p1.m_pModel = (Model.new (List Char) [] none).addFace
        { m_pVertices := [0, 3, 6]
          m_pNormals := [2, 5, 8]
          m_pTexturCoords := [1, 4, 7]
          m_pMaterial := none } ∧
      p1.m_DataIt = [] :=
  getFace_record_indices
    (ObjFileParser.start (List Char) "f 1/2/3 4/5/6 7/8/9\n".toList [] [] (List.replicate 32 'x'))
    [(0, ['1'], ['2'], ['3']), (0, ['4'], ['5'], ['6']), (0, ['7'], ['8'], ['9'])] []
    (by simp) (by decide) (Or.inr rfl) (by decide)
    (by intro i h; simp [ObjFileParser.start, Model.new] at h) rfl

/-- C4, counterexample: the claim as stated bounds neither the integers nor the line.
The record `4294967297/1/1` is made of plain decimal integers, yet the face does not get
the position index `4294967296`: `atoi` returns an `int`, here 1, and the scan then steps
over one digit only. And a record line longer than the buffer stops at the `assert` of
`copyNextLine`, with no face built. -/
theorem getFace_record_indices_counterexample :
    (IsPlainDecimal "4294967297".toList ∧ decimal "4294967297".toList - 1 = 4294967296 ∧
      ∃ p1, getFace (ObjFileParser.start (List Char) "f 4294967297/1/1\n".toList [] []
          (List.replicate 32 'x')) = .ok p1 ∧
        p1.m_pModel = (Model.new (List Char) [] none).addFace
          { m_pVertices := [0, 294967296]
            m_pNormals := [0]
            m_pTexturCoords := [0]
            m_pMaterial := none }) ∧
      getFace (ObjFileParser.start (List Char) "f 1/2/3 4/5/6 7/8/9\n".toList [] []
          (List.replicate 8 'x')) = .error .assertFailed :=
  ⟨⟨by decide, by decide, _, rfl, rfl⟩, rfl⟩

/-! ## The scan ends on every line that is in the buffer with its terminator -/

theorem toInt32_natAbs_le (z : Int) : (toInt32 z).natAbs ≤ 2 ^ 31 := by
  simp only [toInt32, Int.bmod_def]
  norm_num
  split_ifs <;> omega

theorem toInt32_natAbs_of_lt (z : Int) (h : z.natAbs < 2 ^ 31) : (toInt32 z).natAbs = z.natAbs := by
  simp only [toInt32, Int.bmod_def]
  norm_num
  split_ifs <;> omega

/-- The step count of an `int` made of at most `d` digits is at most `d`, and at least 1. -/
theorem countSteps_toInt32_le (z : Int) (d : Nat) (h : z.natAbs < 10 ^ d) :
    getFace.countSteps 32 (toInt32 z) 1 ≤ max 1 d := by
  by_cases hd : d ≤ 9
  · have h9 : (10 : Nat) ^ d ≤ 10 ^ 9 := Nat.pow_le_pow_right (by omega) hd
    have hz : z.natAbs < 2 ^ 31 := by
      have : (10 : Nat) ^ 9 < 2 ^ 31 := by norm_num
      omega
    have := countSteps_le 32 (toInt32 z) 1 d (by rw [toInt32_natAbs_of_lt z hz]; exact h)
    omega
  · have h10 : (toInt32 z).natAbs < 10 ^ 10 := by
      have := toInt32_natAbs_le z
      have : (2 : Nat) ^ 31 < 10 ^ 10 := by norm_num
      omega
    have := countSteps_le 32 (toInt32 z) 1 10 h10
    omega

theorem cString_cons_length (c : Char) (cs : List Char) (h : c ≠ '\x00') :
    (cString (c :: cs)).length = (cString cs).length + 1 := by
  simp [cString, List.takeWhile_cons, h]

theorem atoi_digits_total : ∀ (l : List Char) (acc : Nat), '\x00' ∈ l →
    ∃ n d, atoi.digits l acc = .ok n ∧ d ≤ (cString l).length ∧ n < (acc + 1) * 10 ^ d := by
  intro l
  induction l with
  | nil => intro acc h; simp at h
  | cons c cs ih =>
    intro acc h
    rw [atoi.digits]
    by_cases hc : c.isDigit = true
    · have hc0 : c ≠ '\x00' := ne_of_isDigit hc _ (by decide)
      have hmem : '\x00' ∈ cs := by
        rcases List.mem_cons.1 h with h | h
        · exact absurd h.symm hc0
        · exact h
      obtain ⟨n, d, e, hd, hn⟩ := ih (10 * acc + (c.toNat - '0'.toNat)) hmem
      refine ⟨n, d + 1, by simp only [hc, if_true]; exact e,
        by rw [cString_cons_length c cs hc0]; omega, ?_⟩
      have h9 := digit_value_le hc
      calc n < (10 * acc + (c.toNat - '0'.toNat) + 1) * 10 ^ d := hn
        _ ≤ ((acc + 1) * 10) * 10 ^ d := Nat.mul_le_mul_right _ (by omega)
        _ = (acc + 1) * 10 ^ (d + 1) := by rw [Nat.pow_succ']; ring
    · exact ⟨acc, 0, by simp [hc], by omega, by omega⟩

/-- `atoi` on cells that hold a terminator returns, and the `int` it returns moves `pPtr`
by no more cells than lie before the terminator (one cell on the terminator itself). -/
theorem atoi_total : ∀ (l : List Char), '\x00' ∈ l →
    ∃ v, atoi l = .ok v ∧ getFace.countSteps 32 v 1 ≤ max 1 (cString l).length := by
  intro l
  induction l with
  | nil => intro h; simp at h
  | cons c cs ih =>
    intro h
    rw [atoi]
    by_cases hsp : isspace c = true
    · have hc0 : c ≠ '\x00' := by rintro rfl; simp [isspace] at hsp
      have hmem : '\x00' ∈ cs := by
        rcases List.mem_cons.1 h with h | h
        · exact absurd h.symm hc0
        · exact h
      obtain ⟨v, e, hv⟩ := ih hmem
      refine ⟨v, by simp [hsp, e], ?_⟩
      rw [cString_cons_length c cs hc0]; omega
    · simp only [hsp, if_false]
      by_cases hm : c = '-'
      · have hmem : '\x00' ∈ cs := by
          rcases List.mem_cons.1 h with h | h
          · rw [hm] at h; exact absurd h (by decide)
          · exact h
        obtain ⟨n, d, e, hd, hn⟩ := atoi_digits_total cs 0 hmem
        refine ⟨toInt32 (-(n : Int)), by simp [hm, e], ?_⟩
        have := countSteps_toInt32_le (-(n : Int)) d (by simpa using hn)
        rw [cString_cons_length c cs (by rw [hm]; decide)]; omega
      · by_cases hpl : c = '+'
        · have hmem : '\x00' ∈ cs := by
            rcases List.mem_cons.1 h with h | h
            · rw [hpl] at h; exact absurd h (by decide)
            · exact h
          obtain ⟨n, d, e, hd, hn⟩ := atoi_digits_total cs 0 hmem
          refine ⟨toInt32 (n : Int), by simp [hm, hpl, e], ?_⟩
          have := countSteps_toInt32_le (n : Int) d (by simpa using hn)
          rw [cString_cons_length c cs (by rw [hpl]; decide)]; omega
        · obtain ⟨n, d, e, hd, hn⟩ := atoi_digits_total (c :: cs) 0 h
          refine ⟨toInt32 (n : Int), by simp [hm, hpl, e], ?_⟩
          have := countSteps_toInt32_le (n : Int) d (by simpa using hn)
          omega

/-- The scan returns on cells that hold a terminator, from any state. -/
theorem getFace_loop_total (vt vn : Bool) : ∀ (cs : List Char) (pending : Nat) (iPos : Int)
    (p : ObjFileParser Fl) (ix : FaceIndices), '\x00' ∈ cs → pending ≤ (cString cs).length →
    ∃ r, getFace.loop vt vn cs pending iPos p ix = .ok r := by
  intro cs
  induction cs with
  | nil => intro pending iPos p ix h; simp at h
  | cons c cs ih =>
    intro pending iPos p ix h hp
    cases pending with
    | succ n =>
      have hc0 : c ≠ '\x00' := by
        rintro rfl; simp [cString] at hp
      have hmem : '\x00' ∈ cs := by
        rcases List.mem_cons.1 h with h | h
        · exact absurd h.symm hc0
        · exact h
      rw [getFace.loop]
      rw [cString_cons_length c cs hc0] at hp
      exact ih n iPos p ix hmem (by omega)
    | zero =>
      rw [getFace.loop]
      by_cases hc0 : c = '\x00'
      · exact ⟨(p, ix), by simp [hc0]⟩
      · have hmem : '\x00' ∈ cs := by
          rcases List.mem_cons.1 h with h | h
          · exact absurd h.symm hc0
          · exact h
        simp only [hc0, if_false]
        by_cases hcr : c = '\r'
        · exact ⟨(p, ix), by simp [hcr]⟩
        · simp only [hcr, if_false]
          by_cases hsl : c = '/'
          · simp only [hsl, if_true]
            exact ih _ _ _ _ hmem (by omega)
          · simp only [hsl, if_false]
            by_cases hsp : isSpace c = true
            · simp only [hsp, if_true]
              exact ih _ _ _ _ hmem (by omega)
            · simp only [hsp, if_false]
              obtain ⟨v, e, hv⟩ := atoi_total (c :: cs) h
              rw [cString_cons_length c cs hc0] at hv
              simp only [e]
              exact ih _ _ _ _ hmem (by omega)

/-! ## `getFace` on every line whose tag is followed by whitespace -/

theorem mem_append_nul (text stale : List Char) : '\x00' ∈ getNextWord (text ++ '\x00' :: stale) := by
  induction text with
  | nil => simp [getNextWord, isSpace]
  | cons c text ih =>
    rw [List.cons_append, getNextWord]
    split_ifs
    · exact ih
    · simp

/-- `getFace` returns on a line that fits the buffer and has whitespace after its tag: the
scan returns index vectors `ix` after `k` calls of `skipLine`, and the face made of `ix`
with the active material is added to the model. -/
theorem getFace_line (p : ObjFileParser Fl) (tag : List Char) (w : Char)
    (text : List Char) (t : Char) (rest : List Char)
    (htag : ∀ c ∈ tag, isSpace c = false) (hw : isSpace w = true)
    (hwn : w ≠ '\n' ∧ w ≠ '\r') (htext : ∀ c ∈ text, c ≠ '\n' ∧ c ≠ '\r')
    (ht : t = '\n' ∨ t = '\r') (hfit : (tag ++ w :: text).length < p.m_buffer.length)
    (hcur : p.m_pModel.CurrentValid)
    (hit : p.m_DataIt = (tag ++ w :: text) ++ t :: rest) :
    ∃ k ix,
      getFace.loop (!p.m_pModel.m_TextureCoord.isEmpty) (!p.m_pModel.m_Normals.isEmpty)
        (getNextWord (text ++ '\x00' :: p.m_buffer.drop ((tag ++ w :: text).length + 1))) 0 0
        (afterCopy p (tag ++ w :: text) (t :: rest)) ⟨[], [], []⟩
        = .ok (skipLine^[k] (afterCopy p (tag ++ w :: text) (t :: rest)), ix) ∧
      getFace p = .ok (skipLine { skipLine^[k] (afterCopy p (tag ++ w :: text) (t :: rest)) with
        m_pModel := (p.m_pModel.addFace (ix.toFace p.m_pModel.activeMaterial)) }) := by
  obtain ⟨⟨p2, ix⟩, hr⟩ := getFace_loop_total (!p.m_pModel.m_TextureCoord.isEmpty)
    (!p.m_pModel.m_Normals.isEmpty)
    (getNextWord (text ++ '\x00' :: p.m_buffer.drop ((tag ++ w :: text).length + 1))) 0 0
    (afterCopy p (tag ++ w :: text) (t :: rest)) ⟨[], [], []⟩ (mem_append_nul _ _) (by omega)
  obtain ⟨k, hk⟩ := getFace_loop_frame _ _ _ _ _ _ _ _ _ hr
  subst hk
  refine ⟨k, ix, hr, ?_⟩
  have hg := getFace_of_scan p tag w text t rest _ ix htag hw hwn htext ht hfit hit hr
  have hm : (skipLine^[k] (afterCopy p (tag ++ w :: text) (t :: rest))).m_pModel = p.m_pModel := by
    rw [skipLine_iterate_m_pModel]; rfl
  rw [getFace_finish_valid _ _ (by rw [hm]; exact hcur), hm] at hg
  exact hg

/-- The copy loop stops before an end-of-line byte when the input holds one. -/
theorem copyNextLine_loop_cursor (length : Nat) : ∀ (it pBuffer : List Char) (index : Nat)
    (r : List Char × List Char × Nat), copyNextLine.loop length it pBuffer index = .ok r →
    ('\n' ∈ it ∨ '\r' ∈ it) → r.1 ≠ [] := by
  intro it
  induction it with
  | nil => intro pBuffer index r _ h; simp at h
  | cons c cs ih =>
    intro pBuffer index r h hmem
    rw [copyNextLine.loop] at h
    by_cases h1 : c = '\n'
    · simp only [h1, decide_True, Bool.true_or, if_true, Except.ok.injEq] at h
      rw [← h]; simp
    · by_cases h2 : c = '\r'
      · simp only [h2, decide_True, Bool.or_true, if_true, Except.ok.injEq] at h
        rw [← h]; simp
      · have hmem' : '\n' ∈ cs ∨ '\r' ∈ cs := by
          rcases hmem with h3 | h3
          · rcases List.mem_cons.1 h3 with h4 | h4
            · exact absurd h4.symm h1
            · exact Or.inl h4
          · rcases List.mem_cons.1 h3 with h4 | h4
            · exact absurd h4.symm h2
            · exact Or.inr h4
        simp only [h1, h2, decide_False, Bool.or_self, Bool.false_eq_true, if_false] at h
        by_cases h5 : index + 1 ≤ length
        · simp only [h5, if_true] at h
          cases hwb : writeBuffer pBuffer index c with
          | error e => rw [hwb] at h; exact absurd h (by simp)
          | ok b => rw [hwb] at h; exact ih _ _ _ h hmem'
        · simp only [h5, if_false] at h
          exact absurd h (by simp)

theorem copyNextLine_frame (p q : ObjFileParser Fl) (length : Nat)
    (h : copyNextLine p length = .ok q) :
    q.m_pModel = p.m_pModel ∧ (('\n' ∈ p.m_DataIt ∨ '\r' ∈ p.m_DataIt) → q.m_DataIt ≠ []) := by
  unfold copyNextLine at h
  cases hl : copyNextLine.loop length p.m_DataIt p.m_buffer 0 with
  | error e => simp [hl] at h
  | ok r =>
    obtain ⟨it, pBuffer, index⟩ := r
    simp only [hl] at h
    cases hwb : writeBuffer pBuffer index '\x00' with
    | error e => simp [hwb] at h
    | ok b =>
      simp only [hwb, Except.ok.injEq] at h
      subst h
      exact ⟨rfl, fun hm => copyNextLine_loop_cursor length _ _ _ _ hl hm⟩

/-- Whenever `getFace` returns on a line that an end-of-line byte ends, it has added one
face to the model, made of the index vectors the scan returned and the active material. -/
theorem getFace_ok (p p1 : ObjFileParser Fl) (h : getFace p = .ok p1)
    (hnl : '\n' ∈ p.m_DataIt ∨ '\r' ∈ p.m_DataIt) :
    ∃ ix : FaceIndices, p.m_pModel.CurrentValid ∧
      p1.m_pModel = p.m_pModel.addFace (ix.toFace p.m_pModel.activeMaterial) ∧
      ∃ (q p2 : ObjFileParser Fl),
        getFace.loop (!p.m_pModel.m_TextureCoord.isEmpty) (!p.m_pModel.m_Normals.isEmpty)
          (getNextToken q.m_buffer) 0 0 q ⟨[], [], []⟩ = .ok (p2, ix) := by
  unfold getFace at h
  cases hc : copyNextLine p p.BUFFERSIZE with
  | error e => simp [hc] at h
  | ok q =>
    obtain ⟨hm, hd⟩ := copyNextLine_frame p q _ hc
    simp only [hc, hd hnl, if_false] at h
    cases hl : getFace.loop (!q.m_pModel.m_TextureCoord.isEmpty) (!q.m_pModel.m_Normals.isEmpty)
        (getNextToken q.m_buffer) 0 0 q ⟨[], [], []⟩ with
    | error e => simp [hl] at h
    | ok r =>
      obtain ⟨p2, ix⟩ := r
      simp only [hl] at h
      obtain ⟨k, hk⟩ := getFace_loop_frame _ _ _ _ _ _ _ _ _ hl
      have hm2 : p2.m_pModel = p.m_pModel := by rw [hk, skipLine_iterate_m_pModel, hm]
      obtain ⟨hv, he⟩ := getFace_finish_ok p2 p1 ix h
      rw [hm2] at hv
      refine ⟨ix, hv, ?_, q, p2, by rw [← hm]; exact hl⟩
      rw [he]; simp [hm2]

/-! ## Where the face goes -/

/-- C8: whenever `getFace` returns on a newline-terminated line, the new face references
the current material, or the default material when none is current, and it is the last
face of the object that was current before the line; with no current object, a new object
named `defaultobject` is appended to `m_Objects`, becomes current and holds the face as its
only face. And `getFace` does return on every line that fits the buffer with its
terminator and has whitespace after its tag, when `m_pCurrent` is null or points into
`m_Objects`. -/
theorem getFace_stores_face (p : ObjFileParser Fl) (hnl : '\n' ∈ p.m_DataIt) :
    (∀ p1, getFace p = .ok p1 →
      ∃ face : Face,
        face.m_pMaterial = (match p.m_pModel.m_pCurrentMaterial with
          | some pMaterial => some pMaterial
          | none => p.m_pModel.m_pDefaultMaterial) ∧
        (∀ i, p.m_pModel.m_pCurrent = some i →
          ∃ o, p.m_pModel.m_Objects[i]? = some o ∧
            p1.m_pModel.m_Objects =
              p.m_pModel.m_Objects.set i { o with m_Faces := o.m_Faces ++ [face] } ∧
            p1.m_pModel.m_pCurrent = some i) ∧
        (p.m_pModel.m_pCurrent = none →
          p1.m_pModel.m_Objects = p.m_pModel.m_Objects ++
            [{ m_strObjName := "defaultobject".toList, m_Faces := [face] }] ∧
          p1.m_pModel.m_pCurrent = some p.m_pModel.m_Objects.length)) ∧
    (∀ (tag : List Char) (w : Char) (text : List Char) (t : Char) (rest : List Char),
      (∀ c ∈ tag, isSpace c = false) → isSpace w = true → w ≠ '\n' ∧ w ≠ '\r' →
      (∀ c ∈ text, c ≠ '\n' ∧ c ≠ '\r') → t = '\n' ∨ t = '\r' →
      p.m_DataIt = (tag ++ w :: text) ++ t :: rest →
      (tag ++ w :: text).length < p.BUFFERSIZE → p.m_pModel.CurrentValid →
      ∃ p1, getFace p = .ok p1) := by
  constructor
  · intro p1 h
    obtain ⟨ix, hv, hm, -⟩ := getFace_ok p p1 h (Or.inl hnl)
    refine ⟨ix.toFace p.m_pModel.activeMaterial, rfl, ?_, ?_⟩
    · intro i hi
      have hlt := hv i hi
      have hget : p.m_pModel.m_Objects[i]? = some (p.m_pModel.m_Objects[i]) :=
        List.getElem?_eq_getElem hlt
      refine ⟨_, hget, ?_, ?_⟩ <;> simp [hm, Model.addFace, hi, hget]
    · intro hnone
      constructor <;> simp [hm, Model.addFace, hnone]
  · intro tag w text t rest htag hw hwn htext ht hit hfit hcur
    obtain ⟨k, ix, -, hg⟩ := getFace_line p tag w text t rest htag hw hwn htext ht hfit hcur hit
    exact ⟨_, hg⟩

/-- C8, witness: on a fresh parser the line `f 1 2 3` makes the object `defaultobject`,
current, with the new face alone, and the face has the null default material. -/
theorem getFace_stores_face_witness :
    ∃ p1 face, getFace (ObjFileParser.start (List Char) "f 1 2 3\n".toList [] []
          (List.replicate 16 'x')) = .ok p1 ∧
      face.m_pMaterial = none ∧
      p1.m_pModel.m_Objects = [{ m_strObjName := "defaultobject".toList, m_Faces := [face] }] ∧
      p1.m_pModel.m_pCurrent = some 0 := by
  have h := getFace_stores_face
    (ObjFileParser.start (List Char) "f 1 2 3\n".toList [] [] (List.replicate 16 'x')) (by decide)
  obtain ⟨p1, h1⟩ := h.2 ['f'] ' ' "1 2 3".toList '\n' [] (by decide) (by decide) (by decide)
    (by decide) (Or.inl rfl) rfl (by decide)
    (by intro i hi; simp [ObjFileParser.start, Model.new] at hi)
  obtain ⟨face, hm, -, hnone⟩ := h.1 p1 h1
  exact ⟨p1, face, h1, hm, (hnone rfl).1, (hnone rfl).2⟩

/-! ## A face line that the end of the input ends -/

/-- C9 (defect): a face line with no end-of-line byte after it builds no face. After
`copyNextLine` the cursor is at `m_DataItEnd`, and `getFace` returns at once: the model is
as before. -/
theorem getFace_at_end_of_input (p : ObjFileParser Fl) (line : List Char)
    (hline : ∀ c ∈ line, c ≠ '\n' ∧ c ≠ '\r') (hfit : line.length < p.BUFFERSIZE)
    (hit : p.m_DataIt = line) :
    getFace p = .ok (afterCopy p line []) ∧ (afterCopy p line []).m_pModel = p.m_pModel := by
  refine ⟨?_, rfl⟩
  unfold getFace
  rw [copyNextLine_eof p line hline hfit hit]
  simp [afterCopy]

/-- C9, witness: the input `f 1 2 3` with no trailing newline leaves a fresh model with
no object and no face. -/
theorem getFace_at_end_of_input_witness :
    ∃ p1, parseFile Env.text (ObjFileParser.start (List Char) "f 1 2 3".toList [] []
          (List.replicate 16 'x')) = .ok p1 ∧
      p1.m_pModel = Model.new (List Char) [] none ∧ p1.m_pModel.faceCount = 0 ∧
      p1.m_DataIt = [] := by
  have h := getFace_at_end_of_input
    (ObjFileParser.start (List Char) "f 1 2 3".toList [] [] (List.replicate 16 'x'))
    "f 1 2 3".toList (by decide) (by decide) rfl
  refine ⟨_, ?_, h.2, rfl, rfl⟩
  rw [← h.1]
  rfl

/-! ## Records `a//c` in a model with normals and no texture coordinates -/

theorem spacedPairs_append_nul (rs : List (Nat × List Char × List Char)) (stale : List Char) :
    ∃ c r, spacedPairs rs ++ '\x00' :: stale = c :: r ∧ c.isDigit = false := by
  cases rs with
  | nil => exact ⟨'\x00', stale, rfl, by decide⟩
  | cons r rs =>
    obtain ⟨n, a, c⟩ := r
    exact ⟨' ', List.replicate n ' ' ++ (a ++ '/' :: '/' :: (c ++ spacedPairs rs))
      ++ '\x00' :: stale, by simp [spacedPairs, List.replicate_succ], by decide⟩

/-- The scan over `a//c` records when the first slash of a record moves to the normal slot:
the second slash moves to slot 3, so every `c` is reported and none is stored. -/
theorem getFace_loop_pairs (vt vn : Bool) (hslot : (!vt && vn) = true) (stale : List Char) :
    ∀ (rs : List (Nat × List Char × List Char)) (iPos : Int) (p : ObjFileParser Fl)
      (ix : FaceIndices),
      (∀ r ∈ rs, (IsPlainDecimal r.2.1 ∧ decimal r.2.1 < 2 ^ 31) ∧
        (IsPlainDecimal r.2.2 ∧ decimal r.2.2 < 2 ^ 31)) →
      getFace.loop vt vn (spacedPairs rs ++ '\x00' :: stale) 0 iPos p ix =
        .ok (skipLine^[rs.length] p,
          { ix with pIndices := ix.pIndices ++ rs.map (fun r => decimal r.2.1 - 1) }) := by
  intro rs
  induction rs with
  | nil => intro iPos p ix _; simp [spacedPairs, getFace_loop_nul]
  | cons r rs ih =>
    intro iPos p ix h
    obtain ⟨n, a, c⟩ := r
    obtain ⟨ha, hc⟩ := h (n, a, c) (by simp)
    simp only at ha hc
    obtain ⟨d, r, hcr, hd⟩ := spacedPairs_append_nul rs stale
    have e1 : spacedPairs ((n, a, c) :: rs) ++ '\x00' :: stale
        = List.replicate (n + 1) ' ' ++ (a ++ '/' :: ('/' :: (c ++ d :: r))) := by
      simp [spacedPairs, ← hcr]
    rw [e1, getFace_loop_blanks, getFace_loop_plain vt vn a '/' _ ha.1 ha.2 (by decide),
      getFace_store_plain a ha.1 ha.2]
    simp only [if_true]
    rw [getFace_loop_slash]
    simp only [hslot, and_self, if_true]
    rw [getFace_loop_slash]
    simp only [show ((1 : Int) + 1) = 2 by decide, show ¬ ((2 : Int) = 0) by decide,
      false_and, if_false, show ((2 : Int) + 1) = 3 by decide]
    rw [getFace_loop_plain vt vn c d r hc.1 hc.2 hd, getFace_store_plain c hc.1 hc.2]
    simp only [show ¬ ((3 : Int) = 0) by decide, show ¬ ((3 : Int) = 1) by decide,
      show ¬ ((3 : Int) = 2) by decide, if_false, ← hcr, reportErrorTokenInFace]
    rw [ih _ _ _ (fun r hr => h r (by simp [hr]))]
    simp [Function.iterate_succ_apply]

theorem skipLine_m_DataIt_eq (p : ObjFileParser Fl) : (skipLine p).m_DataIt = dropLine p.m_DataIt := by
  unfold skipLine dropLine
  split <;> simp_all

theorem skipLine_iterate_m_DataIt (k : Nat) (p : ObjFileParser Fl) :
    (skipLine^[k] p).m_DataIt = dropLine^[k] p.m_DataIt := by
  induction k generalizing p with
  | zero => rfl
  | succ k ih => rw [Function.iterate_succ_apply, ih, skipLine_m_DataIt_eq, Function.iterate_succ_apply]

theorem dropLine_newline (rest : List Char) : dropLine ('\n' :: rest) = rest := by
  simp [dropLine, skipLine.loop]

theorem spacedPairs_not_eol : ∀ (rs : List (Nat × List Char × List Char)),
    (∀ r ∈ rs, (IsPlainDecimal r.2.1 ∧ decimal r.2.1 < 2 ^ 31) ∧
      (IsPlainDecimal r.2.2 ∧ decimal r.2.2 < 2 ^ 31)) →
    ∀ x ∈ spacedPairs rs, x ≠ '\n' ∧ x ≠ '\r' := by
  intro rs
  induction rs with
  | nil => simp [spacedPairs]
  | cons r rs ih =>
    obtain ⟨n, a, c⟩ := r
    intro h x hx
    obtain ⟨ha, hc⟩ := h (n, a, c) (by simp)
    simp only at ha hc
    simp only [spacedPairs, List.mem_append, List.mem_cons] at hx
    rcases hx with hx | hx | hx | hx | hx | hx
    · rw [(List.mem_replicate.1 hx).2]; decide
    · exact isDigit_not_eol (ha.1.2.1 x hx)
    · rw [hx]; decide
    · rw [hx]; decide
    · exact isDigit_not_eol (hc.1.2.1 x hx)
    · exact ih (fun r hr => h r (by simp [hr])) x hx

/-- C5 (defect): in a model with a normal and no texture coordinate, a line of records
`a//c` makes `getFace` store a face with the position indices `a - 1` and with no normal
index at all: every `c` is found in slot 3 and reported. Each report skips a line of the
input, so the cursor ends one line further for every record. -/
theorem getFace_pair_records (p : ObjFileParser Fl)
    (recs : List (Nat × List Char × List Char)) (rest : List Char) (hne : recs ≠ [])
    (hrec : ∀ r ∈ recs, (IsPlainDecimal r.2.1 ∧ decimal r.2.1 < 2 ^ 31) ∧
      (IsPlainDecimal r.2.2 ∧ decimal r.2.2 < 2 ^ 31))
    (hT : p.m_pModel.m_TextureCoord = []) (hN : p.m_pModel.m_Normals ≠ [])
    (hfit : ('f' :: spacedPairs recs).length < p.BUFFERSIZE)
    (hcur : p.m_pModel.CurrentValid)
    (hit : p.m_DataIt = 'f' :: spacedPairs recs ++ '\n' :: rest) :
    ∃ p1, getFace p = .ok p1 ∧
      p1.m_pModel = p.m_pModel.addFace
        { m_pVertices := recs.map (fun r => decimal r.2.1 - 1)
          m_pNormals := []
          m_pTexturCoords := []
          m_pMaterial := p.m_pModel.activeMaterial } ∧
      p1.m_DataIt = dropLine^[recs.length] rest := by
  have hslot : (!(!p.m_pModel.m_TextureCoord.isEmpty) && !p.m_pModel.m_Normals.isEmpty) = true := by
    cases hNn : p.m_pModel.m_Normals with
    | nil => exact absurd hNn hN
    | cons _ _ => simp [hT]
  cases recs with
  | nil => exact absurd rfl hne
  | cons r rs =>
    obtain ⟨n, a, c⟩ := r
    obtain ⟨ha, hc⟩ := hrec (n, a, c) (by simp)
    simp only at ha hc
    have hsp : spacedPairs ((n, a, c) :: rs)
        = ' ' :: (List.replicate n ' ' ++ (a ++ '/' :: '/' :: (c ++ spacedPairs rs))) := by
      simp [spacedPairs, List.replicate_succ]
    have htext : ∀ x ∈ List.replicate n ' ' ++ (a ++ '/' :: '/' :: (c ++ spacedPairs rs)),
        x ≠ '\n' ∧ x ≠ '\r' := fun x hx =>
      spacedPairs_not_eol ((n, a, c) :: rs) hrec x (by rw [hsp]; exact List.mem_cons_of_mem _ hx)
    rw [hsp] at hfit hit
    obtain ⟨k, ix, hl, hg⟩ := getFace_line p ['f'] ' ' _ '\n' rest (by decide) (by decide)
      (by decide) htext (Or.inl rfl) (by simpa [ObjFileParser.BUFFERSIZE] using hfit) hcur
      (by rw [hit]; simp)
    generalize hst : List.drop ((['f'] ++ ' ' ::
      (List.replicate n ' ' ++ (a ++ '/' :: '/' :: (c ++ spacedPairs rs)))).length + 1)
      p.m_buffer = stale at hl
    generalize hq : afterCopy p (['f'] ++ ' ' ::
      (List.replicate n ' ' ++ (a ++ '/' :: '/' :: (c ++ spacedPairs rs)))) ('\n' :: rest) = q
      at hl hg
    have hword : getNextWord ((List.replicate n ' ' ++
          (a ++ '/' :: '/' :: (c ++ spacedPairs rs))) ++ '\x00' :: stale)
        = a ++ '/' :: '/' :: (c ++ (spacedPairs rs ++ '\x00' :: stale)) := by
      rw [List.append_assoc, getNextWord_blanks]
      obtain ⟨h0, hd, -⟩ := ha.1
      cases a with
      | nil => exact absurd rfl h0
      | cons d a =>
        simp only [List.cons_append, List.append_assoc]
        exact getNextWord_of_not_space d _ (isSpace_of_isDigit (hd d (by simp)))
    have hscan := getFace_loop_pairs _ _ hslot stale ((n, a, c) :: rs) 0 q ⟨[], [], []⟩ hrec
    have e1 : spacedPairs ((n, a, c) :: rs) ++ '\x00' :: stale
        = List.replicate (n + 1) ' ' ++
          (a ++ '/' :: '/' :: (c ++ (spacedPairs rs ++ '\x00' :: stale))) := by
      simp [spacedPairs]
    rw [e1, getFace_loop_blanks, ← hword, hl] at hscan
    simp only [Except.ok.injEq, Prod.mk.injEq, List.nil_append] at hscan
    obtain ⟨hk, hix⟩ := hscan
    refine ⟨_, hg, ?_, ?_⟩
    · simp [hix, FaceIndices.toFace]
    · rw [skipLine_m_DataIt_eq]
      show dropLine (skipLine^[k] q).m_DataIt = _
      rw [hk, skipLine_iterate_m_DataIt, ← Function.iterate_succ_apply' dropLine,
        Function.iterate_succ_apply, ← hq]
      simp [afterCopy, dropLine_newline]

/-- C5, witness: with one normal and no texture coordinate declared, the line `f 1//3 4//6`
gives the position indices `0, 3` and no normal index; the next two lines are skipped. -/
theorem getFace_pair_records_witness :
    ∃ p1, getFace
        { ObjFileParser.start (List Char) "f 1//3 4//6\nv 1 2 3\nv 4 5 6\nv 7 8 9\n".toList [] []
            (List.replicate 16 'x') with
          m_pModel := { Model.new (List Char) [] none with m_Normals := [([], [], [])] } } = .ok p1 ∧
      p1.m_pModel = ({ Model.new (List Char) [] none with m_Normals := [([], [], [])] }).addFace
        { m_pVertices := [0, 3]
          m_pNormals := []
          m_pTexturCoords := []
          m_pMaterial := none } ∧
      p1.m_DataIt = "v 7 8 9\n".toList :=
  getFace_pair_records
    { ObjFileParser.start (List Char) "f 1//3 4//6\nv 1 2 3\nv 4 5 6\nv 7 8 9\n".toList [] []
        (List.replicate 16 'x') with
      m_pModel := { Model.new (List Char) [] none with m_Normals := [([], [], [])] } }
    [(0, ['1'], ['3']), (0, ['4'], ['6'])] "v 1 2 3\nv 4 5 6\nv 7 8 9\n".toList
    (by simp) (by decide) rfl (by simp [Model.new]) (by decide)
    (by intro i hi; simp [ObjFileParser.start, Model.new] at hi) rfl

/-! ## Lines without a slash -/

theorem getFace_store_slot_zero (iVal : Int) (p : ObjFileParser Fl) (ix : FaceIndices) :
    (getFace.store 0 iVal p ix).1 = p ∧ (getFace.store 0 iVal p ix).2.pTexID = ix.pTexID ∧
      (getFace.store 0 iVal p ix).2.pNormalID = ix.pNormalID := by
  unfold getFace.store
  split_ifs <;> simp_all

theorem cString_cons (c : Char) (cs : List Char) (h : c ≠ '\x00') :
    cString (c :: cs) = c :: cString cs := by
  simp [cString, List.takeWhile_cons, h]

/-- On cells with no slash before the terminator the scan stays in slot 0: it reports
nothing and stores in the position vector only. -/
theorem getFace_loop_no_slash (vt vn : Bool) : ∀ (cs : List Char) (pending : Nat)
    (p : ObjFileParser Fl) (ix : FaceIndices), '\x00' ∈ cs → pending ≤ (cString cs).length →
    (∀ c ∈ cString cs, c ≠ '/') →
    ∃ ix2, getFace.loop vt vn cs pending 0 p ix = .ok (p, ix2) ∧ ix2.pTexID = ix.pTexID ∧
      ix2.pNormalID = ix.pNormalID := by
  intro cs
  induction cs with
  | nil => intro pending p ix h; simp at h
  | cons c cs ih =>
    intro pending p ix h hp hsl
    by_cases hc0 : c = '\x00'
    · subst hc0
      have : pending = 0 := by simpa [cString] using hp
      subst this
      exact ⟨ix, by simp [getFace.loop], rfl, rfl⟩
    · have hmem : '\x00' ∈ cs := by
        rcases List.mem_cons.1 h with h | h
        · exact absurd h.symm hc0
        · exact h
      rw [cString_cons c cs hc0] at hp hsl
      have hsl' : ∀ d ∈ cString cs, d ≠ '/' := fun d hd => hsl d (List.mem_cons_of_mem _ hd)
      have hcs : c ≠ '/' := hsl c (by simp)
      simp only [List.length_cons] at hp
      cases pending with
      | succ n =>
        rw [getFace.loop]
        exact ih n p ix hmem (by omega) hsl'
      | zero =>
        rw [getFace.loop]
        simp only [hc0, if_false]
        by_cases hcr : c = '\r'
        · exact ⟨ix, by simp [hcr], rfl, rfl⟩
        · simp only [hcr, hcs, if_false]
          by_cases hsp : isSpace c = true
          · simp only [hsp, if_true]
            exact ih _ _ _ hmem (by omega) hsl'
          · simp only [hsp, if_false]
            obtain ⟨v, e, hv⟩ := atoi_total (c :: cs) h
            rw [cString_cons_length c cs hc0] at hv
            simp only [e]
            obtain ⟨h1, h2, h3⟩ := getFace_store_slot_zero v p ix
            rw [h1]
            obtain ⟨ix2, e2, h4, h5⟩ := ih (getFace.countSteps 32 v 1 - 1) p
              (getFace.store 0 v p ix).2 hmem (by omega) hsl'
            exact ⟨ix2, e2, h4.trans h2, h5.trans h3⟩

theorem mem_cString_getNextWord (text stale : List Char) :
    ∀ c ∈ cString (getNextWord (text ++ '\x00' :: stale)), c ∈ text := by
  induction text with
  | nil => simp [getNextWord, isSpace, cString]
  | cons d text ih =>
    intro c hc
    rw [List.cons_append, getNextWord] at hc
    split_ifs at hc
    · exact List.mem_cons_of_mem _ (ih c hc)
    · by_cases hd : d = '\x00'
      · subst hd; simp [cString] at hc
      · rw [cString_cons d _ hd, List.mem_cons] at hc
        rcases hc with hc | hc
        · rw [hc]; simp
        · have : c ∈ cString (text ++ '\x00' :: stale) := hc
          rw [cString_append_nul] at this
          exact List.mem_cons_of_mem _ (List.takeWhile_subset _ this)

/-- `getFace` on a line `tag w text` with whitespace `w` after the tag and no slash in
`text`, which fits the buffer with its terminator: one face is added, with no
texture-coordinate index and no normal index, and the cursor ends after the line. -/
theorem getFace_no_slash (p : ObjFileParser Fl) (tag : List Char) (w : Char)
    (text rest : List Char)
    (htag : ∀ c ∈ tag, isSpace c = false) (hw : isSpace w = true) (hwn : w ≠ '\n' ∧ w ≠ '\r')
    (htext : ∀ c ∈ text, c ≠ '\n' ∧ c ≠ '\r' ∧ c ≠ '/')
    (hfit : (tag ++ w :: text).length < p.BUFFERSIZE) (hcur : p.m_pModel.CurrentValid)
    (hit : p.m_DataIt = (tag ++ w :: text) ++ '\n' :: rest) :
    ∃ p1 face, getFace p = .ok p1 ∧ p1.m_pModel = p.m_pModel.addFace face ∧
      face.m_pTexturCoords = [] ∧ face.m_pNormals = [] ∧
      face.m_pMaterial = p.m_pModel.activeMaterial ∧
      p1.m_DataIt = rest ∧ p1.m_buffer.length = p.m_buffer.length := by
  obtain ⟨k, ix, hl, hg⟩ := getFace_line p tag w text '\n' rest htag hw hwn
    (fun c hc => ⟨(htext c hc).1, (htext c hc).2.1⟩) (Or.inl rfl) hfit hcur hit
  obtain ⟨ix2, e2, h4, h5⟩ := getFace_loop_no_slash (!p.m_pModel.m_TextureCoord.isEmpty)
    (!p.m_pModel.m_Normals.isEmpty)
    (getNextWord (text ++ '\x00' :: p.m_buffer.drop ((tag ++ w :: text).length + 1))) 0
    (afterCopy p (tag ++ w :: text) ('\n' :: rest)) ⟨[], [], []⟩ (mem_append_nul _ _) (by omega)
    (fun c hc => (htext c (mem_cString_getNextWord _ _ c hc)).2.2)
  rw [hl] at e2
  simp only [Except.ok.injEq, Prod.mk.injEq] at e2
  obtain ⟨hk, hix⟩ := e2
  rw [hk] at hg
  refine ⟨_, ix.toFace p.m_pModel.activeMaterial, hg, by simp, ?_, ?_, rfl, ?_, ?_⟩
  · rw [hix]; exact h4
  · rw [hix]; exact h5
  · exact skipLine_m_DataIt _ [] rest (by simp) rfl
  · simp [afterCopy]
    have : (tag ++ w :: text).length < p.m_buffer.length := hfit
    simp at this
    omega

/-- C6 (defect): a face line whose tag is followed by no whitespace before the end of the
line is scanned beyond its terminator, into what the buffer still holds of an earlier
line. After `f 1/2/3 4/5/6` the line `f`, and likewise the line `fx`, with no slash in it,
gives a second face with the texture-coordinate index 4 and the normal index 5. -/
theorem parseFile_bare_tag_scans_earlier_line :
    (∃ p1, parseFile Env.text (ObjFileParser.start (List Char) "f 1/2/3 4/5/6\nf\n".toList [] []
          (List.replicate 32 'x')) = .ok p1 ∧
      p1.m_pModel.m_Objects =
        [{ m_strObjName := "defaultobject".toList
           m_Faces :=
            [{ m_pVertices := [0, 3], m_pNormals := [2, 5], m_pTexturCoords := [1, 4],
               m_pMaterial := none },
             { m_pVertices := [3], m_pNormals := [5], m_pTexturCoords := [4],
               m_pMaterial := none }] }]) ∧
    (∃ p1, parseFile Env.text (ObjFileParser.start (List Char) "f 1/2/3 4/5/6\nfx\n".toList [] []
          (List.replicate 32 'x')) = .ok p1 ∧
      p1.m_pModel.m_Objects =
        [{ m_strObjName := "defaultobject".toList
           m_Faces :=
            [{ m_pVertices := [0, 3], m_pNormals := [2, 5], m_pTexturCoords := [1, 4],
               m_pMaterial := none },
             { m_pVertices := [3], m_pNormals := [5], m_pTexturCoords := [4],
               m_pMaterial := none }] }]) :=
  ⟨⟨_, rfl, rfl⟩, ⟨_, rfl, rfl⟩⟩

/-! ## Tokens of value 0, and the index `-1` -/

theorem atoi_is_int : ∀ (l : List Char) (v : Int), atoi l = .ok v → ∃ z, v = toInt32 z := by
  intro l
  induction l with
  | nil => intro v h; simp [atoi] at h
  | cons c cs ih =>
    intro v h
    rw [atoi] at h
    split_ifs at h
    · exact ih v h
    all_goals
      split at h
      · exact absurd h (by simp)
      · rename_i n _
        exact ⟨_, (Except.ok.inj h).symm⟩

theorem toUInt32_pred_ne (z : Int) (h : toInt32 z ≠ 0) :
    toUInt32 (toInt32 z - 1) ≠ 2 ^ 32 - 1 := by
  simp only [toUInt32, toInt32, Int.bmod_def] at h ⊢
  norm_num at h ⊢
  split_ifs at h ⊢ <;> omega

theorem getFace_store_noMinusOne (iPos : Int) (z : Int) (p : ObjFileParser Fl)
    (ix : FaceIndices) (h : ix.NoMinusOne) :
    (getFace.store iPos (toInt32 z) p ix).2.NoMinusOne := by
  unfold getFace.store
  by_cases hz : toInt32 z = 0
  · simp [hz]; exact h
  · have hne := toUInt32_pred_ne z hz
    simp only [ne_eq, hz, not_false_eq_true, if_true]
    split_ifs
    all_goals
      intro e he
      simp only [List.mem_append, List.mem_singleton] at he
      first
        | exact h e he
        | (rcases he with (he | he) | he | he <;>
            first | exact h e (Or.inl he) | exact h e (Or.inr (Or.inl he))
                  | exact h e (Or.inr (Or.inr he)) | (rw [he]; exact hne))
        | (rcases he with he | (he | he) | he <;>
            first | exact h e (Or.inl he) | exact h e (Or.inr (Or.inl he))
                  | exact h e (Or.inr (Or.inr he)) | (rw [he]; exact hne))
        | (rcases he with he | he | he | he <;>
            first | exact h e (Or.inl he) | exact h e (Or.inr (Or.inl he))
                  | exact h e (Or.inr (Or.inr he)) | (rw [he]; exact hne))

/-- The scan never stores `2 ^ 32 - 1`. -/
theorem getFace_loop_noMinusOne (vt vn : Bool) : ∀ (cs : List Char) (pending : Nat) (iPos : Int)
    (p : ObjFileParser Fl) (ix : FaceIndices) (p2 : ObjFileParser Fl) (ix2 : FaceIndices),
    getFace.loop vt vn cs pending iPos p ix = .ok (p2, ix2) → ix.NoMinusOne → ix2.NoMinusOne := by
  intro cs
  induction cs with
  | nil =>
    intro pending iPos p ix p2 ix2 h hg
    cases pending with
    | zero =>
      simp only [getFace.loop, Except.ok.injEq, Prod.mk.injEq] at h
      rw [← h.2]; exact hg
    | succ n => simp [getFace.loop] at h
  | cons c cs ih =>
    intro pending iPos p ix p2 ix2 h hg
    cases pending with
    | succ n =>
      rw [getFace.loop] at h
      exact ih _ _ _ _ _ _ h hg
    | zero =>
      rw [getFace.loop] at h
      split_ifs at h
      all_goals first
        | exact ih _ _ _ _ _ _ h hg
        | (simp only [Except.ok.injEq, Prod.mk.injEq] at h; rw [← h.2]; exact hg)
        | skip
      split at h
      · exact absurd h (by simp)
      · rename_i iVal ha
        obtain ⟨z, hz⟩ := atoi_is_int _ _ ha
        subst hz
        exact ih _ _ _ _ _ _ h (getFace_store_noMinusOne iPos z p ix hg)

theorem foldl_zeros (z : List Char) (hz : ∀ d ∈ z, d = '0') :
    z.foldl (fun acc c => 10 * acc + (c.toNat - '0'.toNat)) 0 = 0 := by
  induction z with
  | nil => rfl
  | cons d z ih =>
    rw [List.foldl_cons, hz d (by simp)]
    exact ih (fun e he => hz e (by simp [he]))

/-- The value `atoi` returns at a byte that starts no number: 0. -/
theorem atoi_stray (c : Char) (r : List Char) (hc : c.isDigit = false)
    (hs : isspace c = false) (hm : c ≠ '-') (hp : c ≠ '+') : atoi (c :: r) = .ok 0 := by
  rw [atoi]
  simp only [hs, hm, hp, Bool.false_eq_true, if_false, atoi.digits, hc]
  rfl

/-- The value `atoi` returns at a run of zeros that a byte that is no digit ends: 0. -/
theorem atoi_zeros (z : List Char) (hz : ∀ d ∈ z, d = '0') (c : Char) (r : List Char)
    (hc : c.isDigit = false) : atoi ('0' :: (z ++ c :: r)) = .ok 0 := by
  have e := atoi_digits_run ('0' :: z) c r (by
    intro d hd
    rcases List.mem_cons.mp hd with h | h
    · rw [h]; decide
    · rw [hz d h]; decide) hc 0
  rw [atoi]
  simp only [show isspace '0' = false by decide, show ¬ ('0' = '-') by decide,
    show ¬ ('0' = '+') by decide, Bool.false_eq_true, if_false]
  rw [show '0' :: (z ++ c :: r) = ('0' :: z) ++ c :: r from rfl, e,
    foldl_zeros ('0' :: z) (by
      intro d hd
      rcases List.mem_cons.mp hd with h | h
      · exact h
      · exact hz d h)]
  rfl

/-- The scan of a run of zeros: each zero is parsed with the value 0, nothing is stored,
and the scan moves on by one cell. -/
theorem getFace_loop_zeros (vt vn : Bool) (z : List Char) (hz : ∀ d ∈ z, d = '0') (c : Char)
    (r : List Char) (hc : c.isDigit = false) (iPos : Int) (p : ObjFileParser Fl)
    (ix : FaceIndices) :
    getFace.loop vt vn (z ++ c :: r) 0 iPos p ix = getFace.loop vt vn (c :: r) 0 iPos p ix := by
  induction z with
  | nil => rfl
  | cons d z ih =>
    have hd : d = '0' := hz d (by simp)
    have hz2 : ∀ e ∈ z, e = '0' := fun e he => hz e (by simp [he])
    subst hd
    rw [List.cons_append, getFace.loop]
    simp only [show ¬ ('0' = '\x00') by decide, show ¬ ('0' = '\r') by decide,
      show ¬ ('0' = '/') by decide, show isSpace '0' = false by decide, if_false,
      Bool.false_eq_true, atoi_zeros z hz2 c r hc]
    exact ih hz2

/-- The scan at a byte that starts no number and is no separator: `atoi` returns 0 there,
nothing is stored, and the scan moves on by one cell. -/
theorem getFace_loop_stray (vt vn : Bool) (c : Char) (r : List Char) (hc : c.isDigit = false)
    (hs : isspace c = false) (hm : c ≠ '-') (hp : c ≠ '+') (hsl : c ≠ '/') (h0 : c ≠ '\x00')
    (iPos : Int) (p : ObjFileParser Fl) (ix : FaceIndices) :
    getFace.loop vt vn (c :: r) 0 iPos p ix = getFace.loop vt vn r 0 iPos p ix := by
  have hsp : isSpace c = false := by
    simp only [isspace, isSpace, Bool.or_eq_false_iff, decide_eq_false_iff_not] at hs ⊢
    tauto
  have hr : c ≠ '\r' := (not_eol_of_not_space hsp).2
  rw [getFace.loop]
  simp only [h0, hr, hsl, hsp, if_false, Bool.false_eq_true, atoi_stray c r hc hs hm hp]
  rfl

/-- The value `atoi` returns on a token made of zeros, a byte that starts no number, and
anything: 0. -/
theorem atoi_zero_valued (z : List Char) (hz : ∀ d ∈ z, d = '0') (c : Char) (r : List Char)
    (hc : c.isDigit = false) (hs : isspace c = false) (hm : c ≠ '-') (hp : c ≠ '+') :
    atoi (z ++ c :: r) = .ok 0 := by
  cases z with
  | nil => exact atoi_stray c r hc hs hm hp
  | cons d z =>
    rw [hz d (by simp)]
    exact atoi_zeros z (fun e he => hz e (by simp [he])) c r hc

/-- C7 (defect): a token of a face line whose parsed value is 0 can add an entry. On the
line `f`, a blank, and a token made of zeros (or of none), one byte that starts no number
and is no separator, and a plain decimal integer `t`, the value `atoi` returns on the token
is 0, the scan steps over one cell, parses the rest of the token again, and the face gets
the position index `t - 1`. And whenever `getFace` returns on a line that a line feed ends,
the face it has added holds no index equal to `2 ^ 32 - 1`, the `unsigned int` image of
`-1`. -/
theorem getFace_zero_valued_token (p : ObjFileParser Fl) :
    (∀ (z : List Char) (c : Char) (t rest : List Char),
      (∀ d ∈ z, d = '0') → c.isDigit = false → isspace c = false → c ≠ '-' → c ≠ '+' →
      c ≠ '/' → c ≠ '\x00' → IsPlainDecimal t → decimal t < 2 ^ 31 →
      ('f' :: ' ' :: (z ++ c :: t)).length < p.BUFFERSIZE → p.m_pModel.CurrentValid →
      p.m_DataIt = 'f' :: ' ' :: (z ++ c :: t) ++ '\n' :: rest →
      (∀ stale, atoi ((z ++ c :: t) ++ '\x00' :: stale) = .ok 0) ∧
      ∃ p1, getFace p = .ok p1 ∧
        p1.m_pModel = p.m_pModel.addFace
          { m_pVertices := [decimal t - 1]
            m_pNormals := []
            m_pTexturCoords := []
            m_pMaterial := p.m_pModel.activeMaterial } ∧
        p1.m_DataIt = rest) ∧
    (∀ p1, getFace p = .ok p1 → '\n' ∈ p.m_DataIt →
      ∃ face : Face, p1.m_pModel = p.m_pModel.addFace face ∧
        ∀ e ∈ face.m_pVertices ++ face.m_pTexturCoords ++ face.m_pNormals, e ≠ 2 ^ 32 - 1) := by
  constructor
  · intro z c t rest hz hc hs hm hp hsl h0 ht hv hfit hcur hit
    have hsp : isSpace c = false := by
      simp only [isspace, isSpace, Bool.or_eq_false_iff, decide_eq_false_iff_not] at hs ⊢
      tauto
    refine ⟨fun stale => ?_, ?_⟩
    · rw [List.append_assoc, List.cons_append]
      exact atoi_zero_valued z hz c _ hc hs hm hp
    · have htext : ∀ d ∈ z ++ c :: t, d ≠ '\n' ∧ d ≠ '\r' := by
        intro d hd
        rcases List.mem_append.mp hd with h | h
        · rw [hz d h]; decide
        · rcases List.mem_cons.mp h with h | h
          · rw [h]; exact not_eol_of_not_space hsp
          · exact isDigit_not_eol (ht.2.1 d h)
      have hword : ∀ stale, getNextWord ((z ++ c :: t) ++ '\x00' :: stale) =
          z ++ c :: (t ++ '\x00' :: stale) := by
        intro stale
        rw [List.append_assoc, List.cons_append]
        cases z with
        | nil => exact getNextWord_of_not_space c _ hsp
        | cons d z =>
          rw [List.cons_append]
          exact getNextWord_of_not_space d _ (by rw [hz d (by simp)]; decide)
      obtain ⟨p1, h1, h2, h3, -⟩ := getFace_clean_line p (z ++ c :: t) rest
        ⟨[decimal t - 1], [], []⟩ htext hfit hcur hit (by
          intro q stale
          rw [hword, getFace_loop_zeros _ _ z hz c _ hc,
            getFace_loop_stray _ _ c _ hc hs hm hp hsl h0,
            getFace_loop_plain _ _ t '\x00' stale ht hv (by decide),
            getFace_store_plain t ht hv, getFace_loop_nul]
          simp)
      exact ⟨p1, h1, h2, h3⟩
  · intro p1 h hnl
    obtain ⟨ix, -, hm, q, p2, hl⟩ := getFace_ok p p1 h (Or.inl hnl)
    have hg := getFace_loop_noMinusOne _ _ _ _ _ _ _ _ _ hl (by intro e he; simp at he)
    refine ⟨_, hm, ?_⟩
    intro e he
    simp only [FaceIndices.toFace, List.mem_append] at he
    rcases he with (he | he) | he
    · exact hg e (Or.inl he)
    · exact hg e (Or.inr (Or.inl he))
    · exact hg e (Or.inr (Or.inr he))

/-- C7, witness: on `f 0.5` the value `atoi` returns on the token `0.5` is 0, and the face
has the position index 4. -/
theorem getFace_zero_valued_token_witness :
    atoi "0.5\x00".toList = .ok 0 ∧
    ∃ p1, getFace (ObjFileParser.start (List Char) "f 0.5\n".toList [] []
          (List.replicate 16 'x')) = .ok p1 ∧
      p1.m_pModel = (Model.new (List Char) [] none).addFace
        { m_pVertices := [4]
          m_pNormals := []
          m_pTexturCoords := []
          m_pMaterial := none } ∧
      p1.m_DataIt = [] :=
  ⟨((getFace_zero_valued_token
      (ObjFileParser.start (List Char) "f 0.5\n".toList [] [] (List.replicate 16 'x'))).1
      ['0'] '.' ['5'] [] (by decide) (by decide) (by decide) (by decide) (by decide)
      (by decide) (by decide) (by decide) (by decide) (by decide)
      (by intro i h; simp [ObjFileParser.start, Model.new] at h) rfl).1 [],
   ((getFace_zero_valued_token
      (ObjFileParser.start (List Char) "f 0.5\n".toList [] [] (List.replicate 16 'x'))).1
      ['0'] '.' ['5'] [] (by decide) (by decide) (by decide) (by decide) (by decide)
      (by decide) (by decide) (by decide) (by decide) (by decide)
      (by intro i h; simp [ObjFileParser.start, Model.new] at h) rfl).2⟩

/-! ## The number of faces -/

theorem sum_faces_set (face : Face) : ∀ (l : List Object) (i : Nat) (o : Object),
    l[i]? = some o →
    ((l.set i { o with m_Faces := o.m_Faces ++ [face] }).map (fun o => o.m_Faces.length)).sum
      = (l.map (fun o => o.m_Faces.length)).sum + 1 := by
  intro l
  induction l with
  | nil => intro i o h; simp at h
  | cons a l ih =>
    intro i o h
    cases i with
    | zero =>
      simp only [List.getElem?_cons_zero, Option.some.injEq] at h
      subst h
      simp
      omega
    | succ i =>
      simp only [List.getElem?_cons_succ] at h
      simp only [List.set_cons_succ, List.map_cons, List.sum_cons, ih i o h]
      omega

theorem faceCount_addFace (m : Model Fl) (face : Face) (h : m.CurrentValid) :
    (m.addFace face).faceCount = m.faceCount + 1 := by
  unfold Model.addFace Model.faceCount
  cases hc : m.m_pCurrent with
  | none => simp
  | some i =>
    have hlt : i < m.m_Objects.length := h i hc
    have hget : m.m_Objects[i]? = some m.m_Objects[i] := List.getElem?_eq_getElem hlt
    simp only [hget]
    exact sum_faces_set face _ _ _ hget

/-- Whenever `getFace` returns on a line that a line feed ends, the model has one face
more. -/
theorem getFace_faceCount (p p1 : ObjFileParser Fl) (h : getFace p = .ok p1)
    (hnl : '\n' ∈ p.m_DataIt) : p1.m_pModel.faceCount = p.m_pModel.faceCount + 1 := by
  obtain ⟨ix, hv, hm, -⟩ := getFace_ok p p1 h (Or.inl hnl)
  rw [hm, faceCount_addFace _ _ hv]

/-! ## Object names -/

theorem readName_word (n : List Char) (s : Char) (r : List Char)
    (hn : ∀ c ∈ n, isSpace c = false) (hs : isSpace s = true) :
    readName (n ++ s :: r) = .ok (n, s :: r) := by
  induction n with
  | nil => simp [readName, hs]
  | cons c n ih =>
    have hc := hn c (by simp)
    rw [List.cons_append, readName]
    simp only [hc, Bool.false_eq_true, if_false, ih (fun d hd => hn d (by simp [hd]))]

theorem dispatch_f (env : Env Fl) (p : ObjFileParser Fl) (cs : List Char)
    (hit : p.m_DataIt = 'f' :: cs) : parseFile.dispatch env p = getFace p := by
  simp [parseFile.dispatch, hit]

theorem dispatch_o (env : Env Fl) (p : ObjFileParser Fl) (cs : List Char)
    (hit : p.m_DataIt = 'o' :: cs) : parseFile.dispatch env p = getObjectName p := by
  simp [parseFile.dispatch, hit]

theorem parseFile_loop_step (env : Env Fl) (fuel : Nat) (p p1 : ObjFileParser Fl)
    (hne : p.m_DataIt ≠ []) (h : parseFile.dispatch env p = .ok p1) :
    parseFile.loop env (fuel + 1) p = parseFile.loop env fuel p1 := by
  rw [parseFile.loop]
  cases hd : p.m_DataIt with
  | nil => exact absurd hd hne
  | cons c cs => simp only [h]

theorem parseFile_loop_end (env : Env Fl) (fuel : Nat) (p : ObjFileParser Fl)
    (h : p.m_DataIt = []) : parseFile.loop env fuel p = .ok p := by
  cases fuel with
  | zero => rfl
  | succ n => rw [parseFile.loop]; simp [h]

theorem length_faceLines (ls : List (List Char)) : ls.length ≤ (faceLines ls).length := by
  induction ls with
  | nil => simp [faceLines]
  | cons text ls ih => simp [faceLines]; omega

theorem getNextToken_name (tag : List Char) (k : Nat) (n pre rest : List Char)
    (htag : ∀ c ∈ tag, isSpace c = false) (hn : IsWord n)
    (hpre0 : ∀ c ∈ pre.head?, isSpace c = true) :
    ∃ c cs, getNextToken (tag ++ ' ' :: (List.replicate k ' ' ++ (n ++ (pre ++ '\n' :: rest))))
        = c :: cs ∧
      readName (c :: cs) = .ok (n, pre ++ '\n' :: rest) ∧ isSpace c = false := by
  obtain ⟨s, r, hsr, hs⟩ := tail_starts_with_space pre rest hpre0
  obtain ⟨hn0, hns⟩ := hn
  obtain ⟨c, cs, hc⟩ : ∃ c cs, n = c :: cs := by
    cases n with
    | nil => exact absurd rfl hn0
    | cons c cs => exact ⟨c, cs, rfl⟩
  refine ⟨c, cs ++ (pre ++ '\n' :: rest), ?_, ?_, hns c (by rw [hc]; simp)⟩
  · rw [getNextToken_tag tag ' ' _ htag (by decide), getNextWord_blanks, hc]
    exact getNextWord_of_not_space c _ (hns c (by rw [hc]; simp))
  · have := readName_word n s r hns hs
    rw [← hsr, hc] at this
    rw [hc]; exact this

theorem dispatch_u (env : Env Fl) (p : ObjFileParser Fl) (cs : List Char)
    (hit : p.m_DataIt = 'u' :: cs) : parseFile.dispatch env p = getMaterialDesc p := by
  unfold parseFile.dispatch
  rw [hit]
  simp

theorem getMaterialDesc_line (p : ObjFileParser Fl) (tag : List Char) (k : Nat)
    (n pre rest : List Char) (htag : ∀ c ∈ tag, isSpace c = false) (hn : IsWord n)
    (hpre : ∀ c ∈ pre, c ≠ '\n') (hpre0 : ∀ c ∈ pre.head?, isSpace c = true)
    (hit : p.m_DataIt = tag ++ ' ' :: (List.replicate k ' ' ++ (n ++ (pre ++ '\n' :: rest)))) :
    getMaterialDesc p = .ok
      (match p.m_pModel.m_MaterialMap.lookup n with
       | none =>
         { p with
           m_DataIt := rest
           m_uiLine := p.m_uiLine + 1
           m_pModel :=
             { p.m_pModel with
               m_pCurrentMaterial := some p.m_pModel.materialCount
               materialCount := p.m_pModel.materialCount + 1
               m_MaterialMap := p.m_pModel.m_MaterialMap ++ [(n, p.m_pModel.materialCount)] } }
       | some _ => { p with m_DataIt := rest, m_uiLine := p.m_uiLine + 1 }) := by
  obtain ⟨c, cs, htok, hread, -⟩ := getNextToken_name tag k n pre rest htag hn hpre0
  unfold getMaterialDesc
  rw [hit, htok]
  simp only [hread, hn.1, if_false]
  cases p.m_pModel.m_MaterialMap.lookup n with
  | none => exact congrArg Except.ok (skipLine_line _ pre rest hpre rfl)
  | some i => exact congrArg Except.ok (skipLine_line _ pre rest hpre rfl)

/-- C11 (defect): on a line `usemtl n` with `n` no key of `m_MaterialMap`, the handler of
the `u` lines makes a new material, makes it current and enters it in the table under `n`:
the table grows by one entry, and the current material is not the default one, which was
made earlier. -/
theorem dispatch_usemtl_unknown (env : Env Fl) (p : ObjFileParser Fl) (k : Nat)
    (n pre rest : List Char) (hn : IsWord n)
    (hpre : ∀ c ∈ pre, c ≠ '\n') (hpre0 : ∀ c ∈ pre.head?, isSpace c = true)
    (habsent : p.m_pModel.m_MaterialMap.lookup n = none)
    (hit : p.m_DataIt =
      "usemtl".toList ++ ' ' :: (List.replicate k ' ' ++ (n ++ (pre ++ '\n' :: rest)))) :
    ∃ p1, parseFile.dispatch env p = .ok p1 ∧
      p1.m_pModel =
        { p.m_pModel with
          m_pCurrentMaterial := some p.m_pModel.materialCount
          materialCount := p.m_pModel.materialCount + 1
          m_MaterialMap := p.m_pModel.m_MaterialMap ++ [(n, p.m_pModel.materialCount)] } ∧
      p1.m_DataIt = rest ∧
      p1.m_pModel.m_MaterialMap.lookup n = some p.m_pModel.materialCount ∧
      ((∀ i, p.m_pModel.m_pDefaultMaterial = some i → i < p.m_pModel.materialCount) →
        p1.m_pModel.m_pCurrentMaterial ≠ p1.m_pModel.m_pDefaultMaterial) := by
  have hd := dispatch_u env p _ hit
  have hg := getMaterialDesc_line p "usemtl".toList k n pre rest (by decide) hn hpre hpre0 hit
  rw [habsent] at hg
  refine ⟨_, hd.trans hg, rfl, rfl, ?_, ?_⟩
  · simp [List.lookup_append, habsent]
  · intro hdef heq
    have := hdef p.m_pModel.materialCount heq.symm
    omega

/-- C11, witness: on a fresh model `usemtl Unknown` makes the material of ordinal 0 current,
with the default material null, and enters it in the table under `Unknown`. -/
theorem dispatch_usemtl_unknown_witness :
    ∃ p1, parseFile.dispatch Env.text
        (ObjFileParser.start (List Char) "usemtl Unknown\n".toList [] [] (List.replicate 16 'x'))
        = .ok p1 ∧
      p1.m_pModel.m_pCurrentMaterial = some 0 ∧ p1.m_pModel.m_pDefaultMaterial = none ∧
      p1.m_pModel.m_MaterialMap = [("Unknown".toList, 0)] ∧ p1.m_DataIt = [] := by
  obtain ⟨p1, h, hm, hd, -, -⟩ := dispatch_usemtl_unknown Env.text
    (ObjFileParser.start (List Char) "usemtl Unknown\n".toList [] [] (List.replicate 16 'x'))
    0 "Unknown".toList [] [] (by decide) (by simp) (by simp) rfl rfl
  exact ⟨p1, h, by rw [hm]; rfl, by rw [hm]; rfl, by rw [hm]; rfl, hd⟩

/-- C12 (defect): on a line `usemtl n` with `n` a key of `m_MaterialMap`, the handler of the
`u` lines changes nothing in the model: the material that was current stays current, and
a face line parsed right after it references that material, not the one stored under
`n`. -/
theorem dispatch_usemtl_known (env : Env Fl) (p : ObjFileParser Fl) (k : Nat)
    (n pre rest : List Char) (pMaterial : Nat) (hn : IsWord n)
    (hpre : ∀ c ∈ pre, c ≠ '\n') (hpre0 : ∀ c ∈ pre.head?, isSpace c = true)
    (hkey : p.m_pModel.m_MaterialMap.lookup n = some pMaterial)
    (hit : p.m_DataIt =
      "usemtl".toList ++ ' ' :: (List.replicate k ' ' ++ (n ++ (pre ++ '\n' :: rest)))) :
    ∃ p1, parseFile.dispatch env p = .ok p1 ∧ p1.m_pModel = p.m_pModel ∧ p1.m_DataIt = rest ∧
      ∀ p2, '\n' ∈ rest → getFace p1 = .ok p2 →
        ∃ face : Face, p2.m_pModel = p.m_pModel.addFace face ∧
          face.m_pMaterial = p.m_pModel.activeMaterial := by
  have hd := dispatch_u env p _ hit
  have hg := getMaterialDesc_line p "usemtl".toList k n pre rest (by decide) hn hpre hpre0 hit
  rw [hkey] at hg
  refine ⟨_, hd.trans hg, rfl, rfl, ?_⟩
  intro p2 hnl hf
  obtain ⟨ix, -, hm, -⟩ := getFace_ok _ p2 hf (Or.inl hnl)
  exact ⟨_, hm, rfl⟩

/-- C12, witness: with `A` and `B` in the table and the material of `B` current, `usemtl A`
leaves the material of `B` current; and after `usemtl A`, `usemtl B`, `usemtl A` the face of
`f 1 2 3` references the material of `B`. -/
theorem dispatch_usemtl_known_witness :
    (∃ p1, parseFile.dispatch Env.text
        { ObjFileParser.start (List Char) "usemtl A\nf 1 2 3\n".toList [] []
            (List.replicate 16 'x') with
          m_pModel := { Model.new (List Char) [] none with
            m_pCurrentMaterial := some 1
            materialCount := 2
            m_MaterialMap := [("A".toList, 0), ("B".toList, 1)] } } = .ok p1 ∧
      p1.m_pModel.m_MaterialMap.lookup "A".toList = some 0 ∧
      p1.m_pModel.m_pCurrentMaterial = some 1 ∧ p1.m_DataIt = "f 1 2 3\n".toList) ∧
    ∃ p2, parseFile Env.text (ObjFileParser.start (List Char)
          "usemtl A\nusemtl B\nusemtl A\nf 1 2 3\n".toList [] [] (List.replicate 16 'x')) = .ok p2 ∧
      p2.m_pModel.m_MaterialMap = [("A".toList, 0), ("B".toList, 1)] ∧
      p2.m_pModel.m_Objects =
        [{ m_strObjName := "defaultobject".toList
           m_Faces := [{ m_pVertices := [0, 1, 2]
                         m_pNormals := []
                         m_pTexturCoords := []
                         m_pMaterial := some 1 }] }] := by
  constructor
  · obtain ⟨p1, h, hm, hd, -⟩ := dispatch_usemtl_known Env.text
      { ObjFileParser.start (List Char) "usemtl A\nf 1 2 3\n".toList [] []
          (List.replicate 16 'x') with
        m_pModel := { Model.new (List Char) [] none with
          m_pCurrentMaterial := some 1
          materialCount := 2
          m_MaterialMap := [("A".toList, 0), ("B".toList, 1)] } }
      0 "A".toList [] "f 1 2 3\n".toList 0 (by decide) (by simp) (by simp) rfl rfl
    exact ⟨p1, h, by rw [hm]; rfl, by rw [hm], hd⟩
  · exact ⟨_, rfl, rfl, rfl⟩

/-! ## Material libraries -/

theorem dispatch_m (env : Env Fl) (p : ObjFileParser Fl) (cs : List Char)
    (hit : p.m_DataIt = 'm' :: cs) : parseFile.dispatch env p = getMaterialLib env p := by
  simp [parseFile.dispatch, hit]

theorem getMaterialLib_line (env : Env Fl) (p : ObjFileParser Fl) (tag : List Char) (k : Nat)
    (n pre rest : List Char) (htag : ∀ c ∈ tag, isSpace c = false) (hn : IsWord n)
    (hpre : ∀ c ∈ pre, c ≠ '\n') (hpre0 : ∀ c ∈ pre.head?, isSpace c = true)
    (hit : p.m_DataIt = tag ++ ' ' :: (List.replicate k ' ' ++ (n ++ (pre ++ '\n' :: rest)))) :
    getMaterialLib env p = .ok
      (if env.ioExists (p.m_strAbsPath ++ env.getOsSeparator ++ n) then
         { p with
           m_DataIt := rest
           m_uiLine := p.m_uiLine + 1
           m_pModel := { p.m_pModel with m_MaterialLib := p.m_pModel.m_MaterialLib ++ [n] } }
       else { p with m_DataIt := rest, m_uiLine := p.m_uiLine + 1 }) := by
  obtain ⟨c, cs, htok, hread, -⟩ := getNextToken_name tag k n pre rest htag hn hpre0
  unfold getMaterialLib
  rw [hit, htok]
  simp only [hread]
  cases env.ioExists (p.m_strAbsPath ++ env.getOsSeparator ++ n) with
  | false => exact congrArg Except.ok (skipLine_line _ pre rest hpre rfl)
  | true => exact congrArg Except.ok (skipLine_line _ pre rest hpre rfl)

/-- C13: on a newline-terminated line `mtllib n`, when no file exists at the base path
joined with the separator and `n`, the model is unchanged and the cursor ends just after
the line; when one exists, `n` is appended once at the end of `m_MaterialLib`, nothing else
changes in the model, and the cursor ends just after the line. -/
theorem dispatch_mtllib_line (env : Env Fl) (p : ObjFileParser Fl) (k : Nat)
    (n pre rest : List Char) (hn : IsWord n)
    (hpre : ∀ c ∈ pre, c ≠ '\n') (hpre0 : ∀ c ∈ pre.head?, isSpace c = true)
    (hit : p.m_DataIt =
      "mtllib".toList ++ ' ' :: (List.replicate k ' ' ++ (n ++ (pre ++ '\n' :: rest)))) :
    ∃ p1, parseFile.dispatch env p = .ok p1 ∧ p1.m_DataIt = rest ∧
      (env.ioExists (p.m_strAbsPath ++ env.getOsSeparator ++ n) = false →
        p1.m_pModel = p.m_pModel) ∧
      (env.ioExists (p.m_strAbsPath ++ env.getOsSeparator ++ n) = true →
        p1.m_pModel = { p.m_pModel with m_MaterialLib := p.m_pModel.m_MaterialLib ++ [n] }) := by
  have hd := dispatch_m env p _ hit
  have hg := getMaterialLib_line env p "mtllib".toList k n pre rest (by decide) hn hpre hpre0 hit
  refine ⟨_, hd.trans hg, ?_, ?_, ?_⟩
  · split <;> rfl
  · intro h; rw [h]; rfl
  · intro h; rw [h]; rfl

/-- C13, witness: `mtllib box.mtl` with base path `models`: with no file the model stays
empty; with a file at `models/box.mtl` the name `box.mtl` is the one library reference. The
cursor ends before `v 1 2 3` both times. -/
theorem dispatch_mtllib_line_witness :
    (∃ p1, parseFile.dispatch Env.text
        (ObjFileParser.start (List Char) "mtllib box.mtl\nv 1 2 3\n".toList "models".toList []
          (List.replicate 16 'x')) = .ok p1 ∧
      p1.m_DataIt = "v 1 2 3\n".toList ∧ p1.m_pModel = Model.new (List Char) [] none) ∧
    ∃ p1, parseFile.dispatch
        { Env.text with ioExists := fun path => path = "models/box.mtl".toList }
        (ObjFileParser.start (List Char) "mtllib box.mtl\nv 1 2 3\n".toList "models".toList []
          (List.replicate 16 'x')) = .ok p1 ∧
      p1.m_DataIt = "v 1 2 3\n".toList ∧
      p1.m_pModel = { Model.new (List Char) [] none with m_MaterialLib := ["box.mtl".toList] } := by
  constructor
  · obtain ⟨p1, h, hd, hm, -⟩ := dispatch_mtllib_line Env.text
      (ObjFileParser.start (List Char) "mtllib box.mtl\nv 1 2 3\n".toList "models".toList []
        (List.replicate 16 'x'))
      0 "box.mtl".toList [] "v 1 2 3\n".toList (by decide) (by simp) (by simp) rfl
    exact ⟨p1, h, hd, hm rfl⟩
  · obtain ⟨p1, h, hd, -, hm⟩ := dispatch_mtllib_line
      { Env.text with ioExists := fun path => path = "models/box.mtl".toList }
      (ObjFileParser.start (List Char) "mtllib box.mtl\nv 1 2 3\n".toList "models".toList []
        (List.replicate 16 'x'))
      0 "box.mtl".toList [] "v 1 2 3\n".toList (by decide) (by simp) (by simp) rfl
    exact ⟨p1, h, hd, hm (by decide)⟩

/-! ## Groups -/

theorem dispatch_g (env : Env Fl) (p : ObjFileParser Fl) (cs : List Char)
    (hit : p.m_DataIt = 'g' :: cs) : parseFile.dispatch env p = getGroupName env p := by
  simp [parseFile.dispatch, hit]

theorem getGroupName_line (env : Env Fl) (p : ObjFileParser Fl) (tag : List Char) (k : Nat)
    (n pre rest : List Char) (htag : ∀ c ∈ tag, isSpace c = false) (hn : IsWord n)
    (hpre : ∀ c ∈ pre, c ≠ '\n') (hpre0 : ∀ c ∈ pre.head?, isSpace c = true)
    (hit : p.m_DataIt = tag ++ ' ' :: (List.replicate k ' ' ++ (n ++ (pre ++ '\n' :: rest)))) :
    getGroupName env p = .ok
      (if p.m_pModel.m_strActiveGroup ≠ n then
         match p.m_pModel.m_Groups.lookup env.strGroupNameAddr with
         | none =>
           { p with
             m_DataIt := rest
             m_uiLine := p.m_uiLine + 1
             m_pModel :=
               { p.m_pModel with
                 faceIDArrays := p.m_pModel.faceIDArrays ++ [[]]
                 m_Groups := p.m_pModel.m_Groups ++
                   [(env.strGroupNameAddr, p.m_pModel.faceIDArrays.length)]
                 m_pGroupFaceIDs := some p.m_pModel.faceIDArrays.length
                 m_strActiveGroup := n } }
         | some pFaceIDArray =>
           { p with
             m_DataIt := rest
             m_uiLine := p.m_uiLine + 1
             m_pModel :=
               { p.m_pModel with
                 m_pGroupFaceIDs := some pFaceIDArray
                 m_strActiveGroup := n } }
       else { p with m_DataIt := rest, m_uiLine := p.m_uiLine + 1 }) := by
  obtain ⟨c, cs, htok, hread, hc⟩ := getNextToken_name tag k n pre rest htag hn hpre0
  unfold getGroupName
  rw [hit, htok, getNextWord_of_not_space c cs hc]
  simp only [hread]
  by_cases hact : p.m_pModel.m_strActiveGroup = n
  · simp only [hact, ne_eq, not_true_eq_false, if_false]
    exact congrArg Except.ok (skipLine_line _ pre rest hpre rfl)
  · simp only [hact, ne_eq, not_false_eq_true, if_true]
    cases p.m_pModel.m_Groups.lookup env.strGroupNameAddr with
    | none => exact congrArg Except.ok (skipLine_line _ pre rest hpre rfl)
    | some i => exact congrArg Except.ok (skipLine_line _ pre rest hpre rfl)

theorem addFace_groups (m : Model Fl) (face : Face) :
    (m.addFace face).faceIDArrays = m.faceIDArrays ∧
      (m.addFace face).m_pGroupFaceIDs = m.m_pGroupFaceIDs ∧
      (m.addFace face).m_Groups = m.m_Groups ∧
      (m.addFace face).m_strActiveGroup = m.m_strActiveGroup := by
  unfold Model.addFace
  split
  · exact ⟨rfl, rfl, rfl, rfl⟩
  · split
    · exact ⟨rfl, rfl, rfl, rfl⟩
    · exact ⟨rfl, rfl, rfl, rfl⟩

theorem addFace_currentValid (m : Model Fl) (face : Face) (h : m.CurrentValid) :
    (m.addFace face).CurrentValid := by
  unfold Model.addFace Model.CurrentValid
  cases hc : m.m_pCurrent with
  | none =>
    intro i hi
    simp only at hi
    rw [← Option.some.inj hi]
    simp
  | some i =>
    have hlt : i < m.m_Objects.length := h i hc
    have hget : m.m_Objects[i]? = some m.m_Objects[i] := List.getElem?_eq_getElem hlt
    simp only [hget]
    intro j hj
    rw [← Option.some.inj hj]
    simpa using hlt

/-- The scan and the end of `getFace` touch no member of the model that belongs to the
groups. -/
theorem getFace_groups (p p1 : ObjFileParser Fl) (h : getFace p = .ok p1) :
    p1.m_pModel.faceIDArrays = p.m_pModel.faceIDArrays ∧
      p1.m_pModel.m_pGroupFaceIDs = p.m_pModel.m_pGroupFaceIDs ∧
      p1.m_pModel.m_Groups = p.m_pModel.m_Groups ∧
      p1.m_pModel.m_strActiveGroup = p.m_pModel.m_strActiveGroup := by
  unfold getFace at h
  cases hc : copyNextLine p p.BUFFERSIZE with
  | error e => simp [hc] at h
  | ok q =>
    obtain ⟨hm, -⟩ := copyNextLine_frame p q _ hc
    simp only [hc] at h
    by_cases hd : q.m_DataIt = []
    · simp only [hd, if_true] at h
      rw [← Except.ok.inj h, hm]
      exact ⟨rfl, rfl, rfl, rfl⟩
    · simp only [hd, if_false] at h
      cases hl : getFace.loop (!q.m_pModel.m_TextureCoord.isEmpty)
          (!q.m_pModel.m_Normals.isEmpty) (getNextToken q.m_buffer) 0 0 q ⟨[], [], []⟩ with
      | error e => simp [hl] at h
      | ok r =>
        obtain ⟨p2, ix⟩ := r
        simp only [hl] at h
        obtain ⟨k, hk⟩ := getFace_loop_frame _ _ _ _ _ _ _ _ _ hl
        have hm2 : p2.m_pModel = p.m_pModel := by rw [hk, skipLine_iterate_m_pModel, hm]
        obtain ⟨-, he⟩ := getFace_finish_ok p2 p1 ix h
        have hm1 : p1.m_pModel = p.m_pModel.addFace (ix.toFace p.m_pModel.activeMaterial) := by
          rw [he]; simp [hm2]
        rw [hm1]
        exact addFace_groups _ _

theorem groupFaceIDs_congr (m1 m2 : Model Fl) (h1 : m1.faceIDArrays = m2.faceIDArrays)
    (h2 : m1.m_pGroupFaceIDs = m2.m_pGroupFaceIDs) : m1.groupFaceIDs = m2.groupFaceIDs := by
  unfold Model.groupFaceIDs
  rw [h1, h2]

/-- A run of face lines adds one face per line and leaves the groups as they are. -/
theorem parseFile_loop_faceLines_groups (env : Env Fl) :
    ∀ (ls : List (List Char)) (fuel : Nat) (p : ObjFileParser Fl) (rest : List Char),
      (∀ text ∈ ls, IsPlainFaceText p.BUFFERSIZE text) → p.m_pModel.CurrentValid →
      p.m_DataIt = faceLines ls ++ rest →
      ∃ p1, parseFile.loop env (fuel + ls.length) p = parseFile.loop env fuel p1 ∧
        p1.m_pModel.faceCount = p.m_pModel.faceCount + ls.length ∧
        p1.m_pModel.groupFaceIDs = p.m_pModel.groupFaceIDs ∧
        p1.m_pModel.m_strActiveGroup = p.m_pModel.m_strActiveGroup ∧
        p1.m_pModel.m_Groups = p.m_pModel.m_Groups ∧
        p1.m_DataIt = rest := by
  intro ls
  induction ls with
  | nil =>
    intro fuel p rest _ _ hit
    exact ⟨p, rfl, rfl, rfl, rfl, rfl, by simpa [faceLines] using hit⟩
  | cons text ls ih =>
    intro fuel p rest hls hvalid hit
    obtain ⟨htext, hfit⟩ := hls text (by simp)
    have hit2 : p.m_DataIt = (['f'] ++ ' ' :: text) ++ '\n' :: (faceLines ls ++ rest) := by
      rw [hit]; simp [faceLines]
    obtain ⟨p1, face, hg, hm, -, -, -, hd, hb⟩ := getFace_no_slash p ['f'] ' ' text
      (faceLines ls ++ rest) (by decide) (by decide) (by decide) htext
      (by simpa using hfit) hvalid hit2
    obtain ⟨g1, g2, g3, g4⟩ := getFace_groups p p1 hg
    have hvalid1 : p1.m_pModel.CurrentValid := by
      rw [hm]; exact addFace_currentValid _ _ hvalid
    obtain ⟨p2, hl, hcount, hseq, hact, hgr, hd2⟩ := ih fuel p1 rest
      (fun t ht => by
        have := hls t (by simp [ht])
        simpa [IsPlainFaceText, ObjFileParser.BUFFERSIZE, hb] using this)
      hvalid1 hd
    refine ⟨p2, ?_, ?_, ?_, hact.trans g4, hgr.trans g3, hd2⟩
    · rw [List.length_cons, ← Nat.add_assoc,
        parseFile_loop_step env _ p p1 (by rw [hit2]; simp)
          ((dispatch_f env p _ (by rw [hit2]; rfl)).trans hg)]
      exact hl
    · rw [hcount, hm, faceCount_addFace _ _ hvalid, List.length_cons]
      omega
    · exact hseq.trans (groupFaceIDs_congr _ _ g1 g2)

/-- Whatever `getGroupName` returns, only the members of the model that belong to the
groups differ from what they were. -/
theorem getGroupName_frame (env : Env Fl) (p p1 : ObjFileParser Fl)
    (h : getGroupName env p = .ok p1) :
    p1.m_pModel.m_Objects = p.m_pModel.m_Objects ∧
      p1.m_pModel.m_pCurrent = p.m_pModel.m_pCurrent ∧
      p1.m_buffer = p.m_buffer := by
  unfold getGroupName at h
  cases hr : readName (getNextWord (getNextToken p.m_DataIt)) with
  | error e => simp [hr] at h
  | ok r =>
    obtain ⟨strGroupName, it⟩ := r
    simp only [hr] at h
    by_cases hact : p.m_pModel.m_strActiveGroup = strGroupName
    · simp only [hact, ne_eq, not_true_eq_false, if_false] at h
      rw [← Except.ok.inj h, skipLine_m_pModel, skipLine_m_buffer]
      exact ⟨rfl, rfl, rfl⟩
    · simp only [hact, ne_eq, not_false_eq_true, if_true] at h
      cases hl : p.m_pModel.m_Groups.lookup env.strGroupNameAddr with
      | none =>
        simp only [hl] at h
        rw [← Except.ok.inj h, skipLine_m_pModel, skipLine_m_buffer]
        exact ⟨rfl, rfl, rfl⟩
      | some i =>
        simp only [hl] at h
        rw [← Except.ok.inj h, skipLine_m_pModel, skipLine_m_buffer]
        exact ⟨rfl, rfl, rfl⟩

/-- C14 (amended): `getFace` appends nothing to the face-index sequence of any group: it
leaves the sequences, the target of the active group, the group table and the active
group name as they were. Hence after a line `g G` and `k` face lines the model has `k`
faces more, group `G` is active and its sequence is what it was right after `g G`. -/
theorem getFace_leaves_groups (env : Env Fl) (p : ObjFileParser Fl) :
    (∀ p1, getFace p = .ok p1 →
      p1.m_pModel.faceIDArrays = p.m_pModel.faceIDArrays ∧
      p1.m_pModel.m_pGroupFaceIDs = p.m_pModel.m_pGroupFaceIDs ∧
      p1.m_pModel.m_Groups = p.m_pModel.m_Groups ∧
      p1.m_pModel.m_strActiveGroup = p.m_pModel.m_strActiveGroup) ∧
    (∀ (G : List Char) (ls : List (List Char)), IsWord G →
      (∀ text ∈ ls, IsPlainFaceText p.BUFFERSIZE text) → p.m_pModel.CurrentValid →
      p.m_DataIt = 'g' :: ' ' :: (G ++ '\n' :: faceLines ls) →
      ∃ p0 p1, parseFile.dispatch env p = .ok p0 ∧ p0.m_DataIt = faceLines ls ∧
        p0.m_pModel.m_strActiveGroup = G ∧
        parseFile env p = .ok p1 ∧
        p1.m_pModel.faceCount = p.m_pModel.faceCount + ls.length ∧
        p1.m_pModel.m_strActiveGroup = G ∧
        p1.m_pModel.groupFaceIDs = p0.m_pModel.groupFaceIDs) := by
  refine ⟨fun p1 h => getFace_groups p p1 h, ?_⟩
  intro G ls hG hls hvalid hit
  have hit2 : p.m_DataIt = ['g'] ++ ' ' :: (List.replicate 0 ' ' ++ (G ++ ([] ++ '\n' :: faceLines ls))) := by
    rw [hit]; rfl
  have hg := getGroupName_line env p ['g'] 0 G [] (faceLines ls) (by decide) hG (by simp)
    (by simp) hit2
  have hd := (dispatch_g env p _ hit).trans hg
  obtain ⟨hobj, hcur, hbuf⟩ := getGroupName_frame env p _ hg
  generalize hp0 : (if p.m_pModel.m_strActiveGroup ≠ G then
         match p.m_pModel.m_Groups.lookup env.strGroupNameAddr with
         | none =>
           { p with
             m_DataIt := faceLines ls
             m_uiLine := p.m_uiLine + 1
             m_pModel :=
               { p.m_pModel with
                 faceIDArrays := p.m_pModel.faceIDArrays ++ [[]]
                 m_Groups := p.m_pModel.m_Groups ++
                   [(env.strGroupNameAddr, p.m_pModel.faceIDArrays.length)]
                 m_pGroupFaceIDs := some p.m_pModel.faceIDArrays.length
                 m_strActiveGroup := G } }
         | some pFaceIDArray =>
           { p with
             m_DataIt := faceLines ls
             m_uiLine := p.m_uiLine + 1
             m_pModel :=
               { p.m_pModel with
                 m_pGroupFaceIDs := some pFaceIDArray
                 m_strActiveGroup := G } }
       else { p with m_DataIt := faceLines ls, m_uiLine := p.m_uiLine + 1 }) = p0
    at hg hd hobj hcur hbuf
  have hd0 : p0.m_DataIt = faceLines ls := by
    rw [← hp0]; split
    · split <;> rfl
    · rfl
  have hact0 : p0.m_pModel.m_strActiveGroup = G := by
    rw [← hp0]; split
    · split <;> rfl
    · rename_i h; exact not_not.mp h
  have hvalid0 : p0.m_pModel.CurrentValid := by
    intro i hi
    rw [hcur] at hi
    rw [hobj]
    exact hvalid i hi
  have hcount0 : p0.m_pModel.faceCount = p.m_pModel.faceCount := by
    unfold Model.faceCount; rw [hobj]
  obtain ⟨e, he⟩ : ∃ e, p.m_DataIt.length = e + ls.length + 1 := by
    have h1 := length_faceLines ls
    refine ⟨p.m_DataIt.length - (ls.length + 1), ?_⟩
    rw [hit]
    simp only [List.length_cons, List.length_append]
    omega
  obtain ⟨p1, hl, hcount, hseq, hact, -, hd1⟩ := parseFile_loop_faceLines_groups env ls e p0 []
    (fun t ht => by
      have := hls t ht
      simpa [IsPlainFaceText, ObjFileParser.BUFFERSIZE, hbuf] using this)
    hvalid0 (by rw [hd0]; simp)
  refine ⟨p0, p1, hd, hd0, hact0, ?_, by rw [hcount, hcount0], hact.trans hact0, hseq⟩
  unfold parseFile
  rw [he, parseFile_loop_step env _ p p0 (by rw [hit]; simp) hd, hl]
  exact parseFile_loop_end env e p1 hd1

/-- C14, witness: after `g G` and two face lines the model has two faces, `G` is active
and its sequence is empty, as it was right after `g G`. -/
theorem getFace_leaves_groups_witness :
    ∃ p0 p1, parseFile.dispatch Env.text (ObjFileParser.start (List Char)
          "g G\nf 1 2 3\nf 4 5 6\n".toList [] [] (List.replicate 16 'x')) = .ok p0 ∧
      p0.m_pModel.groupFaceIDs = some [] ∧
      parseFile Env.text (ObjFileParser.start (List Char)
          "g G\nf 1 2 3\nf 4 5 6\n".toList [] [] (List.replicate 16 'x')) = .ok p1 ∧
      p1.m_pModel.faceCount = 2 ∧ p1.m_pModel.m_strActiveGroup = "G".toList ∧
      p1.m_pModel.groupFaceIDs = some [] := by
  obtain ⟨p0, p1, h0, -, -, h1, hc, ha, hs⟩ := (getFace_leaves_groups Env.text
    (ObjFileParser.start (List Char) "g G\nf 1 2 3\nf 4 5 6\n".toList [] []
      (List.replicate 16 'x'))).2
    "G".toList ["1 2 3".toList, "4 5 6".toList] (by decide) (by decide)
    (by intro i hi; simp [ObjFileParser.start, Model.new] at hi) rfl
  have e0 : p0 = _ := Except.ok.inj (h0.symm.trans rfl)
  have hs0 : p0.m_pModel.groupFaceIDs = some [] := by rw [e0]; rfl
  exact ⟨p0, p1, h0, hs0, h1, hc, ha, hs.trans hs0⟩

/-- C14, counterexample: `g G` makes `G` active with an empty sequence; the face line
`f 1 2 3` that follows adds a face to the model and leaves the sequence of `G` empty, not
one entry longer. -/
theorem getFace_leaves_groups_counterexample :
    ∃ p0 p1, parseFile.dispatch Env.text (ObjFileParser.start (List Char)
          "g G\nf 1 2 3\n".toList [] [] (List.replicate 16 'x')) = .ok p0 ∧
      p0.m_pModel.m_strActiveGroup = "G".toList ∧ p0.m_pModel.groupFaceIDs = some [] ∧
      p0.m_pModel.faceCount = 0 ∧
      parseFile.dispatch Env.text p0 = .ok p1 ∧ p1.m_DataIt = [] ∧
      p1.m_pModel.faceCount = 1 ∧ p1.m_pModel.m_strActiveGroup = "G".toList ∧
      p1.m_pModel.groupFaceIDs = some [] ∧ p1.m_pModel.faceIDArrays = [[]] :=
  ⟨_, _, rfl, rfl, rfl, rfl, rfl, rfl, rfl, rfl, rfl, rfl⟩

theorem getGroupName_found (env : Env Fl) (p : ObjFileParser Fl) (k : Nat)
    (n pre rest : List Char) (pFaceIDArray : Nat) (hn : IsWord n)
    (hpre : ∀ c ∈ pre, c ≠ '\n') (hpre0 : ∀ c ∈ pre.head?, isSpace c = true)
    (hact : p.m_pModel.m_strActiveGroup ≠ n)
    (hkey : p.m_pModel.m_Groups.lookup env.strGroupNameAddr = some pFaceIDArray)
    (hit : p.m_DataIt = 'g' :: ' ' :: (List.replicate k ' ' ++ (n ++ (pre ++ '\n' :: rest)))) :
    ∃ p1, getGroupName env p = .ok p1 ∧ p1.m_DataIt = rest ∧
      p1.m_pModel =
        { p.m_pModel with m_pGroupFaceIDs := some pFaceIDArray, m_strActiveGroup := n } := by
  have hg := getGroupName_line env p ['g'] k n pre rest (by decide) hn hpre hpre0 hit
  simp only [hact, ne_eq, not_false_eq_true, if_true, hkey] at hg
  exact ⟨_, hg, rfl, rfl⟩

theorem getGroupName_new (env : Env Fl) (p : ObjFileParser Fl) (k : Nat)
    (n pre rest : List Char) (hn : IsWord n)
    (hpre : ∀ c ∈ pre, c ≠ '\n') (hpre0 : ∀ c ∈ pre.head?, isSpace c = true)
    (hact : p.m_pModel.m_strActiveGroup ≠ n)
    (hkey : p.m_pModel.m_Groups.lookup env.strGroupNameAddr = none)
    (hit : p.m_DataIt = 'g' :: ' ' :: (List.replicate k ' ' ++ (n ++ (pre ++ '\n' :: rest)))) :
    ∃ p1, getGroupName env p = .ok p1 ∧ p1.m_DataIt = rest ∧
      p1.m_pModel =
        { p.m_pModel with
          faceIDArrays := p.m_pModel.faceIDArrays ++ [[]]
          m_Groups := p.m_pModel.m_Groups ++
            [(env.strGroupNameAddr, p.m_pModel.faceIDArrays.length)]
          m_pGroupFaceIDs := some p.m_pModel.faceIDArrays.length
          m_strActiveGroup := n } := by
  have hg := getGroupName_line env p ['g'] k n pre rest (by decide) hn hpre hpre0 hit
  simp only [hact, ne_eq, not_false_eq_true, if_true, hkey] at hg
  exact ⟨_, hg, rfl, rfl⟩

/-- C15 (defect): `m_Groups` is searched by the address of the local `strGroupName`, not by
the name. Once a sequence is registered, a line `g n` with any name `n` other than the
active one finds that sequence, makes it the target and registers nothing. So after
`g A`, `g B`, `g A` in a model with no group, the group table holds one entry, made by the
first line, and `g B` made the sequence of `A` its target. No `g` line changes `m_Objects`
or `m_pCurrent`. -/
theorem getGroupName_keyed_by_address (env : Env Fl) (p : ObjFileParser Fl) :
    (∀ p1, getGroupName env p = .ok p1 →
      p1.m_pModel.m_Objects = p.m_pModel.m_Objects ∧
      p1.m_pModel.m_pCurrent = p.m_pModel.m_pCurrent) ∧
    (∀ (k : Nat) (n pre rest : List Char) (pFaceIDArray : Nat), IsWord n →
      (∀ c ∈ pre, c ≠ '\n') → (∀ c ∈ pre.head?, isSpace c = true) →
      p.m_pModel.m_strActiveGroup ≠ n →
      p.m_pModel.m_Groups.lookup env.strGroupNameAddr = some pFaceIDArray →
      p.m_DataIt = 'g' :: ' ' :: (List.replicate k ' ' ++ (n ++ (pre ++ '\n' :: rest))) →
      ∃ p1, getGroupName env p = .ok p1 ∧ p1.m_DataIt = rest ∧
        p1.m_pModel =
          { p.m_pModel with m_pGroupFaceIDs := some pFaceIDArray, m_strActiveGroup := n }) ∧
    (∀ (A B rest : List Char), IsWord A → IsWord B → A ≠ B →
      p.m_pModel.m_Groups = [] → p.m_pModel.m_strActiveGroup ≠ A →
      p.m_DataIt = 'g' :: ' ' :: (A ++ '\n' :: 'g' :: ' ' :: (B ++ '\n' ::
        'g' :: ' ' :: (A ++ '\n' :: rest))) →
      ∃ p1 p2 p3, parseFile.dispatch env p = .ok p1 ∧ parseFile.dispatch env p1 = .ok p2 ∧
        parseFile.dispatch env p2 = .ok p3 ∧ p3.m_DataIt = rest ∧
        p1.m_pModel =
          { p.m_pModel with
            faceIDArrays := p.m_pModel.faceIDArrays ++ [[]]
            m_Groups := [(env.strGroupNameAddr, p.m_pModel.faceIDArrays.length)]
            m_pGroupFaceIDs := some p.m_pModel.faceIDArrays.length
            m_strActiveGroup := A } ∧
        p2.m_pModel = { p1.m_pModel with m_strActiveGroup := B } ∧
        p3.m_pModel = p1.m_pModel) := by
  refine ⟨fun p1 h => ⟨(getGroupName_frame env p p1 h).1, (getGroupName_frame env p p1 h).2.1⟩,
    ?_, ?_⟩
  · intro k n pre rest pFaceIDArray hn hpre hpre0 hact hkey hit
    exact getGroupName_found env p k n pre rest pFaceIDArray hn hpre hpre0 hact hkey hit
  · intro A B rest hA hB hAB hgr hact hit
    -- the first line registers a sequence under the address of the local
    obtain ⟨p1, hg1, hd1, hm1⟩ := getGroupName_new env p 0 A []
      ('g' :: ' ' :: (B ++ '\n' :: 'g' :: ' ' :: (A ++ '\n' :: rest))) hA (by simp) (by simp)
      hact (by rw [hgr]; rfl) (by rw [hit]; rfl)
    rw [hgr, List.nil_append] at hm1
    -- the second line finds it there
    obtain ⟨p2, hg2, hd2, hm2⟩ := getGroupName_found env p1 0 B []
      ('g' :: ' ' :: (A ++ '\n' :: rest)) p.m_pModel.faceIDArrays.length hB (by simp) (by simp)
      (by rw [hm1]; exact hAB) (by rw [hm1]; simp) (by rw [hd1]; rfl)
    -- and so does the third
    obtain ⟨p3, hg3, hd3, hm3⟩ := getGroupName_found env p2 0 A [] rest
      p.m_pModel.faceIDArrays.length hA (by simp) (by simp)
      (by rw [hm2]; exact Ne.symm hAB) (by rw [hm2, hm1]; simp) (by rw [hd2]; rfl)
    refine ⟨p1, p2, p3, (dispatch_g env p _ hit).trans hg1, (dispatch_g env p1 _ hd1).trans hg2,
      (dispatch_g env p2 _ hd2).trans hg3, hd3, hm1, ?_, ?_⟩
    · rw [hm2, hm1]
    · rw [hm3, hm2, hm1]

/-- C15, witness: after `g A`, `g B`, `g A` on a fresh model the group table has one entry
and the model one face-index sequence, the target of the active group `A`. -/
theorem getGroupName_keyed_by_address_witness :
    ∃ p3, parseFile Env.text (ObjFileParser.start (List Char) "g A\ng B\ng A\n".toList [] []
          (List.replicate 16 'x')) = .ok p3 ∧
      p3.m_pModel.m_Groups.length = 1 ∧ p3.m_pModel.faceIDArrays = [[]] ∧
      p3.m_pModel.m_pGroupFaceIDs = some 0 ∧ p3.m_pModel.m_strActiveGroup = "A".toList := by
  obtain ⟨p1, p2, p3, h1, h2, h3, hd, hm1, -, hm3⟩ := (getGroupName_keyed_by_address Env.text
    (ObjFileParser.start (List Char) "g A\ng B\ng A\n".toList [] []
      (List.replicate 16 'x'))).2.2
    "A".toList "B".toList [] (by decide) (by decide) (by decide) rfl (by decide) rfl
  refine ⟨p3, ?_, by rw [hm3, hm1]; rfl, by rw [hm3, hm1]; rfl, by rw [hm3, hm1]; rfl,
    by rw [hm3, hm1]⟩
  have e3 : p3 = _ := Except.ok.inj (h3.symm.trans (by
    rw [Except.ok.inj (h2.symm.trans (by rw [Except.ok.inj (h1.symm.trans rfl)]; rfl))]; rfl))
  rw [e3]
  rfl

/-! ## Comments, and the end of the input -/

theorem dispatch_comment (env : Env Fl) (p : ObjFileParser Fl) (cs : List Char)
    (hit : p.m_DataIt = '#' :: cs) : parseFile.dispatch env p = getComment p := by
  simp [parseFile.dispatch, hit]

theorem getComment_loop_line (text rest : List Char) (h : ∀ c ∈ text, c ≠ '\n') :
    getComment.loop (text ++ '\n' :: rest) = .ok rest := by
  induction text with
  | nil => simp [getComment.loop]
  | cons c text ih =>
    have hc : c ≠ '\n' := h c (by simp)
    simp only [List.cons_append, getComment.loop, hc, if_false]
    exact ih (fun d hd => h d (by simp [hd]))

theorem getComment_loop_eof (text : List Char) (h : ∀ c ∈ text, c ≠ '\n') :
    getComment.loop text = .error .readPastEnd := by
  induction text with
  | nil => rfl
  | cons c text ih =>
    have hc : c ≠ '\n' := h c (by simp)
    simp only [getComment.loop, hc, if_false]
    exact ih (fun d hd => h d (by simp [hd]))

theorem readName_eof (n : List Char) (h : ∀ c ∈ n, isSpace c = false) :
    readName n = .error .readPastEnd := by
  induction n with
  | nil => rfl
  | cons c n ih =>
    simp only [readName, h c (by simp), Bool.false_eq_true, if_false,
      ih (fun d hd => h d (by simp [hd]))]

theorem parseFile_of_dispatch_error (env : Env Fl) (p : ObjFileParser Fl) (e : Fault)
    (hne : p.m_DataIt ≠ []) (h : parseFile.dispatch env p = .error e) :
    parseFile env p = .error e := by
  unfold parseFile
  cases hd : p.m_DataIt with
  | nil => exact absurd hd hne
  | cons c cs =>
    rw [List.length_cons, parseFile.loop]
    simp only [hd, h]

/-- C16 (defect): `parseFile` reads `*m_DataIt` at `m_DataItEnd` when the end of the input
ends a comment line, and when it ends the name of an `o` line: on an input `#...` with no
line feed in it, and on an input `o n` that stops after the name `n`, the run ends in a
read past the end of the input, not with the cursor at the end. -/
theorem parseFile_reads_past_end (env : Env Fl) (p : ObjFileParser Fl) :
    (∀ text : List Char, (∀ c ∈ text, c ≠ '\n') → p.m_DataIt = '#' :: text →
      getComment p = .error .readPastEnd ∧ parseFile env p = .error .readPastEnd) ∧
    (∀ (k : Nat) (n : List Char), IsWord n →
      p.m_DataIt = 'o' :: ' ' :: (List.replicate k ' ' ++ n) →
      getObjectName p = .error .readPastEnd ∧ parseFile env p = .error .readPastEnd) := by
  constructor
  · intro text htext hit
    have hg : getComment p = .error .readPastEnd := by
      unfold getComment
      rw [hit, getComment_loop_eof ('#' :: text) (by
        intro c hc
        rcases List.mem_cons.mp hc with h | h
        · rw [h]; decide
        · exact htext c h)]
    exact ⟨hg, parseFile_of_dispatch_error env p _ (by rw [hit]; simp)
      ((dispatch_comment env p _ hit).trans hg)⟩
  · intro k n hn hit
    obtain ⟨c, cs, hc⟩ : ∃ c cs, n = c :: cs := by
      cases n with
      | nil => exact absurd rfl hn.1
      | cons c cs => exact ⟨c, cs, rfl⟩
    have hg : getObjectName p = .error .readPastEnd := by
      unfold getObjectName
      have htok : getNextToken p.m_DataIt = c :: cs := by
        rw [hit]
        have := getNextToken_tag ['o'] ' ' (List.replicate k ' ' ++ n) (by decide) (by decide)
        simp only [List.singleton_append] at this
        rw [this, getNextWord_blanks, hc]
        exact getNextWord_of_not_space c cs (hn.2 c (by rw [hc]; simp))
      rw [htok]
      simp only [readName_eof (c :: cs) (by rw [← hc]; exact hn.2)]
    exact ⟨hg, parseFile_of_dispatch_error env p _ (by rw [hit]; simp)
      ((dispatch_o env p _ hit).trans hg)⟩

/-- C16, witness: the inputs `# c` and `o Box`, with no line feed at their end, end in a
read past the end of the input. -/
theorem parseFile_reads_past_end_witness :
    parseFile Env.text (ObjFileParser.start (List Char) "# c".toList [] []
        (List.replicate 16 'x')) = .error .readPastEnd ∧
      parseFile Env.text (ObjFileParser.start (List Char) "o Box".toList [] []
        (List.replicate 16 'x')) = .error .readPastEnd :=
  ⟨((parseFile_reads_past_end Env.text (ObjFileParser.start (List Char) "# c".toList [] []
      (List.replicate 16 'x'))).1 " c".toList (by decide) rfl).2,
   ((parseFile_reads_past_end Env.text (ObjFileParser.start (List Char) "o Box".toList [] []
      (List.replicate 16 'x'))).2 0 "Box".toList (by decide) rfl).2⟩

theorem getComment_line (p : ObjFileParser Fl) (text rest : List Char)
    (htext : ∀ c ∈ text, c ≠ '\n') (hit : p.m_DataIt = '#' :: text ++ '\n' :: rest) :
    getComment p = .ok { p with m_DataIt := rest } := by
  unfold getComment
  have := getComment_loop_line ('#' :: text) rest (by
    intro c hc
    rcases List.mem_cons.mp hc with h | h
    · rw [h]; decide
    · exact htext c h)
  rw [hit, this]

theorem length_commentLines (ls : List (List Char)) : ls.length ≤ (commentLines ls).length := by
  induction ls with
  | nil => simp [commentLines]
  | cons text ls ih => simp [commentLines]; omega

theorem parseFile_loop_commentLines (env : Env Fl) :
    ∀ (ls : List (List Char)) (fuel : Nat) (p : ObjFileParser Fl) (rest : List Char),
      (∀ text ∈ ls, ∀ c ∈ text, c ≠ '\n') → p.m_DataIt = commentLines ls ++ rest →
      parseFile.loop env (fuel + ls.length) p = parseFile.loop env fuel { p with m_DataIt := rest } := by
  intro ls
  induction ls with
  | nil =>
    intro fuel p rest _ hit
    have : p = { p with m_DataIt := rest } := by
      cases p; simp only [commentLines, List.nil_append] at hit; simp [hit]
    rw [← this]; rfl
  | cons text ls ih =>
    intro fuel p rest hls hit
    have hit2 : p.m_DataIt = '#' :: text ++ '\n' :: (commentLines ls ++ rest) := by
      rw [hit]; simp [commentLines]
    have hg := getComment_line p text _ (hls text (by simp)) hit2
    rw [List.length_cons, ← Nat.add_assoc,
      parseFile_loop_step env _ p _ (by rw [hit2]; simp)
        ((dispatch_comment env p _ hit2).trans hg)]
    exact ih fuel _ rest (fun t ht => hls t (by simp [ht])) rfl

/-- C17 (defect): a comment line moves the cursor just after its line feed and leaves the
line counter as it was: `getComment` has no `++m_uiLine`. After an input made of `n`
comment lines, each ended by a line feed, the line counter is what it was before, not `n`
more. -/
theorem getComment_keeps_line_counter (env : Env Fl) (p : ObjFileParser Fl) :
    (∀ text rest : List Char, (∀ c ∈ text, c ≠ '\n') →
      p.m_DataIt = '#' :: text ++ '\n' :: rest →
      ∃ p1, parseFile.dispatch env p = .ok p1 ∧ p1.m_DataIt = rest ∧
        p1.m_uiLine = p.m_uiLine ∧ p1.m_pModel = p.m_pModel) ∧
    (∀ ls : List (List Char), (∀ text ∈ ls, ∀ c ∈ text, c ≠ '\n') →
      p.m_DataIt = commentLines ls →
      ∃ p1, parseFile env p = .ok p1 ∧ p1.m_DataIt = [] ∧ p1.m_uiLine = p.m_uiLine) := by
  constructor
  · intro text rest htext hit
    exact ⟨_, (dispatch_comment env p _ hit).trans (getComment_line p text rest htext hit),
      rfl, rfl, rfl⟩
  · intro ls hls hit
    refine ⟨{ p with m_DataIt := [] }, ?_, rfl, rfl⟩
    obtain ⟨e, he⟩ : ∃ e, p.m_DataIt.length = e + ls.length := by
      have h1 := length_commentLines ls
      refine ⟨p.m_DataIt.length - ls.length, ?_⟩
      rw [hit]; omega
    unfold parseFile
    rw [he, parseFile_loop_commentLines env ls e p [] hls (by rw [hit]; simp)]
    exact parseFile_loop_end env e _ rfl

/-- C17, witness: after the comment line `# c` the cursor is before `v 1 2 3` and the line
counter is 0; after the three comment lines of `# a`, `# b`, `# c` it is 0 as well. -/
theorem getComment_keeps_line_counter_witness :
    (∃ p1, parseFile.dispatch Env.text (ObjFileParser.start (List Char) "# c\nv 1 2 3\n".toList
          [] [] (List.replicate 16 'x')) = .ok p1 ∧
      p1.m_DataIt = "v 1 2 3\n".toList ∧ p1.m_uiLine = 0) ∧
    ∃ p1, parseFile Env.text (ObjFileParser.start (List Char) "# a\n# b\n# c\n".toList [] []
          (List.replicate 16 'x')) = .ok p1 ∧
      p1.m_DataIt = [] ∧ p1.m_uiLine = 0 := by
  constructor
  · obtain ⟨p1, h, hd, hl, -⟩ := (getComment_keeps_line_counter Env.text
      (ObjFileParser.start (List Char) "# c\nv 1 2 3\n".toList [] [] (List.replicate 16 'x'))).1
      " c".toList "v 1 2 3\n".toList (by decide) rfl
    exact ⟨p1, h, hd, hl⟩
  · obtain ⟨p1, h, hd, hl⟩ := (getComment_keeps_line_counter Env.text
      (ObjFileParser.start (List Char) "# a\n# b\n# c\n".toList [] [] (List.replicate 16 'x'))).2
      [" a".toList, " b".toList, " c".toList] (by decide) rfl
    exact ⟨p1, h, hd, hl⟩

/-! ## Lines that are skipped -/

theorem dispatch_s (env : Env Fl) (p : ObjFileParser Fl) (cs : List Char)
    (hit : p.m_DataIt = 's' :: cs) : parseFile.dispatch env p = .ok (skipLine p) := by
  simp [parseFile.dispatch, hit, getGroupNumber]

theorem dispatch_default (env : Env Fl) (p : ObjFileParser Fl) (c : Char) (cs : List Char)
    (hit : p.m_DataIt = c :: cs)
    (hc : c ≠ 'v' ∧ c ≠ 'f' ∧ c ≠ '#' ∧ c ≠ 'u' ∧ c ≠ 'm' ∧ c ≠ 'g' ∧ c ≠ 's' ∧ c ≠ 'o') :
    parseFile.dispatch env p = .ok (skipLine p) := by
  obtain ⟨h1, h2, h3, h4, h5, h6, h7, h8⟩ := hc
  simp [parseFile.dispatch, hit, h1, h2, h3, h4, h5, h6, h7, h8]

/-- C18 (amended): the dispatch is decided by the first byte of the line. A line that
starts with a blank or a tab is skipped whole, whatever follows the blanks: the model and
the working buffer are unchanged and the cursor ends just after the line feed of that
line. -/
theorem dispatch_leading_blank (env : Env Fl) (p : ObjFileParser Fl) (W L rest : List Char)
    (hW : W ≠ []) (hblank : ∀ c ∈ W, c = ' ' ∨ c = '\t') (hL : ∀ c ∈ L, c ≠ '\n')
    (hit : p.m_DataIt = W ++ (L ++ '\n' :: rest)) :
    ∃ p1, parseFile.dispatch env p = .ok p1 ∧ p1.m_pModel = p.m_pModel ∧
      p1.m_DataIt = rest ∧ p1.m_buffer = p.m_buffer := by
  obtain ⟨w, W1, hw⟩ : ∃ w W1, W = w :: W1 := by
    cases W with
    | nil => exact absurd rfl hW
    | cons w W1 => exact ⟨w, W1, rfl⟩
  have hline : ∀ c ∈ W ++ L, c ≠ '\n' := by
    intro c hc
    rcases List.mem_append.mp hc with h | h
    · rcases hblank c h with h2 | h2 <;> (rw [h2]; decide)
    · exact hL c h
  have hskip : skipLine p = { p with m_DataIt := rest, m_uiLine := p.m_uiLine + 1 } :=
    skipLine_line p (W ++ L) rest hline (by rw [hit]; simp)
  have hd : parseFile.dispatch env p = .ok (skipLine p) :=
    dispatch_default env p w (W1 ++ (L ++ '\n' :: rest)) (by rw [hit, hw]; rfl) (by
      rcases hblank w (by rw [hw]; simp) with h2 | h2 <;> (rw [h2]; decide))
  exact ⟨skipLine p, hd, by rw [hskip], by rw [hskip], by rw [hskip]⟩

/-- C18, witness: the line `  v 1 2 3` leaves the fresh model as it is, with no vertex, and
the cursor before the next line. -/
theorem dispatch_leading_blank_witness :
    ∃ p1, parseFile.dispatch Env.text (ObjFileParser.start (List Char)
          "  v 1 2 3\nf 1 2 3\n".toList [] [] (List.replicate 16 'x')) = .ok p1 ∧
      p1.m_pModel = Model.new (List Char) [] none ∧ p1.m_DataIt = "f 1 2 3\n".toList ∧
      p1.m_buffer = List.replicate 16 'x' :=
  dispatch_leading_blank Env.text (ObjFileParser.start (List Char)
      "  v 1 2 3\nf 1 2 3\n".toList [] [] (List.replicate 16 'x'))
    "  ".toList "v 1 2 3".toList "f 1 2 3\n".toList (by decide) (by decide) (by decide) rfl

/-- C18, counterexample: the line `v 1 2 3` appends the vertex `(1, 2, 3)`; the same line
after two blanks appends none. -/
theorem dispatch_leading_blank_counterexample :
    (∃ p1, parseFile.dispatch Env.text (ObjFileParser.start (List Char) "v 1 2 3\n".toList
          [] [] (List.replicate 16 'x')) = .ok p1 ∧
      p1.m_pModel.m_Vertices = [("1".toList, "2".toList, "3".toList)]) ∧
    ∃ p1, parseFile.dispatch Env.text (ObjFileParser.start (List Char) "  v 1 2 3\n".toList
          [] [] (List.replicate 16 'x')) = .ok p1 ∧
      p1.m_pModel.m_Vertices = [] ∧ p1.m_DataIt = [] :=
  ⟨⟨_, rfl, rfl⟩, ⟨_, rfl, rfl, rfl⟩⟩

/-- C19: on a newline-terminated line whose first byte is `#`, `s`, or a byte that is none
of `v`, `f`, `u`, `m`, `g`, `s`, `o`, `#` (the line feed of an empty line is such a byte),
the dispatch leaves the whole model unchanged, and the working buffer too, and leaves the
cursor just after the line feed of that line. -/
theorem dispatch_skipped_line (env : Env Fl) (p : ObjFileParser Fl) (line rest : List Char)
    (hline : ∀ c ∈ line, c ≠ '\n')
    (hfirst : ∀ c ∈ (line ++ ['\n']).head?, c = '#' ∨ c = 's' ∨
      (c ≠ 'v' ∧ c ≠ 'f' ∧ c ≠ 'u' ∧ c ≠ 'm' ∧ c ≠ 'g' ∧ c ≠ 's' ∧ c ≠ 'o' ∧ c ≠ '#'))
    (hit : p.m_DataIt = line ++ '\n' :: rest) :
    ∃ p1, parseFile.dispatch env p = .ok p1 ∧ p1.m_pModel = p.m_pModel ∧
      p1.m_DataIt = rest ∧ p1.m_buffer = p.m_buffer := by
  obtain ⟨c, cs, hcs⟩ : ∃ c cs, line ++ '\n' :: rest = c :: cs := by
    cases line with
    | nil => exact ⟨_, _, rfl⟩
    | cons c cs => exact ⟨_, _, rfl⟩
  have hc := hfirst c (by
    cases line with
    | nil => simp at hcs ⊢; exact hcs.1
    | cons d ds => simp at hcs ⊢; exact hcs.1)
  have hskip : skipLine p = { p with m_DataIt := rest, m_uiLine := p.m_uiLine + 1 } :=
    skipLine_line p line rest hline hit
  rcases hc with h | h | ⟨h1, h2, h3, h4, h5, h6, h7, h8⟩
  · subst h
    cases line with
    | nil => simp at hcs
    | cons d ds =>
      simp only [List.cons_append, List.cons.injEq] at hcs
      obtain ⟨hd, -⟩ := hcs
      subst hd
      exact ⟨_, (dispatch_comment env p _ hit).trans
        (getComment_line p ds rest (fun c hc => hline c (by simp [hc])) hit), rfl, rfl, rfl⟩
  · subst h
    exact ⟨skipLine p, dispatch_s env p cs (by rw [hit, hcs]), by rw [hskip], by rw [hskip],
      by rw [hskip]⟩
  · exact ⟨skipLine p, dispatch_default env p c cs (by rw [hit, hcs])
      ⟨h1, h2, h8, h3, h4, h5, h6, h7⟩, by rw [hskip], by rw [hskip], by rw [hskip]⟩

/-- C19, witness: the lines `s 1`, `# v 1 2 3` and the empty line leave the fresh model and
the buffer as they are and the cursor at the start of the next line. -/
theorem dispatch_skipped_line_witness :
    (∃ p1, parseFile.dispatch Env.text (ObjFileParser.start (List Char) "s 1\nv 1 2 3\n".toList
          [] [] (List.replicate 16 'x')) = .ok p1 ∧
      p1.m_pModel = Model.new (List Char) [] none ∧ p1.m_DataIt = "v 1 2 3\n".toList ∧
      p1.m_buffer = List.replicate 16 'x') ∧
    (∃ p1, parseFile.dispatch Env.text (ObjFileParser.start (List Char) "# v 1 2 3\nf 1\n".toList
          [] [] (List.replicate 16 'x')) = .ok p1 ∧
      p1.m_pModel = Model.new (List Char) [] none ∧ p1.m_DataIt = "f 1\n".toList ∧
      p1.m_buffer = List.replicate 16 'x') ∧
    ∃ p1, parseFile.dispatch Env.text (ObjFileParser.start (List Char) "\nxyz 1\n".toList
          [] [] (List.replicate 16 'x')) = .ok p1 ∧
      p1.m_pModel = Model.new (List Char) [] none ∧ p1.m_DataIt = "xyz 1\n".toList ∧
      p1.m_buffer = List.replicate 16 'x' :=
  ⟨dispatch_skipped_line Env.text (ObjFileParser.start (List Char) "s 1\nv 1 2 3\n".toList
      [] [] (List.replicate 16 'x')) "s 1".toList "v 1 2 3\n".toList (by decide) (by decide) rfl,
   dispatch_skipped_line Env.text (ObjFileParser.start (List Char) "# v 1 2 3\nf 1\n".toList
      [] [] (List.replicate 16 'x')) "# v 1 2 3".toList "f 1\n".toList (by decide) (by decide) rfl,
   dispatch_skipped_line Env.text (ObjFileParser.start (List Char) "\nxyz 1\n".toList
      [] [] (List.replicate 16 'x')) [] "xyz 1\n".toList (by decide) (by decide) rfl⟩

/-! ## A token in a fourth slot -/

theorem dropLine_line (pre rest : List Char) (h : ∀ c ∈ pre, c ≠ '\n') :
    dropLine (pre ++ '\n' :: rest) = rest := by
  unfold dropLine
  rw [skipLine_loop_line pre rest h]

/-- The scan of `a/b/c/d e`: the fourth token is reported, which skips a line of the
input, and the scan goes on. -/
theorem getFace_loop_fourth (vt vn : Bool) (hslot : (!vt && vn) = false) (stale : List Char)
    (q : ObjFileParser Fl) (a b c d e : List Char)
    (ha : IsPlainDecimal a ∧ decimal a < 2 ^ 31) (hb : IsPlainDecimal b ∧ decimal b < 2 ^ 31)
    (hc : IsPlainDecimal c ∧ decimal c < 2 ^ 31) (hd : IsPlainDecimal d ∧ decimal d < 2 ^ 31)
    (he : IsPlainDecimal e ∧ decimal e < 2 ^ 31) :
    getFace.loop vt vn
        (a ++ '/' :: (b ++ '/' :: (c ++ '/' :: (d ++ ' ' :: (e ++ '\x00' :: stale))))) 0 0 q
        ⟨[], [], []⟩ =
      .ok (skipLine q, ⟨[decimal a - 1, decimal e - 1], [decimal b - 1], [decimal c - 1]⟩) := by
  rw [getFace_loop_plain vt vn a '/' _ ha.1 ha.2 (by decide), getFace_store_plain a ha.1 ha.2]
  simp only [if_true]
  rw [getFace_loop_slash]
  simp only [hslot, Bool.false_eq_true, and_false, if_false, Int.zero_add]
  rw [getFace_loop_plain vt vn b '/' _ hb.1 hb.2 (by decide), getFace_store_plain b hb.1 hb.2]
  simp only [show ¬ ((1 : Int) = 0) by decide, if_false, if_true]
  rw [getFace_loop_slash]
  simp only [show ¬ ((1 : Int) = 0) by decide, false_and, if_false]
  rw [getFace_loop_plain vt vn c '/' _ hc.1 hc.2 (by decide), getFace_store_plain c hc.1 hc.2]
  simp only [show ((1 : Int) + 1) = 2 by decide, show ¬ ((2 : Int) = 0) by decide,
    show ¬ ((2 : Int) = 1) by decide, if_false, if_true]
  rw [getFace_loop_slash]
  simp only [show ¬ ((2 : Int) = 0) by decide, false_and, if_false]
  rw [getFace_loop_plain vt vn d ' ' _ hd.1 hd.2 (by decide), getFace_store_plain d hd.1 hd.2]
  simp only [show ((2 : Int) + 1) = 3 by decide, show ¬ ((3 : Int) = 0) by decide,
    show ¬ ((3 : Int) = 1) by decide, show ¬ ((3 : Int) = 2) by decide, if_false]
  have hb1 := getFace_loop_blanks vt vn 0 (e ++ '\x00' :: stale) 3 (reportErrorTokenInFace q)
    ⟨[] ++ [decimal a - 1], [] ++ [decimal b - 1], [] ++ [decimal c - 1]⟩
  rw [show List.replicate (0 + 1) ' ' ++ (e ++ '\x00' :: stale) = ' ' :: (e ++ '\x00' :: stale)
    from rfl] at hb1
  rw [hb1, getFace_loop_plain vt vn e '\x00' _ he.1 he.2 (by decide),
    getFace_store_plain e he.1 he.2]
  simp only [if_true]
  rw [getFace_loop_nul]
  rfl

/-- C20 (defect): on a face line `f a/b/c/d e` the token `d`, in slot 3, is reported and the
face is built from the other tokens, but the report skips a line of the input: the cursor
ends after the line that follows the face line, which is never dispatched. -/
theorem getFace_fourth_slot_skips_next_line (p : ObjFileParser Fl)
    (a b c d e next rest : List Char)
    (ha : IsPlainDecimal a ∧ decimal a < 2 ^ 31) (hb : IsPlainDecimal b ∧ decimal b < 2 ^ 31)
    (hc : IsPlainDecimal c ∧ decimal c < 2 ^ 31) (hd : IsPlainDecimal d ∧ decimal d < 2 ^ 31)
    (he : IsPlainDecimal e ∧ decimal e < 2 ^ 31)
    (hmodel : p.m_pModel.m_TextureCoord ≠ [] ∨ p.m_pModel.m_Normals = [])
    (hfit : ('f' :: ' ' :: (a ++ '/' :: (b ++ '/' :: (c ++ '/' :: (d ++ ' ' :: e))))).length
      < p.BUFFERSIZE)
    (hcur : p.m_pModel.CurrentValid) (hnext : ∀ x ∈ next, x ≠ '\n')
    (hit : p.m_DataIt = 'f' :: ' ' :: (a ++ '/' :: (b ++ '/' :: (c ++ '/' :: (d ++ ' ' :: e))))
      ++ '\n' :: (next ++ '\n' :: rest)) :
    ∃ p1, getFace p = .ok p1 ∧
      p1.m_pModel = p.m_pModel.addFace
        { m_pVertices := [decimal a - 1, decimal e - 1]
          m_pNormals := [decimal c - 1]
          m_pTexturCoords := [decimal b - 1]
          m_pMaterial := p.m_pModel.activeMaterial } ∧
      p1.m_DataIt = rest := by
  have hslot : (!(!p.m_pModel.m_TextureCoord.isEmpty) && !p.m_pModel.m_Normals.isEmpty) = false := by
    rcases hmodel with h | h
    · cases hT : p.m_pModel.m_TextureCoord with
      | nil => exact absurd hT h
      | cons _ _ => simp
    · simp [h]
  have hdig : ∀ t : List Char, IsPlainDecimal t → ∀ x ∈ t, x ≠ '\n' ∧ x ≠ '\r' :=
    fun t ht x hx => isDigit_not_eol (ht.2.1 x hx)
  have htext : ∀ x ∈ a ++ '/' :: (b ++ '/' :: (c ++ '/' :: (d ++ ' ' :: e))),
      x ≠ '\n' ∧ x ≠ '\r' := by
    intro x hx
    simp only [List.mem_append, List.mem_cons] at hx
    rcases hx with hx | hx | hx | hx | hx | hx | hx | hx | hx
    · exact hdig a ha.1 x hx
    · rw [hx]; decide
    · exact hdig b hb.1 x hx
    · rw [hx]; decide
    · exact hdig c hc.1 x hx
    · rw [hx]; decide
    · exact hdig d hd.1 x hx
    · rw [hx]; decide
    · exact hdig e he.1 x hx
  obtain ⟨k, ix, hl, hg⟩ := getFace_line p ['f'] ' ' _ '\n' (next ++ '\n' :: rest) (by decide)
    (by decide) (by decide) htext (Or.inl rfl) (by simpa [ObjFileParser.BUFFERSIZE] using hfit)
    hcur (by rw [hit]; simp)
  generalize hst : List.drop ((['f'] ++ ' ' ::
    (a ++ '/' :: (b ++ '/' :: (c ++ '/' :: (d ++ ' ' :: e))))).length + 1) p.m_buffer = stale at hl
  generalize hq : afterCopy p (['f'] ++ ' ' ::
    (a ++ '/' :: (b ++ '/' :: (c ++ '/' :: (d ++ ' ' :: e))))) ('\n' :: (next ++ '\n' :: rest)) = q
    at hl hg
  have hword : getNextWord ((a ++ '/' :: (b ++ '/' :: (c ++ '/' :: (d ++ ' ' :: e)))) ++
        '\x00' :: stale)
      = a ++ '/' :: (b ++ '/' :: (c ++ '/' :: (d ++ ' ' :: (e ++ '\x00' :: stale)))) := by
    obtain ⟨h0, hda, -⟩ := ha.1
    cases a with
    | nil => exact absurd rfl h0
    | cons x a =>
      simp only [List.cons_append, List.append_assoc]
      exact getNextWord_of_not_space x _ (isSpace_of_isDigit (hda x (by simp)))
  have hscan := getFace_loop_fourth _ _ hslot stale q a b c d e ha hb hc hd he
  rw [← hword, hl] at hscan
  simp only [Except.ok.injEq, Prod.mk.injEq] at hscan
  obtain ⟨hk, hix⟩ := hscan
  refine ⟨_, hg, ?_, ?_⟩
  · simp [hix, FaceIndices.toFace]
  · rw [skipLine_m_DataIt_eq]
    show dropLine (skipLine^[k] q).m_DataIt = _
    rw [hk, skipLine_m_DataIt_eq, ← hq]
    simp only [afterCopy, dropLine_newline]
    exact dropLine_line next rest hnext

/-- C20, witness: with a texture coordinate declared, `f 1/2/3/4 5` gives the positions
`0, 4`, the normal `2` and the texture coordinate `1`, and the cursor ends after the line
`v 1 2 3`: the whole input gives one face and no vertex. -/
theorem getFace_fourth_slot_skips_next_line_witness :
    (∃ p1, getFace
        { ObjFileParser.start (List Char) "f 1/2/3/4 5\nv 1 2 3\n".toList [] []
            (List.replicate 16 'x') with
          m_pModel := { Model.new (List Char) [] none with m_TextureCoord := [([], [])] } } = .ok p1 ∧
      p1.m_pModel = ({ Model.new (List Char) [] none with m_TextureCoord := [([], [])] }).addFace
        { m_pVertices := [0, 4]
          m_pNormals := [2]
          m_pTexturCoords := [1]
          m_pMaterial := none } ∧
      p1.m_DataIt = []) ∧
    ∃ p2, parseFile Env.text
        { ObjFileParser.start (List Char) "f 1/2/3/4 5\nv 1 2 3\n".toList [] []
            (List.replicate 16 'x') with
          m_pModel := { Model.new (List Char) [] none with m_TextureCoord := [([], [])] } } = .ok p2 ∧
      p2.m_pModel.m_Vertices = [] ∧ p2.m_pModel.faceCount = 1 :=
  ⟨getFace_fourth_slot_skips_next_line
    { ObjFileParser.start (List Char) "f 1/2/3/4 5\nv 1 2 3\n".toList [] []
        (List.replicate 16 'x') with
      m_pModel := { Model.new (List Char) [] none with m_TextureCoord := [([], [])] } }
    ['1'] ['2'] ['3'] ['4'] ['5'] "v 1 2 3".toList []
    (by decide) (by decide) (by decide) (by decide) (by decide) (Or.inl (by simp))
    (by decide) (by intro i hi; simp [ObjFileParser.start, Model.new] at hi) (by decide) rfl,
   ⟨_, rfl, rfl, rfl⟩⟩

/-! ## A line of exactly `length` bytes -/

/-- C21 (defect): when the current line has exactly `length` bytes, `length` the number of
cells of the buffer, the `assert` of `copyNextLine` holds at every byte, the loop fills
every cell, and the terminator is then written to `pBuffer[length]`, one cell after the
last: `copyNextLine`, and `getFace` with it, end in a write outside the buffer. -/
theorem copyNextLine_terminator_past_buffer (p : ObjFileParser Fl) (line tail : List Char)
    (hline : ∀ c ∈ line, c ≠ '\n' ∧ c ≠ '\r')
    (htail : ∀ c ∈ tail.head?, c = '\n' ∨ c = '\r')
    (hlen : line.length = p.BUFFERSIZE) (hit : p.m_DataIt = line ++ tail) :
    copyNextLine p p.BUFFERSIZE = .error .writePastEnd ∧ getFace p = .error .writePastEnd := by
  have hc : copyNextLine p p.BUFFERSIZE = .error .writePastEnd := by
    unfold ObjFileParser.BUFFERSIZE at hlen
    cases tail with
    | nil =>
      have hl := copyNextLine_loop_eof p.m_buffer.length line hline p.m_buffer 0
        (by omega) (by omega)
      simp only [copyNextLine, ObjFileParser.BUFFERSIZE, hit, List.append_nil, hl]
      simp [writeBuffer, hlen]
    | cons t rest =>
      have ht := htail t (by simp)
      have hl := copyNextLine_loop_line p.m_buffer.length line t rest hline ht p.m_buffer 0
        (by omega) (by omega)
      simp only [copyNextLine, ObjFileParser.BUFFERSIZE, hit, hl]
      simp [writeBuffer, hlen]
  refine ⟨hc, ?_⟩
  unfold getFace
  rw [hc]

/-- C21, witness: with a buffer of 8 cells, the line `f 123456`, 8 bytes long, ends
`copyNextLine` and `getFace` in a write outside the buffer. -/
theorem copyNextLine_terminator_past_buffer_witness :
    copyNextLine (ObjFileParser.start (List Char) "f 123456\nv 1 2 3\n".toList [] []
        (List.replicate 8 'x')) 8 = .error .writePastEnd ∧
      getFace (ObjFileParser.start (List Char) "f 123456\nv 1 2 3\n".toList [] []
        (List.replicate 8 'x')) = .error .writePastEnd :=
  copyNextLine_terminator_past_buffer
    (ObjFileParser.start (List Char) "f 123456\nv 1 2 3\n".toList [] [] (List.replicate 8 'x'))
    "f 123456".toList "\nv 1 2 3\n".toList (by decide) (by decide) rfl rfl

/-! ## A geometry line with a token missing -/

theorem getNextWord_spaces (ws cs : List Char) (h : ∀ c ∈ ws, isSpace c = true) :
    getNextWord (ws ++ cs) = getNextWord cs := by
  induction ws with
  | nil => rfl
  | cons c ws ih =>
    rw [List.cons_append, getNextWord]
    simp only [h c (by simp), if_true]
    exact ih (fun d hd => h d (by simp [hd]))

/-- `copyNextWord` steps over any whitespace before the word, line feeds too. -/
theorem copyNextWord_after_spaces (p : ObjFileParser Fl) (ws w : List Char) (s : Char)
    (r : List Char) (hws : ∀ c ∈ ws, isSpace c = true) (hw : IsWord w) (hs : isSpace s = true)
    (hlen : w.length + 2 ≤ p.m_buffer.length) (hit : p.m_DataIt = ws ++ (w ++ s :: r)) :
    ∃ p1, copyNextWord p p.BUFFERSIZE = .ok p1 ∧ p1.m_DataIt = s :: r ∧
      cString p1.m_buffer = cString w ∧ p1.m_buffer.length = p.m_buffer.length ∧
      p1.m_pModel = p.m_pModel := by
  obtain ⟨p1, e, d, c, b, m, -, -⟩ := copyNextWord_word_spec { p with m_DataIt := w ++ s :: r }
    0 w s r hw hs hlen rfl
  refine ⟨p1, ?_, d, c, b, m⟩
  rw [← e]
  simp only [copyNextWord, ObjFileParser.BUFFERSIZE, hit, getNextWord_spaces ws _ hws]

/-- C24 (defect): on a line `v x y` with two tokens, the third call of `copyNextWord` steps
over the line feed and copies the first word of the next line: the vertex appended is
`(F x, F y, F w)`, `w` that word, and the `skipLine` that ends `getVector3` then skips the
rest of the next line, which is never dispatched. -/
theorem dispatch_short_vertex_line (env : Env Fl) (p : ObjFileParser Fl)
    (x y w more rest : List Char) (hx : IsWord x) (hy : IsWord y) (hw : IsWord w)
    (hxl : x.length + 2 ≤ p.BUFFERSIZE) (hyl : y.length + 2 ≤ p.BUFFERSIZE)
    (hwl : w.length + 2 ≤ p.BUFFERSIZE)
    (hmore : ∀ c ∈ more, c ≠ '\n') (hmore0 : ∀ c ∈ more.head?, isSpace c = true)
    (hit : p.m_DataIt =
      'v' :: ' ' :: (x ++ ' ' :: (y ++ '\n' :: (w ++ (more ++ '\n' :: rest))))) :
    ∃ p1, parseFile.dispatch env p = .ok p1 ∧
      p1.m_pModel = { p.m_pModel with m_Vertices := p.m_pModel.m_Vertices ++
        [(env.fast_atof (cString x), env.fast_atof (cString y), env.fast_atof (cString w))] } ∧
      p1.m_DataIt = rest := by
  unfold ObjFileParser.BUFFERSIZE at hxl hyl hwl
  obtain ⟨s, r, hsr, hs⟩ := tail_starts_with_space more rest hmore0
  obtain ⟨p1, e1, d1, c1, b1, m1⟩ := copyNextWord_after_spaces
    { p with m_DataIt := ' ' :: (x ++ ' ' :: (y ++ '\n' :: (w ++ (more ++ '\n' :: rest)))) }
    [' '] x ' ' (y ++ '\n' :: (w ++ (more ++ '\n' :: rest))) (by decide) hx (by decide) hxl rfl
  have b1' : p1.m_buffer.length = p.m_buffer.length := b1
  obtain ⟨p2, e2, d2, c2, b2, m2⟩ := copyNextWord_after_spaces p1 [' '] y '\n'
    (w ++ (more ++ '\n' :: rest)) (by decide) hy (by decide) (by rw [b1']; exact hyl) (by rw [d1]; rfl)
  obtain ⟨p3, e3, d3, c3, b3, m3⟩ := copyNextWord_after_spaces p2 ['\n'] w s r
    (by decide) hw hs (by rw [b2, b1']; exact hwl) (by rw [d2, ← hsr]; rfl)
  refine ⟨_, (dispatch_v_blank env p _ hit).trans
    (getVector3_eq env _ p1 p2 p3 .vertices e1 e2 e3), ?_, ?_⟩
  · simp [Point3Array.push_back, c1, c2, c3, m1, m2, m3]
  · exact skipLine_m_DataIt _ more rest hmore (by simp [d3, hsr])

/-- C24, witness: `v 1 2` followed by `v 3 4 5` appends the one vertex parsed from `1`, `2`
and `v`, and the cursor ends after the second line: the whole input gives one vertex. -/
theorem dispatch_short_vertex_line_witness :
    (∃ p1, parseFile.dispatch Env.text (ObjFileParser.start (List Char)
          "v 1 2\nv 3 4 5\n".toList [] [] (List.replicate 16 'x')) = .ok p1 ∧
      p1.m_pModel = { Model.new (List Char) [] none with
        m_Vertices := [("1".toList, "2".toList, "v".toList)] } ∧
      p1.m_DataIt = []) ∧
    ∃ p2, parseFile Env.text (ObjFileParser.start (List Char)
          "v 1 2\nv 3 4 5\n".toList [] [] (List.replicate 16 'x')) = .ok p2 ∧
      p2.m_pModel.m_Vertices = [("1".toList, "2".toList, "v".toList)] :=
  ⟨dispatch_short_vertex_line Env.text (ObjFileParser.start (List Char)
      "v 1 2\nv 3 4 5\n".toList [] [] (List.replicate 16 'x'))
      "1".toList "2".toList "v".toList " 3 4 5".toList [] (by decide) (by decide) (by decide)
      (by decide) (by decide) (by decide) (by decide) (by decide) rfl,
   ⟨_, rfl, rfl⟩⟩

/-! ## Tokens with a sign or a leading zero -/

theorem countSteps_neg : ∀ (fuel : Nat) (tmp : Int) (iStep : Nat),
    getFace.countSteps fuel (-tmp) iStep = getFace.countSteps fuel tmp iStep := by
  intro fuel
  induction fuel with
  | zero => intro tmp iStep; rfl
  | succ fuel ih =>
    intro tmp iStep
    simp only [getFace.countSteps, Int.neg_tdiv, ne_eq, Int.neg_eq_zero]
    rw [ih]

theorem toInt32_neg_of_lt (n : Nat) (h : n < 2 ^ 31) : toInt32 (-(n : Int)) = -(n : Int) := by
  simp only [toInt32, Int.bmod_def]
  rcases Nat.eq_zero_or_pos n with h0 | h0
  · subst h0; rfl
  · have h2 : ((2 ^ 32 : Nat) : Int) = 4294967296 := by norm_num
    have h1 : ((-(n : Int)) % ((2 ^ 32 : Nat) : Int)) = 4294967296 - n := by
      rw [h2]; omega
    rw [h1]
    norm_num
    omega

theorem atoi_prefixed (c0 : Char) (hc0 : c0 = '-' ∨ c0 = '+' ∨ c0 = '0') (t : List Char)
    (c : Char) (r : List Char) (ht : IsPlainDecimal t) (hv : decimal t < 2 ^ 31)
    (hc : c.isDigit = false) :
    atoi (c0 :: (t ++ c :: r)) = .ok (prefixedValue c0 t) := by
  have e := atoi_digits_run t c r ht.2.1 hc
  rcases hc0 with h | h | h
  · subst h
    rw [atoi]
    simp only [show isspace '-' = false by decide, Bool.false_eq_true, if_false, if_true, e 0]
    rw [show List.foldl (fun acc c => 10 * acc + (c.toNat - '0'.toNat)) 0 t = decimal t from rfl,
      toInt32_neg_of_lt _ hv]
    rfl
  · subst h
    rw [atoi]
    simp only [show isspace '+' = false by decide, show ¬ ('+' = '-') by decide,
      Bool.false_eq_true, if_false, if_true, e 0]
    rw [show List.foldl (fun acc c => 10 * acc + (c.toNat - '0'.toNat)) 0 t = decimal t from rfl,
      toInt32_of_lt _ hv]
    rfl
  · subst h
    rw [atoi]
    simp only [show isspace '0' = false by decide, show ¬ ('0' = '-') by decide,
      show ¬ ('0' = '+') by decide, Bool.false_eq_true, if_false, atoi.digits,
      show Char.isDigit '0' = true by decide, if_true, e (10 * 0 + ('0'.toNat - '0'.toNat))]
    rw [show List.foldl (fun acc c => 10 * acc + (c.toNat - '0'.toNat))
        (10 * 0 + ('0'.toNat - '0'.toNat)) t = decimal t from rfl, toInt32_of_lt _ hv]
    rfl

theorem countSteps_prefixed (c0 : Char) (t : List Char) (ht : IsPlainDecimal t)
    (hv : decimal t < 2 ^ 31) : getFace.countSteps 32 (prefixedValue c0 t) 1 = t.length := by
  unfold prefixedValue
  split
  · rw [countSteps_neg]; exact countSteps_plain t ht hv
  · exact countSteps_plain t ht hv

theorem isPlainDecimal_last (init : List Char) (d : Char) (ht : IsPlainDecimal (init ++ [d]))
    (hd : d ≠ '0') : IsPlainDecimal [d] ∧ decimal [d] < 2 ^ 31 := by
  have hdd : d.isDigit = true := ht.2.1 d (by simp)
  refine ⟨⟨by simp, by simpa using hdd, by simpa using hd⟩, ?_⟩
  have := digit_value_le hdd
  simp only [decimal, List.foldl]
  omega

/-- The scan of a token made of a sign or a zero and a decimal integer: `atoi` reads the
whole token, the step count is the number of digits of the value, one cell short of the
token, so the next pass starts on the last digit, which is parsed and stored once more. -/
theorem getFace_loop_prefixed (vt vn : Bool) (c0 : Char)
    (hc0 : c0 = '-' ∨ c0 = '+' ∨ c0 = '0') (init : List Char) (d e : Char) (r : List Char)
    (ht : IsPlainDecimal (init ++ [d])) (hv : decimal (init ++ [d]) < 2 ^ 31) (hd : d ≠ '0')
    (he : e.isDigit = false) (iPos : Int) (p : ObjFileParser Fl) (ix : FaceIndices) :
    getFace.loop vt vn (c0 :: ((init ++ [d]) ++ e :: r)) 0 iPos p ix =
      getFace.loop vt vn (e :: r) 0 iPos
        (getFace.store iPos (decimal [d])
          (getFace.store iPos (prefixedValue c0 (init ++ [d])) p ix).1
          (getFace.store iPos (prefixedValue c0 (init ++ [d])) p ix).2).1
        (getFace.store iPos (decimal [d])
          (getFace.store iPos (prefixedValue c0 (init ++ [d])) p ix).1
          (getFace.store iPos (prefixedValue c0 (init ++ [d])) p ix).2).2 := by
  have ha := atoi_prefixed c0 hc0 (init ++ [d]) e r ht hv he
  have hs := countSteps_prefixed c0 (init ++ [d]) ht hv
  obtain ⟨hl1, hl2⟩ := isPlainDecimal_last init d ht hd
  have hne : c0 ≠ '\x00' ∧ c0 ≠ '\r' ∧ c0 ≠ '/' ∧ isSpace c0 = false := by
    rcases hc0 with h | h | h <;> (subst h; decide)
  rw [getFace.loop]
  simp only [hne.1, hne.2.1, hne.2.2.1, hne.2.2.2, if_false, Bool.false_eq_true, ha, hs,
    List.length_append, List.length_singleton, Nat.add_sub_cancel]
  rw [List.append_assoc, getFace_loop_pending vt vn init ([d] ++ e :: r) iPos _ _]
  exact getFace_loop_plain vt vn [d] e r hl1 hl2 he iPos _ _

theorem store_zero_ne (iVal : Int) (h : iVal ≠ 0) (p : ObjFileParser Fl) (ix : FaceIndices) :
    getFace.store 0 iVal p ix = (p, { ix with pIndices := ix.pIndices ++ [toUInt32 (iVal - 1)] }) := by
  simp [getFace.store, h]

theorem prefixedValue_ne_zero (c0 : Char) (t : List Char) (ht : IsPlainDecimal t) :
    prefixedValue c0 t ≠ 0 := by
  have := decimal_pos ht
  unfold prefixedValue
  split <;> omega

/-- C25 (defect): a token of a face line made of a sign or a zero and a decimal integer is
not consumed in one step, and gives two entries: the one of its value and, the scan having
stepped over as many cells as the value has digits, the one of its last digit. -/
theorem getFace_prefixed_token (p : ObjFileParser Fl) (c0 : Char)
    (hc0 : c0 = '-' ∨ c0 = '+' ∨ c0 = '0') (init : List Char) (d : Char) (rest : List Char)
    (ht : IsPlainDecimal (init ++ [d])) (hv : decimal (init ++ [d]) < 2 ^ 31) (hd : d ≠ '0')
    (hfit : ('f' :: ' ' :: c0 :: (init ++ [d])).length < p.BUFFERSIZE)
    (hcur : p.m_pModel.CurrentValid)
    (hit : p.m_DataIt = 'f' :: ' ' :: c0 :: (init ++ [d]) ++ '\n' :: rest) :
    ∃ p1, getFace p = .ok p1 ∧
      p1.m_pModel = p.m_pModel.addFace
        { m_pVertices := [toUInt32 (prefixedValue c0 (init ++ [d]) - 1), decimal [d] - 1]
          m_pNormals := []
          m_pTexturCoords := []
          m_pMaterial := p.m_pModel.activeMaterial } ∧
      p1.m_DataIt = rest := by
  obtain ⟨hl1, hl2⟩ := isPlainDecimal_last init d ht hd
  have hne : c0 ≠ '\n' ∧ c0 ≠ '\r' ∧ isSpace c0 = false := by
    rcases hc0 with h | h | h <;> (subst h; decide)
  have htext : ∀ c ∈ c0 :: (init ++ [d]), c ≠ '\n' ∧ c ≠ '\r' := by
    intro c hc
    rcases List.mem_cons.mp hc with h | h
    · rw [h]; exact ⟨hne.1, hne.2.1⟩
    · exact isDigit_not_eol (ht.2.1 c h)
  obtain ⟨p1, h1, h2, h3, -⟩ := getFace_clean_line p (c0 :: (init ++ [d])) rest
    ⟨[toUInt32 (prefixedValue c0 (init ++ [d]) - 1), decimal [d] - 1], [], []⟩
    htext hfit hcur hit (by
      intro q stale
      rw [List.cons_append, getNextWord_of_not_space c0 _ hne.2.2,
        getFace_loop_prefixed _ _ c0 hc0 init d '\x00' stale ht hv hd (by decide),
        store_zero_ne _ (prefixedValue_ne_zero c0 _ ht), getFace_store_plain [d] hl1 hl2,
        getFace_loop_nul]
      simp)
  exact ⟨p1, h1, h2, h3⟩

/-- C25, witness: `f -3` gives the position indices `2 ^ 32 - 4` and `2`; and the lines
`f 01` and `f +5` give the indices `0, 0` and `4, 4`. -/
theorem getFace_prefixed_token_witness :
    (∃ p1, getFace (ObjFileParser.start (List Char) "f -3\n".toList [] []
          (List.replicate 16 'x')) = .ok p1 ∧
      p1.m_pModel = (Model.new (List Char) [] none).addFace
        { m_pVertices := [4294967292, 2]
          m_pNormals := []
          m_pTexturCoords := []
          m_pMaterial := none } ∧
      p1.m_DataIt = []) ∧
    (∃ p1, getFace (ObjFileParser.start (List Char) "f 01\n".toList [] []
          (List.replicate 16 'x')) = .ok p1 ∧
      p1.m_pModel = (Model.new (List Char) [] none).addFace
        { m_pVertices := [0, 0]
          m_pNormals := []
          m_pTexturCoords := []
          m_pMaterial := none } ∧
      p1.m_DataIt = []) ∧
    ∃ p1, getFace (ObjFileParser.start (List Char) "f +5\n".toList [] []
          (List.replicate 16 'x')) = .ok p1 ∧
      p1.m_pModel = (Model.new (List Char) [] none).addFace
        { m_pVertices := [4, 4]
          m_pNormals := []
          m_pTexturCoords := []
          m_pMaterial := none } ∧
      p1.m_DataIt = [] :=
  ⟨getFace_prefixed_token
      (ObjFileParser.start (List Char) "f -3\n".toList [] [] (List.replicate 16 'x'))
      '-' (Or.inl rfl) [] '3' [] (by decide) (by decide) (by decide) (by decide)
      (by intro i h; simp [ObjFileParser.start, Model.new] at h) rfl,
   getFace_prefixed_token
      (ObjFileParser.start (List Char) "f 01\n".toList [] [] (List.replicate 16 'x'))
      '0' (Or.inr (Or.inr rfl)) [] '1' [] (by decide) (by decide) (by decide) (by decide)
      (by intro i h; simp [ObjFileParser.start, Model.new] at h) rfl,
   getFace_prefixed_token
      (ObjFileParser.start (List Char) "f +5\n".toList [] [] (List.replicate 16 'x'))
      '+' (Or.inr (Or.inl rfl)) [] '5' [] (by decide) (by decide) (by decide) (by decide)
      (by intro i h; simp [ObjFileParser.start, Model.new] at h) rfl⟩

/-! ## What the buffer held before -/

theorem getNextToken_over_nul (tag stale : List Char) (htag : ∀ c ∈ tag, isSpace c = false) :
    getNextToken (tag ++ '\x00' :: stale) = getNextToken stale := by
  induction tag with
  | nil =>
    rw [List.nil_append, getNextToken]
    simp only [show isSpace '\x00' = false by decide, Bool.false_eq_true, if_false]
  | cons c tag ih =>
    rw [List.cons_append, getNextToken]
    simp only [htag c (by simp), Bool.false_eq_true, if_false]
    exact ih (fun d hd => htag d (by simp [hd]))

/-- C26 (defect): on a face line with no whitespace in it, `getNextToken` runs over the
terminator that `copyNextLine` wrote, and the scan is that of the cells behind it, which
hold what the buffer held before the line: the face `getFace` builds is a function of the
earlier contents of the buffer. -/
theorem getFace_scans_stale_cells (p : ObjFileParser Fl) (tag rest : List Char)
    (htag : ∀ c ∈ tag, isSpace c = false) (hfit : tag.length < p.BUFFERSIZE)
    (hit : p.m_DataIt = tag ++ '\n' :: rest) :
    getFace p =
      match getFace.loop (!p.m_pModel.m_TextureCoord.isEmpty) (!p.m_pModel.m_Normals.isEmpty)
          (getNextToken (p.m_buffer.drop (tag.length + 1))) 0 0
          (afterCopy p tag ('\n' :: rest)) ⟨[], [], []⟩ with
      | .error e => .error e
      | .ok (p2, ix) => getFace.finish p2 ix := by
  have hline : ∀ c ∈ tag, c ≠ '\n' ∧ c ≠ '\r' := fun c hc => not_eol_of_not_space (htag c hc)
  have hcopy := copyNextLine_line p tag '\n' rest hline (Or.inl rfl) hfit hit
  unfold getFace
  rw [hcopy]
  simp only [List.cons_ne_nil, if_false, getNextToken_over_nul tag _ htag]
  rfl

/-- C26, witness: the line `fx` gives a face with the position indices `1, 2, 3, 4` when
the buffer holds the earlier line `f 1 2 3 4 5`, and a face with no index when the buffer
holds no whitespace; after `f 1 2 3 4 5` the line `fx` adds the face `1, 2, 3, 4`. -/
theorem getFace_scans_stale_cells_witness :
    (∃ p1, getFace (ObjFileParser.start (List Char) "fx\n".toList [] []
          ("f 1 2 3 4 5".toList ++ '\x00' :: List.replicate 4 'x')) = .ok p1 ∧
      p1.m_pModel = (Model.new (List Char) [] none).addFace
        { m_pVertices := [1, 2, 3, 4]
          m_pNormals := []
          m_pTexturCoords := []
          m_pMaterial := none }) ∧
    (∃ p1, getFace (ObjFileParser.start (List Char) "fx\n".toList [] []
          (List.replicate 16 'x')) = .ok p1 ∧
      p1.m_pModel = (Model.new (List Char) [] none).addFace
        { m_pVertices := []
          m_pNormals := []
          m_pTexturCoords := []
          m_pMaterial := none }) ∧
    ∃ p2, parseFile Env.text (ObjFileParser.start (List Char) "f 1 2 3 4 5\nfx\n".toList [] []
          (List.replicate 16 'x')) = .ok p2 ∧
      p2.m_pModel.m_Objects =
        [{ m_strObjName := "defaultobject".toList
           m_Faces :=
             [{ m_pVertices := [0, 1, 2, 3, 4]
                m_pNormals := []
                m_pTexturCoords := []
                m_pMaterial := none },
              { m_pVertices := [1, 2, 3, 4]
                m_pNormals := []
                m_pTexturCoords := []
                m_pMaterial := none }] }] :=
  ⟨⟨_, (getFace_scans_stale_cells (ObjFileParser.start (List Char) "fx\n".toList [] []
        ("f 1 2 3 4 5".toList ++ '\x00' :: List.replicate 4 'x')) "fx".toList []
        (by decide) (by decide) rfl).trans rfl, rfl⟩,
   ⟨_, (getFace_scans_stale_cells (ObjFileParser.start (List Char) "fx\n".toList [] []
        (List.replicate 16 'x')) "fx".toList [] (by decide) (by decide) rfl).trans rfl, rfl⟩,
   ⟨_, rfl, rfl⟩⟩

/-! ## The invariant of the object registry -/

theorem copyNextWord_m_pModel (p p1 : ObjFileParser Fl) (length : Nat)
    (h : copyNextWord p length = .ok p1) : p1.m_pModel = p.m_pModel := by
  unfold copyNextWord at h
  cases hl : copyNextWord.loop length (getNextWord p.m_DataIt) p.m_buffer 0 with
  | error e => simp [hl] at h
  | ok r =>
    obtain ⟨it, pBuffer, index⟩ := r
    simp only [hl] at h
    cases hw : writeBuffer pBuffer index '\x00' with
    | error e => simp [hw] at h
    | ok b =>
      simp only [hw] at h
      rw [← Except.ok.inj h]

theorem push_back_objects (a : Point3Array) (m : Model Fl) (v : Fl × Fl × Fl) :
    (a.push_back m v).m_Objects = m.m_Objects ∧ (a.push_back m v).m_pCurrent = m.m_pCurrent := by
  cases a <;> exact ⟨rfl, rfl⟩

theorem getVector3_objects (env : Env Fl) (p p1 : ObjFileParser Fl) (a : Point3Array)
    (h : getVector3 env p a = .ok p1) :
    p1.m_pModel.m_Objects = p.m_pModel.m_Objects ∧
      p1.m_pModel.m_pCurrent = p.m_pModel.m_pCurrent := by
  cases h1 : copyNextWord p p.BUFFERSIZE with
  | error e => simp [getVector3, h1, bind, Except.bind] at h
  | ok q1 =>
    cases h2 : copyNextWord q1 q1.BUFFERSIZE with
    | error e => simp [getVector3, h1, h2, bind, Except.bind] at h
    | ok q2 =>
      cases h3 : copyNextWord q2 q2.BUFFERSIZE with
      | error e => simp [getVector3, h1, h2, h3, bind, Except.bind] at h
      | ok q3 =>
        rw [getVector3_eq env p q1 q2 q3 a h1 h2 h3] at h
        rw [← Except.ok.inj h, skipLine_m_pModel]
        have m1 := copyNextWord_m_pModel _ _ _ h1
        have m2 := copyNextWord_m_pModel _ _ _ h2
        have m3 := copyNextWord_m_pModel _ _ _ h3
        have := push_back_objects a q3.m_pModel
          (env.fast_atof (cString q1.m_buffer), env.fast_atof (cString q2.m_buffer),
            env.fast_atof (cString q3.m_buffer))
        simp only [m3, m2, m1] at this
        simpa [m3, m2, m1] using this

theorem getVector2_objects (env : Env Fl) (p p1 : ObjFileParser Fl)
    (h : getVector2 env p = .ok p1) :
    p1.m_pModel.m_Objects = p.m_pModel.m_Objects ∧
      p1.m_pModel.m_pCurrent = p.m_pModel.m_pCurrent := by
  cases h1 : copyNextWord p p.BUFFERSIZE with
  | error e => simp [getVector2, h1, bind, Except.bind] at h
  | ok q1 =>
    cases h2 : copyNextWord q1 q1.BUFFERSIZE with
    | error e => simp [getVector2, h1, h2, bind, Except.bind] at h
    | ok q2 =>
      rw [getVector2_eq env p q1 q2 h1 h2] at h
      rw [← Except.ok.inj h, skipLine_m_pModel]
      have m1 := copyNextWord_m_pModel _ _ _ h1
      have m2 := copyNextWord_m_pModel _ _ _ h2
      simp [m2, m1]

theorem getComment_m_pModel (p p1 : ObjFileParser Fl) (h : getComment p = .ok p1) :
    p1.m_pModel = p.m_pModel := by
  unfold getComment at h
  cases hl : getComment.loop p.m_DataIt with
  | error e => simp [hl] at h
  | ok it =>
    simp only [hl] at h
    rw [← Except.ok.inj h]

theorem getMaterialDesc_objects (p p1 : ObjFileParser Fl) (h : getMaterialDesc p = .ok p1) :
    p1.m_pModel.m_Objects = p.m_pModel.m_Objects ∧
      p1.m_pModel.m_pCurrent = p.m_pModel.m_pCurrent := by
  unfold getMaterialDesc at h
  cases ht : getNextToken p.m_DataIt with
  | nil =>
    simp only [ht] at h
    rw [← Except.ok.inj h]
    exact ⟨rfl, rfl⟩
  | cons c cs =>
    simp only [ht] at h
    cases hr : readName (c :: cs) with
    | error e => simp [hr] at h
    | ok r =>
      obtain ⟨strName, it⟩ := r
      simp only [hr] at h
      by_cases hn : strName = []
      · simp only [hn, if_true] at h
        rw [← Except.ok.inj h]
        exact ⟨rfl, rfl⟩
      · simp only [hn, if_false] at h
        cases hl : p.m_pModel.m_MaterialMap.lookup strName with
        | none =>
          simp only [hl] at h
          rw [← Except.ok.inj h, skipLine_m_pModel]
          exact ⟨rfl, rfl⟩
        | some i =>
          simp only [hl] at h
          rw [← Except.ok.inj h, skipLine_m_pModel]
          exact ⟨rfl, rfl⟩

theorem getMaterialLib_objects (env : Env Fl) (p p1 : ObjFileParser Fl)
    (h : getMaterialLib env p = .ok p1) :
    p1.m_pModel.m_Objects = p.m_pModel.m_Objects ∧
      p1.m_pModel.m_pCurrent = p.m_pModel.m_pCurrent := by
  unfold getMaterialLib at h
  cases ht : getNextToken p.m_DataIt with
  | nil =>
    simp only [ht] at h
    rw [← Except.ok.inj h]
    exact ⟨rfl, rfl⟩
  | cons c cs =>
    simp only [ht] at h
    cases hr : readName (c :: cs) with
    | error e => simp [hr] at h
    | ok r =>
      obtain ⟨strMatName, it⟩ := r
      simp only [hr] at h
      cases hx : env.ioExists (p.m_strAbsPath ++ env.getOsSeparator ++ strMatName) with
      | false =>
        simp only [hx, Bool.false_eq_true, if_false] at h
        rw [← Except.ok.inj h, skipLine_m_pModel]
        exact ⟨rfl, rfl⟩
      | true =>
        simp only [hx, if_true] at h
        rw [← Except.ok.inj h, skipLine_m_pModel]
        exact ⟨rfl, rfl⟩

/-- What `getFace` does to the model, whenever it returns: nothing, on a last line with no
end-of-line byte, or one face added. -/
theorem getFace_model (p p1 : ObjFileParser Fl) (h : getFace p = .ok p1) :
    p1.m_pModel = p.m_pModel ∨
      (p.m_pModel.CurrentValid ∧ ∃ face : Face, p1.m_pModel = p.m_pModel.addFace face) := by
  unfold getFace at h
  cases hc : copyNextLine p p.BUFFERSIZE with
  | error e => simp [hc] at h
  | ok q =>
    obtain ⟨hm, -⟩ := copyNextLine_frame p q _ hc
    simp only [hc] at h
    by_cases hd : q.m_DataIt = []
    · simp only [hd, if_true] at h
      rw [← Except.ok.inj h, hm]
      exact Or.inl rfl
    · simp only [hd, if_false] at h
      cases hl : getFace.loop (!q.m_pModel.m_TextureCoord.isEmpty)
          (!q.m_pModel.m_Normals.isEmpty) (getNextToken q.m_buffer) 0 0 q ⟨[], [], []⟩ with
      | error e => simp [hl] at h
      | ok r =>
        obtain ⟨p2, ix⟩ := r
        simp only [hl] at h
        obtain ⟨k, hk⟩ := getFace_loop_frame _ _ _ _ _ _ _ _ _ hl
        have hm2 : p2.m_pModel = p.m_pModel := by rw [hk, skipLine_iterate_m_pModel, hm]
        obtain ⟨hv, he⟩ := getFace_finish_ok p2 p1 ix h
        rw [hm2] at hv
        refine Or.inr ⟨hv, ix.toFace p.m_pModel.activeMaterial, ?_⟩
        rw [he]; simp [hm2]

theorem search_none_iff (n : List Char) : ∀ (objs : List Object) (i : Nat),
    getObjectName.search n objs i = none → ∀ o ∈ objs, o.m_strObjName ≠ n := by
  intro objs
  induction objs with
  | nil => intro i _ o ho; simp at ho
  | cons o1 objs ih =>
    intro i h o ho
    unfold getObjectName.search at h
    by_cases h1 : o1.m_strObjName = n
    · simp [h1] at h
    · simp only [h1, if_false] at h
      rcases List.mem_cons.mp ho with rfl | h2
      · exact h1
      · exact ih (i + 1) h o h2

theorem search_some_lt (n : List Char) : ∀ (objs : List Object) (i j : Nat),
    getObjectName.search n objs i = some j → j < i + objs.length := by
  intro objs
  induction objs with
  | nil => intro i j h; simp [getObjectName.search] at h
  | cons o1 objs ih =>
    intro i j h
    unfold getObjectName.search at h
    by_cases h1 : o1.m_strObjName = n
    · simp only [h1, if_true] at h
      have := Option.some.inj h
      simp only [List.length_cons]; omega
    · simp only [h1, if_false] at h
      have := ih (i + 1) j h
      simp only [List.length_cons]; omega

/-- What `getObjectName` does to the object registry, whenever it returns: nothing; or an
object of `m_Objects` becomes current; or an object with a name no object has is appended
and becomes current. -/
theorem getObjectName_model (p p1 : ObjFileParser Fl) (h : getObjectName p = .ok p1) :
    (p1.m_pModel.m_Objects = p.m_pModel.m_Objects ∧
        p1.m_pModel.m_pCurrent = p.m_pModel.m_pCurrent) ∨
      (∃ i, i < p.m_pModel.m_Objects.length ∧ p1.m_pModel.m_Objects = p.m_pModel.m_Objects ∧
        p1.m_pModel.m_pCurrent = some i) ∨
      (∃ n, (∀ o ∈ p.m_pModel.m_Objects, o.m_strObjName ≠ n) ∧
        p1.m_pModel.m_Objects = p.m_pModel.m_Objects ++ [{ m_strObjName := n, m_Faces := [] }] ∧
        p1.m_pModel.m_pCurrent = some p.m_pModel.m_Objects.length) := by
  unfold getObjectName at h
  cases ht : getNextToken p.m_DataIt with
  | nil =>
    simp only [ht] at h
    rw [← Except.ok.inj h]
    exact Or.inl ⟨rfl, rfl⟩
  | cons c cs =>
    simp only [ht] at h
    cases hr : readName (c :: cs) with
    | error e => simp [hr] at h
    | ok r =>
      obtain ⟨strObjectName, it⟩ := r
      simp only [hr] at h
      by_cases hn : strObjectName = []
      · simp only [hn, ne_eq, not_true_eq_false, if_false] at h
        rw [← Except.ok.inj h, skipLine_m_pModel]
        exact Or.inl ⟨rfl, rfl⟩
      · simp only [hn, ne_eq, not_false_eq_true, if_true] at h
        cases hs : getObjectName.search strObjectName p.m_pModel.m_Objects 0 with
        | some i =>
          simp only [hs] at h
          rw [← Except.ok.inj h, skipLine_m_pModel]
          have := search_some_lt _ _ _ _ hs
          exact Or.inr (Or.inl ⟨i, by omega, rfl, rfl⟩)
        | none =>
          simp only [hs, createObject, hn, if_false] at h
          rw [← Except.ok.inj h, skipLine_m_pModel]
          exact Or.inr (Or.inr ⟨strObjectName, search_none_iff _ _ _ hs, rfl, rfl⟩)

theorem objectsInv_congr (m1 m2 : Model Fl) (ho : m1.m_Objects = m2.m_Objects)
    (hc : m1.m_pCurrent = m2.m_pCurrent) (h : m2.ObjectsInv) : m1.ObjectsInv := by
  unfold Model.ObjectsInv Model.CurrentValid at h ⊢
  rw [ho, hc]
  exact h

theorem objectsInv_new (strModelName : List Char) (pDefaultMaterial : Option Nat) :
    (Model.new Fl strModelName pDefaultMaterial).ObjectsInv := by
  refine ⟨by simp [Model.new], by simp [Model.new], ?_⟩
  intro i hi
  simp [Model.new] at hi

theorem objectsInv_activate (m1 m2 : Model Fl) (i : Nat) (hi : i < m2.m_Objects.length)
    (ho : m1.m_Objects = m2.m_Objects) (hc : m1.m_pCurrent = some i) (h : m2.ObjectsInv) :
    m1.ObjectsInv := by
  unfold Model.ObjectsInv Model.CurrentValid at h ⊢
  rw [ho, hc]
  refine ⟨h.1, ?_, ?_⟩
  · constructor
    · intro hn; exact absurd hn (by simp)
    · intro hn; rw [hn] at hi; simp at hi
  · intro j hj
    rw [← Option.some.inj hj]; exact hi

theorem objectsInv_append (m1 m2 : Model Fl) (o : Object)
    (hfresh : ∀ o2 ∈ m2.m_Objects, o2.m_strObjName ≠ o.m_strObjName)
    (ho : m1.m_Objects = m2.m_Objects ++ [o]) (hc : m1.m_pCurrent = some m2.m_Objects.length)
    (h : m2.ObjectsInv) : m1.ObjectsInv := by
  unfold Model.ObjectsInv Model.CurrentValid at h ⊢
  rw [ho, hc]
  refine ⟨?_, ?_, ?_⟩
  · rw [List.map_append, List.nodup_append]
    refine ⟨h.1, by simp, ?_⟩
    intro x hx1 hx2
    simp only [List.map_cons, List.map_nil, List.mem_singleton] at hx2
    obtain ⟨o2, ho2, hx⟩ := List.mem_map.mp hx1
    exact hfresh o2 ho2 (hx.trans hx2)
  · constructor
    · intro hn; exact absurd hn (by simp)
    · intro hn; simp at hn
  · intro j hj
    rw [← Option.some.inj hj]; simp

theorem objectsInv_addFace (m : Model Fl) (face : Face) (h : m.ObjectsInv) :
    (m.addFace face).ObjectsInv := by
  obtain ⟨hnd, hiff, hv⟩ := h
  cases hc : m.m_pCurrent with
  | none =>
    have hem := hiff.mp hc
    refine objectsInv_append _ m { m_strObjName := "defaultobject".toList, m_Faces := [face] }
      (by rw [hem]; simp) ?_ ?_ ⟨hnd, hiff, hv⟩
    · simp [Model.addFace, hc]
    · simp [Model.addFace, hc]
  | some i =>
    have hlt : i < m.m_Objects.length := hv i hc
    have hget : m.m_Objects[i]? = some m.m_Objects[i] := List.getElem?_eq_getElem hlt
    have hobj : (m.addFace face).m_Objects = m.m_Objects.set i
        { m.m_Objects[i] with m_Faces := m.m_Objects[i].m_Faces ++ [face] } := by
      simp [Model.addFace, hc, hget]
    have hcur : (m.addFace face).m_pCurrent = some i := by
      simp [Model.addFace, hc, hget]
    have hnames : (m.addFace face).m_Objects.map (fun o => o.m_strObjName)
        = m.m_Objects.map (fun o => o.m_strObjName) := by
      rw [hobj]
      apply List.ext_getElem?
      intro j
      simp only [List.getElem?_map, List.getElem?_set]
      by_cases hj : i = j
      · subst hj
        simp [hlt, hget]
      · simp [hj]
    unfold Model.ObjectsInv Model.CurrentValid
    rw [hnames, hcur]
    refine ⟨hnd, ?_, ?_⟩
    · constructor
      · intro hn; exact absurd hn (by simp)
      · intro hn; rw [hobj] at hn
        have : (m.m_Objects.set i
          { m.m_Objects[i] with m_Faces := m.m_Objects[i].m_Faces ++ [face] }).length = 0 := by
          rw [hn]; rfl
        rw [List.length_set] at this
        omega
    · intro j hj
      rw [← Option.some.inj hj, hobj, List.length_set]; exact hlt

theorem getFace_objectsInv (p p1 : ObjFileParser Fl) (h : getFace p = .ok p1)
    (hinv : p.m_pModel.ObjectsInv) : p1.m_pModel.ObjectsInv := by
  rcases getFace_model p p1 h with hm | ⟨-, face, hm⟩
  · rw [hm]; exact hinv
  · rw [hm]; exact objectsInv_addFace _ face hinv

theorem getObjectName_objectsInv (p p1 : ObjFileParser Fl) (h : getObjectName p = .ok p1)
    (hinv : p.m_pModel.ObjectsInv) : p1.m_pModel.ObjectsInv := by
  rcases getObjectName_model p p1 h with ⟨ho, hc⟩ | ⟨i, hi, ho, hc⟩ | ⟨n, hfresh, ho, hc⟩
  · exact objectsInv_congr _ _ ho hc hinv
  · exact objectsInv_activate _ _ i hi ho hc hinv
  · exact objectsInv_append _ _ { m_strObjName := n, m_Faces := [] } hfresh ho hc hinv

theorem dispatch_objectsInv (env : Env Fl) (p p1 : ObjFileParser Fl)
    (h : parseFile.dispatch env p = .ok p1) (hinv : p.m_pModel.ObjectsInv) :
    p1.m_pModel.ObjectsInv := by
  unfold parseFile.dispatch at h
  cases hd : p.m_DataIt with
  | nil =>
    simp only [hd] at h
    rw [← Except.ok.inj h]; exact hinv
  | cons c cs =>
    simp only [hd] at h
    split_ifs at h with h1 h2 h3 h4 h5 h6 h7 h8
    · cases cs with
      | nil => simp at h
      | cons d ds =>
        simp only at h
        split_ifs at h
        · obtain ⟨ho, hc⟩ := getVector3_objects env _ p1 _ h
          exact objectsInv_congr _ _ ho hc hinv
        · obtain ⟨ho, hc⟩ := getVector2_objects env _ p1 h
          exact objectsInv_congr _ _ ho hc hinv
        · obtain ⟨ho, hc⟩ := getVector3_objects env _ p1 _ h
          exact objectsInv_congr _ _ ho hc hinv
        · rw [← Except.ok.inj h]; exact hinv
    · exact getFace_objectsInv p p1 h hinv
    · rw [getComment_m_pModel p p1 h]; exact hinv
    · obtain ⟨ho, hc⟩ := getMaterialDesc_objects p p1 h
      exact objectsInv_congr _ _ ho hc hinv
    · obtain ⟨ho, hc⟩ := getMaterialLib_objects env p p1 h
      exact objectsInv_congr _ _ ho hc hinv
    · obtain ⟨ho, hc, -⟩ := getGroupName_frame env p p1 h
      exact objectsInv_congr _ _ ho hc hinv
    · unfold getGroupNumber at h
      rw [← Except.ok.inj h, skipLine_m_pModel]; exact hinv
    · exact getObjectName_objectsInv p p1 h hinv
    · rw [← Except.ok.inj h, skipLine_m_pModel]; exact hinv

theorem parseFile_loop_objectsInv (env : Env Fl) : ∀ (fuel : Nat) (p p1 : ObjFileParser Fl),
    parseFile.loop env fuel p = .ok p1 → p.m_pModel.ObjectsInv → p1.m_pModel.ObjectsInv := by
  intro fuel
  induction fuel with
  | zero =>
    intro p p1 h hinv
    rw [parseFile.loop] at h
    rw [← Except.ok.inj h]; exact hinv
  | succ n ih =>
    intro p p1 h hinv
    rw [parseFile.loop] at h
    cases hd : p.m_DataIt with
    | nil =>
      simp only [hd] at h
      rw [← Except.ok.inj h]; exact hinv
    | cons c cs =>
      simp only [hd] at h
      cases hdis : parseFile.dispatch env p with
      | error e => simp [hdis] at h
      | ok q =>
        simp only [hdis] at h
        exact ih q p1 h (dispatch_objectsInv env p q hdis hinv)

/-- C28: the model the parse starts with has the invariant of the object registry (no two
objects of one name; `m_pCurrent` null exactly when `m_Objects` is empty, and pointing
into `m_Objects` otherwise), and whenever a handler returns on a model that has it, the
model it leaves has it: `getObjectName`, `getFace`, the geometry, comment, material and
group handlers, one pass of the dispatch loop, and `parseFile` as a whole. -/
theorem objectsInv_preserved (env : Env Fl) :
    (∀ (strModelName : List Char) (pDefaultMaterial : Option Nat),
      (Model.new Fl strModelName pDefaultMaterial).ObjectsInv) ∧
    (∀ p p1 : ObjFileParser Fl, p.m_pModel.ObjectsInv →
      (getObjectName p = .ok p1 → p1.m_pModel.ObjectsInv) ∧
      (getFace p = .ok p1 → p1.m_pModel.ObjectsInv) ∧
      (∀ a, getVector3 env p a = .ok p1 → p1.m_pModel.ObjectsInv) ∧
      (getVector2 env p = .ok p1 → p1.m_pModel.ObjectsInv) ∧
      (getComment p = .ok p1 → p1.m_pModel.ObjectsInv) ∧
      (getMaterialDesc p = .ok p1 → p1.m_pModel.ObjectsInv) ∧
      (getMaterialLib env p = .ok p1 → p1.m_pModel.ObjectsInv) ∧
      (getGroupName env p = .ok p1 → p1.m_pModel.ObjectsInv) ∧
      (getGroupNumber p = .ok p1 → p1.m_pModel.ObjectsInv) ∧
      (parseFile.dispatch env p = .ok p1 → p1.m_pModel.ObjectsInv) ∧
      (parseFile env p = .ok p1 → p1.m_pModel.ObjectsInv)) := by
  refine ⟨objectsInv_new, ?_⟩
  intro p p1 hinv
  refine ⟨fun h => getObjectName_objectsInv p p1 h hinv, fun h => getFace_objectsInv p p1 h hinv,
    ?_, ?_, ?_, ?_, ?_, ?_, ?_, fun h => dispatch_objectsInv env p p1 h hinv,
    fun h => parseFile_loop_objectsInv env _ p p1 h hinv⟩
  · intro a h
    obtain ⟨ho, hc⟩ := getVector3_objects env p p1 a h
    exact objectsInv_congr _ _ ho hc hinv
  · intro h
    obtain ⟨ho, hc⟩ := getVector2_objects env p p1 h
    exact objectsInv_congr _ _ ho hc hinv
  · intro h
    rw [getComment_m_pModel p p1 h]; exact hinv
  · intro h
    obtain ⟨ho, hc⟩ := getMaterialDesc_objects p p1 h
    exact objectsInv_congr _ _ ho hc hinv
  · intro h
    obtain ⟨ho, hc⟩ := getMaterialLib_objects env p p1 h
    exact objectsInv_congr _ _ ho hc hinv
  · intro h
    obtain ⟨ho, hc, -⟩ := getGroupName_frame env p p1 h
    exact objectsInv_congr _ _ ho hc hinv
  · intro h
    unfold getGroupNumber at h
    rw [← Except.ok.inj h, skipLine_m_pModel]; exact hinv

/-- C28, witness: after `f 1 2 3`, `o Box`, `f 4 5 6`, `o defaultobject`, `o Box` the model
has the two objects `defaultobject` and `Box`, `Box` is current, and the invariant
holds. -/
theorem objectsInv_preserved_witness :
    ∃ p1, parseFile Env.text (ObjFileParser.start (List Char)
          "f 1 2 3\no Box\nf 4 5 6\no defaultobject\no Box\n".toList [] []
          (List.replicate 16 'x')) = .ok p1 ∧
      p1.m_pModel.m_Objects.map (fun o => o.m_strObjName)
        = ["defaultobject".toList, "Box".toList] ∧
      p1.m_pModel.m_pCurrent = some 1 ∧ p1.m_pModel.ObjectsInv := by
  obtain ⟨p1, h⟩ : ∃ p1, parseFile Env.text (ObjFileParser.start (List Char)
      "f 1 2 3\no Box\nf 4 5 6\no defaultobject\no Box\n".toList [] []
      (List.replicate 16 'x')) = .ok p1 := ⟨_, rfl⟩
  have hinv := ((objectsInv_preserved Env.text).2 _ p1
    ((objectsInv_preserved Env.text).1 [] none)).2.2.2.2.2.2.2.2.2.2 h
  have e : p1 = _ := Except.ok.inj (h.symm.trans rfl)
  exact ⟨p1, h, by rw [e]; rfl, by rw [e]; rfl, hinv⟩

/-! ## The public mesh model: the comparison of two index arrays -/

theorem readIndex_live (s : Memory) (p : Nat) (cells : List Nat) (i : Nat)
    (hp : s.arrays[p]? = some (some cells)) (hi : i < cells.length) :
    s.readIndex (some p) i = .ok cells[i] := by
  simp [Memory.readIndex, hp, List.getElem?_eq_getElem hi]

/-- The loop of `operator==` on two live blocks: it tells whether the `n` cells from `i` on
are the same in both. -/
theorem operatorEq_loop_live (s : Memory) (this o : aiFace) (p q : Nat) (cp cq : List Nat)
    (htp : this.mIndices = some p) (hoq : o.mIndices = some q)
    (hp : s.arrays[p]? = some (some cp)) (hq : s.arrays[q]? = some (some cq)) :
    ∀ (n i : Nat), i + n ≤ cp.length → i + n ≤ cq.length →
      aiFace.operatorEq.loop s this o n i
        = .ok (decide ((cp.drop i).take n = (cq.drop i).take n)) := by
  intro n
  induction n with
  | zero => intro i _ _; simp [aiFace.operatorEq.loop]
  | succ n ih =>
    intro i h1 h2
    have hi1 : i < cp.length := by omega
    have hi2 : i < cq.length := by omega
    rw [aiFace.operatorEq.loop, htp, hoq, readIndex_live s p cp i hp hi1,
      readIndex_live s q cq i hq hi2]
    simp only
    rw [List.drop_eq_getElem_cons hi1, List.drop_eq_getElem_cons hi2, List.take_succ_cons,
      List.take_succ_cons]
    by_cases hx : cp[i] = cq[i]
    · simp only [hx, ne_eq, not_true_eq_false, if_false]
      rw [ih (i + 1) (by omega) (by omega)]
      simp
    · simp [hx]

/-- On two faces that each point to a live block of `mNumIndices` cells, `operator==` is
true exactly when the two index arrays are the same list. -/
theorem operatorEq_arrays (s : Memory) (a b : aiFace) (p q : Nat) (cp cq : List Nat)
    (hap : a.mIndices = some p) (hbq : b.mIndices = some q)
    (hp : s.arrays[p]? = some (some cp)) (hq : s.arrays[q]? = some (some cq))
    (hlp : cp.length = a.mNumIndices) (hlq : cq.length = b.mNumIndices) :
    aiFace.operatorEq s a b = .ok (decide (cp = cq)) := by
  unfold aiFace.operatorEq
  by_cases hpq : a.mIndices = b.mIndices
  · rw [if_pos hpq]
    rw [hap, hbq] at hpq
    have : p = q := Option.some.inj hpq
    subst this
    rw [hp] at hq
    have : cp = cq := Option.some.inj (Option.some.inj hq)
    simp [this]
  · rw [if_neg hpq]
    by_cases hn : a.mNumIndices = b.mNumIndices
    · rw [if_pos ⟨by rw [hap]; simp, hn⟩,
        operatorEq_loop_live s a b p q cp cq hap hbq hp hq a.mNumIndices 0 (by omega) (by omega)]
      have e1 : List.take a.mNumIndices cp = cp := List.take_of_length_le (by omega)
      have e2 : List.take a.mNumIndices cq = cq := List.take_of_length_le (by omega)
      simp only [List.drop_zero, e1, e2]
    · rw [if_neg (fun h => hn h.2)]
      have : cp ≠ cq := by
        intro h; rw [h] at hlp; exact hn (hlp.symm.trans hlq)
      simp [this]

/-! ## The public mesh model: presence of a channel -/

/-- C23 (defect): `HasTextureCoords` tests `pIndex > AI_MAX_NUMBER_OF_TEXTURECOORDS`, so
the index 4 passes the test and `mTextureCoords[4]` is read, outside the array of 4
pointers. For an index below 4 it tells whether the channel is present, and above 4 it
returns false. `HasVertexColors` tests `>=`: it returns false from 4 on and tells whether
the color set is present below 4. -/
theorem HasTextureCoords_reads_past_array (m : aiMesh) :
    m.HasTextureCoords AI_MAX_NUMBER_OF_TEXTURECOORDS = .error .readPastEnd ∧
    m.HasTextureCoords 4 = .error .readPastEnd ∧
    (∀ (i : Nat) (h : i < AI_MAX_NUMBER_OF_TEXTURECOORDS),
      m.HasTextureCoords i = .ok (m.mTextureCoords ⟨i, h⟩ != none)) ∧
    (∀ i : Nat, AI_MAX_NUMBER_OF_TEXTURECOORDS < i → m.HasTextureCoords i = .ok false) ∧
    (∀ (i : Nat) (h : i < AI_MAX_NUMBER_OF_COLOR_SETS),
      m.HasVertexColors i = .ok (m.mColors ⟨i, h⟩ != none)) ∧
    (∀ i : Nat, AI_MAX_NUMBER_OF_COLOR_SETS ≤ i → m.HasVertexColors i = .ok false) := by
  refine ⟨?_, ?_, ?_, ?_, ?_, ?_⟩
  · simp [aiMesh.HasTextureCoords]
  · simp [aiMesh.HasTextureCoords, AI_MAX_NUMBER_OF_TEXTURECOORDS]
  · intro i h
    have h2 : ¬ (i > AI_MAX_NUMBER_OF_TEXTURECOORDS) := by omega
    simp [aiMesh.HasTextureCoords, h, h2]
  · intro i h
    simp [aiMesh.HasTextureCoords, h]
  · intro i h
    have h2 : ¬ (i ≥ AI_MAX_NUMBER_OF_COLOR_SETS) := by omega
    simp [aiMesh.HasVertexColors, h, h2]
  · intro i h
    simp [aiMesh.HasVertexColors, h]

/-- C23, witness: on the mesh the constructor makes, `HasTextureCoords(4)` reads past the
array, `HasVertexColors(4)` is false, and both are false at the indices 0 and 5. -/
theorem HasTextureCoords_reads_past_array_witness :
    aiMesh.new.HasTextureCoords 4 = .error .readPastEnd ∧
      aiMesh.new.HasVertexColors 4 = .ok false ∧
      aiMesh.new.HasTextureCoords 0 = .ok false ∧ aiMesh.new.HasTextureCoords 5 = .ok false ∧
      aiMesh.new.HasVertexColors 0 = .ok false ∧ aiMesh.new.HasVertexColors 5 = .ok false :=
  ⟨(HasTextureCoords_reads_past_array aiMesh.new).2.1,
    (HasTextureCoords_reads_past_array aiMesh.new).2.2.2.2.2 4 (by decide),
    rfl, rfl, rfl, rfl⟩

/-! ## The public mesh model: comparing faces -/

/-- C22 (defect): when the array pointer of `this` is null and that of `o` is not,
`operator==` returns false without a look at the numbers of indices, and `operator!=`
returns true. So a face with no array and a face with an array of no cell, which both
have no index, are unequal in that order, and equal in the other one: `==` is not
symmetric. -/
theorem operatorEq_null_pointer (s : Memory) (a b : aiFace) (ha : a.mIndices = none)
    (hb : b.mIndices ≠ none) (hna : a.mNumIndices = 0) (hnb : b.mNumIndices = 0) :
    aiFace.operatorEq s a b = .ok false ∧ aiFace.operatorNe s a b = .ok true ∧
      aiFace.operatorEq s b a = .ok true ∧
      a.indices s = some [] ∧ (b.WellFormed s → b.indices s = some []) := by
  have hab : a.mIndices ≠ b.mIndices := by rw [ha]; exact fun h => hb h.symm
  have hba : b.mIndices ≠ a.mIndices := fun h => hab h.symm
  have h1 : aiFace.operatorEq s a b = .ok false := by
    unfold aiFace.operatorEq
    rw [if_neg hab, if_neg (by rw [ha]; simp)]
  refine ⟨h1, by simp [aiFace.operatorNe, h1], ?_, by simp [aiFace.indices, ha], ?_⟩
  · simp [aiFace.operatorEq, hba, hb, hna, hnb, aiFace.operatorEq.loop]
  · intro hw
    unfold aiFace.WellFormed aiFace.arrayLength at hw
    unfold aiFace.indices
    cases hp : b.mIndices with
    | none => rfl
    | some p =>
      simp only [hp] at hw
      cases hq : s.arrays[p]? with
      | none => simp [hq] at hw
      | some blk =>
        cases blk with
        | none => simp [hq] at hw
        | some cells => simp [hq, hnb]

/-- C22, witness: a default-constructed face and the copy of it, which has an array of no
cell: the face equals its copy in neither sense of the claim, `a == b` being false and
`b == a` true. -/
theorem operatorEq_null_pointer_witness :
    aiFace.newCopy (aiFace.new { faces := [], arrays := [] }).1 0 0 =
        .ok ({ faces := [{ mNumIndices := 0, mIndices := none },
                         { mNumIndices := 0, mIndices := some 0 }]
               arrays := [some []] }, 1) ∧
      aiFace.operatorEq
        { faces := [{ mNumIndices := 0, mIndices := none },
                    { mNumIndices := 0, mIndices := some 0 }]
          arrays := [some []] }
        { mNumIndices := 0, mIndices := none } { mNumIndices := 0, mIndices := some 0 }
        = .ok false ∧
      aiFace.operatorEq
        { faces := [{ mNumIndices := 0, mIndices := none },
                    { mNumIndices := 0, mIndices := some 0 }]
          arrays := [some []] }
        { mNumIndices := 0, mIndices := some 0 } { mNumIndices := 0, mIndices := none }
        = .ok true :=
  ⟨rfl,
   (operatorEq_null_pointer
      { faces := [{ mNumIndices := 0, mIndices := none },
                  { mNumIndices := 0, mIndices := some 0 }]
        arrays := [some []] }
      { mNumIndices := 0, mIndices := none } { mNumIndices := 0, mIndices := some 0 }
      rfl (by decide) rfl rfl).1,
   (operatorEq_null_pointer
      { faces := [{ mNumIndices := 0, mIndices := none },
                  { mNumIndices := 0, mIndices := some 0 }]
        arrays := [some []] }
      { mNumIndices := 0, mIndices := none } { mNumIndices := 0, mIndices := some 0 }
      rfl (by decide) rfl rfl).2.2.1⟩

/-! ## The public mesh model: copying a face -/

theorem wellFormed_null (s : Memory) (f : aiFace) (hw : f.WellFormed s)
    (hp : f.mIndices = none) : f.mNumIndices = 0 := by
  unfold aiFace.WellFormed aiFace.arrayLength at hw
  rw [hp] at hw
  exact (Option.some.inj hw).symm

theorem wellFormed_live (s : Memory) (f : aiFace) (p : Nat) (hw : f.WellFormed s)
    (hp : f.mIndices = some p) :
    ∃ cells, s.arrays[p]? = some (some cells) ∧ cells.length = f.mNumIndices := by
  unfold aiFace.WellFormed aiFace.arrayLength at hw
  rw [hp] at hw
  cases hq : s.arrays[p]? with
  | none => simp [hq] at hw
  | some blk =>
    cases blk with
    | none => simp [hq] at hw
    | some cells =>
      simp only [hq] at hw
      exact ⟨cells, rfl, Option.some.inj hw⟩

/-- The `delete` of a null pointer returns and changes nothing. -/
theorem delete_null (s : Memory) (ptr : Option Nat) (hnull : ptr = none) :
    s.delete ptr = .ok s := by
  rw [hnull]; rfl

/-- The `delete` of `operator=` on a pointer to a live block is the wrong form for a block
made by `new[]`. -/
theorem delete_live (s : Memory) (p : Nat) (cells : List Nat)
    (hlive : s.arrays[p]? = some (some cells)) :
    s.delete (some p) = .error .mismatchedDelete := by
  simp [Memory.delete, hlive]

/-- The index array of a well-formed face, as a list of `mNumIndices` entries. -/
theorem indices_wellFormed (s : Memory) (f : aiFace) (hw : f.WellFormed s) :
    ∃ L, f.indices s = some L ∧ L.length = f.mNumIndices ∧
      (∀ p, f.mIndices = some p → s.arrays[p]? = some (some L)) := by
  cases hp : f.mIndices with
  | none =>
    refine ⟨[], by simp [aiFace.indices, hp], ?_, by simp⟩
    rw [wellFormed_null s f hw hp]; rfl
  | some p =>
    obtain ⟨cells, hc, hl⟩ := wellFormed_live s f p hw hp
    refine ⟨cells, ?_, hl, ?_⟩
    · simp [aiFace.indices, hp, hc, ← hl]
    · intro p2 h2
      rw [← Option.some.inj h2]; exact hc

/-- The assignment between two different objects, the source well-formed and the target
with a null pointer: the target gets a new block, at an address no block had, with the
indices of the source; no other block changes. -/
theorem operatorAssign_spec (s : Memory) (this o : Nat) (fthis fo : aiFace)
    (hthis : s.faces[this]? = some fthis) (ho : s.faces[o]? = some fo) (hne : o ≠ this)
    (hwo : fo.WellFormed s) (hnull : fthis.mIndices = none) :
    ∃ s1 L, aiFace.operatorAssign s this o = .ok s1 ∧ fo.indices s = some L ∧
      L.length = fo.mNumIndices ∧
      s1.faces = s.faces.set this { mNumIndices := fo.mNumIndices, mIndices := some s.arrays.length } ∧
      s1.arrays.length = s.arrays.length + 1 ∧
      s1.arrays[s.arrays.length]? = some (some L) ∧
      (∀ q, q < s.arrays.length → s1.arrays[q]? = s.arrays[q]?) := by
  obtain ⟨d, hd, hdf, hdl, hdq⟩ : ∃ d, s.delete fthis.mIndices = .ok d ∧ d.faces = s.faces ∧
      d.arrays.length = s.arrays.length ∧ ∀ q : Nat, d.arrays[q]? = s.arrays[q]? :=
    ⟨s, delete_null s _ hnull, rfl, rfl, fun _ => rfl⟩
  obtain ⟨L, hL, hLl, hLp⟩ := indices_wellFormed s fo hwo
  unfold aiFace.operatorAssign
  rw [if_neg hne]
  simp only [hthis, ho, hd, Memory.newArray]
  by_cases hn : fo.mNumIndices = 0
  · -- nothing to copy
    have hL0 : L = [] := List.length_eq_zero.mp (hLl.trans hn)
    refine ⟨{ faces := d.faces.set this
                { mNumIndices := fo.mNumIndices, mIndices := some d.arrays.length }
              arrays := d.arrays ++ [some (List.replicate fo.mNumIndices 0)] }, L,
      by simp only [Memory.memcpy, hn, if_true], hL, hLl, ?_, ?_, ?_, ?_⟩
    · simp [hdf, hdl, hn]
    · simp [hdl]
    · simp [hdl, hn, hL0]
    · intro q hlt
      simp only
      rw [List.getElem?_append_left (by omega)]
      exact hdq q
  · -- the source has a block
    obtain ⟨q, hq⟩ : ∃ q, fo.mIndices = some q := by
      cases hp : fo.mIndices with
      | none => exact absurd (wellFormed_null s fo hwo hp) hn
      | some q => exact ⟨q, rfl⟩
    have hsq := hLp q hq
    have hqlt : q < s.arrays.length := by
      by_contra hcon
      rw [List.getElem?_eq_none (by omega)] at hsq
      exact absurd hsq (by simp)
    have hdq2 : d.arrays[q]? = some (some L) := by
      rw [hdq q]
      exact hsq
    have hsrc : (d.arrays ++ [some (List.replicate fo.mNumIndices 0)])[q]? = some (some L) := by
      rw [List.getElem?_append_left (by omega)]; exact hdq2
    have hdst : (d.arrays ++ [some (List.replicate fo.mNumIndices 0)])[d.arrays.length]?
        = some (some (List.replicate fo.mNumIndices 0)) := by
      simp
    have hqd : q ≠ d.arrays.length := by omega
    have hcopy : L.take fo.mNumIndices ++ (List.replicate fo.mNumIndices 0).drop fo.mNumIndices
        = L := by
      rw [List.take_of_length_le (by omega)]
      simp
    refine ⟨{ faces := d.faces.set this
                { mNumIndices := fo.mNumIndices, mIndices := some d.arrays.length }
              arrays := (d.arrays ++ [some (List.replicate fo.mNumIndices 0)]).set
                d.arrays.length (some L) }, L, by
      simp only [Memory.memcpy, hn, if_false, hq, hsrc, hdst, List.length_replicate,
        Nat.le_refl, if_true, hLl, hcopy], hL, hLl, ?_, ?_, ?_, ?_⟩
    · simp [hdf, hdl]
    · simp [hdl]
    · simp [← hdl]
    · intro q2 hlt
      simp only
      rw [List.getElem?_set_ne (by omega), List.getElem?_append_left (by omega)]
      exact hdq q2

theorem indices_of_block (s : Memory) (f : aiFace) (p : Nat) (L : List Nat)
    (hp : f.mIndices = some p) (hb : s.arrays[p]? = some (some L))
    (hl : L.length = f.mNumIndices) : f.indices s = some L := by
  simp [aiFace.indices, hp, hb, ← hl]

theorem writeIndex_other (s s2 : Memory) (a i v : Nat)
    (h : s.writeIndex (some a) i v = .ok s2) :
    ∀ q, q ≠ a → s2.arrays[q]? = s.arrays[q]? := by
  unfold Memory.writeIndex at h
  cases hq : s.arrays[a]? with
  | none => simp [hq] at h
  | some blk =>
    cases blk with
    | none => simp [hq] at h
    | some cells =>
      simp only [hq] at h
      split_ifs at h
      rw [← Except.ok.inj h]
      intro q hqa
      simp [List.getElem?_set_ne (Ne.symm hqa)]

/-- What the assignment to an object with a null pointer gives: the target has the number of
indices and the indices of the source, in a block of its own; the source object and its
indices are what they were; and a later write to one of the two blocks leaves the
indices of the other face alone. -/
theorem operatorAssign_copy (s : Memory) (this o : Nat) (fthis fo : aiFace)
    (hthis : s.faces[this]? = some fthis) (ho : s.faces[o]? = some fo) (hne : o ≠ this)
    (hwo : fo.WellFormed s) (hnull : fthis.mIndices = none) :
    ∃ s1 a L, aiFace.operatorAssign s this o = .ok s1 ∧
      s1.faces[this]? = some { mNumIndices := fo.mNumIndices, mIndices := some a } ∧
      s1.faces[o]? = some fo ∧
      fo.indices s = some L ∧ L.length = fo.mNumIndices ∧
      aiFace.indices s1 { mNumIndices := fo.mNumIndices, mIndices := some a } = some L ∧
      fo.indices s1 = some L ∧ fo.mIndices ≠ some a ∧
      (∀ i v s2, s1.writeIndex (some a) i v = .ok s2 → fo.indices s2 = some L) ∧
      (∀ i v s2, s1.writeIndex fo.mIndices i v = .ok s2 →
        aiFace.indices s2 { mNumIndices := fo.mNumIndices, mIndices := some a } = some L) := by
  obtain ⟨s1, L, hg, hL, hLl, hf, hal, hnew, hold⟩ :=
    operatorAssign_spec s this o fthis fo hthis ho hne hwo hnull
  obtain ⟨L2, hL2, -, hLp⟩ := indices_wellFormed s fo hwo
  have hLL : L2 = L := Option.some.inj (hL2.symm.trans hL)
  subst hLL
  have hthislt : this < s.faces.length := by
    by_contra hcon
    rw [List.getElem?_eq_none (by omega)] at hthis
    exact absurd hthis (by simp)
  -- the block of the source, when it has one, is an old block that is still what it was
  have hsrc : ∀ q, fo.mIndices = some q →
      q < s.arrays.length ∧ s1.arrays[q]? = some (some L2) := by
    intro q hq
    have hsq := hLp q hq
    have hqlt : q < s.arrays.length := by
      by_contra hcon
      rw [List.getElem?_eq_none (by omega)] at hsq
      exact absurd hsq (by simp)
    refine ⟨hqlt, ?_⟩
    rw [hold q hqlt]
    exact hsq
  have hfresh : fo.mIndices ≠ some s.arrays.length := by
    intro h
    have := (hsrc _ h).1
    omega
  have hfo1 : fo.indices s1 = some L2 := by
    cases hq : fo.mIndices with
    | none =>
      rw [← hL]
      simp [aiFace.indices, hq]
    | some q => exact indices_of_block s1 fo q L2 hq (hsrc q hq).2 hLl
  refine ⟨s1, s.arrays.length, L2, hg, ?_, ?_, hL, hLl, ?_, hfo1, hfresh, ?_, ?_⟩
  · rw [hf, List.getElem?_set_self hthislt]
  · rw [hf, List.getElem?_set_ne (Ne.symm hne)]; exact ho
  · exact indices_of_block s1 _ s.arrays.length L2 rfl hnew hLl
  · intro i v s2 hw
    have hoth := writeIndex_other s1 s2 _ i v hw
    cases hq : fo.mIndices with
    | none =>
      rw [← hL]
      simp [aiFace.indices, hq]
    | some q =>
      have := hsrc q hq
      refine indices_of_block s2 fo q L2 hq ?_ hLl
      rw [hoth q (by omega)]; exact this.2
  · intro i v s2 hw
    cases hq : fo.mIndices with
    | none =>
      rw [hq] at hw
      simp [Memory.writeIndex] at hw
    | some q =>
      rw [hq] at hw
      have hoth := writeIndex_other s1 s2 q i v hw
      have := hsrc q hq
      refine indices_of_block s2 _ s.arrays.length L2 rfl ?_ hLl
      rw [hoth _ (by omega)]; exact hnew

/-- The assignment `a = o` to an object `a` that points to a live index array: the
statement `delete mIndices` is the first to touch the array, and it is the wrong form of
`delete` for it. -/
theorem operatorAssign_live_target (s : Memory) (this o : Nat) (fthis fo : aiFace) (p : Nat)
    (cells : List Nat) (hthis : s.faces[this]? = some fthis) (ho : s.faces[o]? = some fo)
    (hne : o ≠ this) (hp : fthis.mIndices = some p) (hlive : s.arrays[p]? = some (some cells)) :
    aiFace.operatorAssign s this o = .error .mismatchedDelete := by
  unfold aiFace.operatorAssign
  rw [if_neg hne]
  simp only [hthis, ho, hp, delete_live s p cells hlive]

/-- C27 (defect): the assignment `a = o` to an object `a` that has an index array does not
return with a copy: it releases the array, which `new unsigned int[n]` has made, by
`delete mIndices`, without `[]`, where the destructor releases the same array by
`delete [] mIndices`. The other cases copy the array. The assignment to an object with
a null pointer gives it the number of indices of `o` and the same index at every position,
in a new block; `o` and its indices are unchanged; a later write to one of the two arrays
leaves the indices of the other face as they are. The assignment of an object to itself
changes nothing. The copy constructor, which sets the pointer of the new object to null
first, gives a new object with the same properties. -/
theorem operatorAssign_deletes_array_as_scalar (s : Memory) :
    (∀ (this o : Nat) (fthis fo : aiFace) (p : Nat) (cells : List Nat),
      s.faces[this]? = some fthis → s.faces[o]? = some fo → o ≠ this →
      fthis.mIndices = some p → s.arrays[p]? = some (some cells) →
      aiFace.operatorAssign s this o = .error .mismatchedDelete ∧
        aiFace.destroy s fthis = .ok { s with arrays := s.arrays.set p none }) ∧
    (∀ (this o : Nat) (fthis fo : aiFace), s.faces[this]? = some fthis →
      s.faces[o]? = some fo → o ≠ this → fo.WellFormed s → fthis.mIndices = none →
      ∃ s1 a L, aiFace.operatorAssign s this o = .ok s1 ∧
        s1.faces[this]? = some { mNumIndices := fo.mNumIndices, mIndices := some a } ∧
        s1.faces[o]? = some fo ∧
        fo.indices s = some L ∧ L.length = fo.mNumIndices ∧
        aiFace.indices s1 { mNumIndices := fo.mNumIndices, mIndices := some a } = some L ∧
        fo.indices s1 = some L ∧ fo.mIndices ≠ some a ∧
        (∀ i v s2, s1.writeIndex (some a) i v = .ok s2 → fo.indices s2 = some L) ∧
        (∀ i v s2, s1.writeIndex fo.mIndices i v = .ok s2 →
          aiFace.indices s2 { mNumIndices := fo.mNumIndices, mIndices := some a } = some L)) ∧
    (∀ this : Nat, aiFace.operatorAssign s this this = .ok s) ∧
    (∀ (o uninit : Nat) (fo : aiFace), s.faces[o]? = some fo → fo.WellFormed s →
      ∃ s1 a L, aiFace.newCopy s o uninit = .ok (s1, s.faces.length) ∧
        s1.faces[s.faces.length]? = some { mNumIndices := fo.mNumIndices, mIndices := some a } ∧
        s1.faces[o]? = some fo ∧
        fo.indices s = some L ∧ L.length = fo.mNumIndices ∧
        aiFace.indices s1 { mNumIndices := fo.mNumIndices, mIndices := some a } = some L ∧
        fo.indices s1 = some L ∧ fo.mIndices ≠ some a ∧
        (∀ i v s2, s1.writeIndex (some a) i v = .ok s2 → fo.indices s2 = some L) ∧
        (∀ i v s2, s1.writeIndex fo.mIndices i v = .ok s2 →
          aiFace.indices s2 { mNumIndices := fo.mNumIndices, mIndices := some a } = some L)) := by
  refine ⟨?_, fun this o fthis fo h1 h2 h3 h4 h5 =>
    operatorAssign_copy s this o fthis fo h1 h2 h3 h4 h5, ?_, ?_⟩
  · intro this o fthis fo p cells hthis ho hne hp hlive
    refine ⟨operatorAssign_live_target s this o fthis fo p cells hthis ho hne hp hlive, ?_⟩
    simp [aiFace.destroy, Memory.deleteArray, hp, hlive]
  · intro this
    simp [aiFace.operatorAssign]
  · intro o uninit fo ho hwo
    have holt : o < s.faces.length := by
      by_contra hcon
      rw [List.getElem?_eq_none (by omega)] at ho
      exact absurd ho (by simp)
    obtain ⟨s1, a, L, hg, r1, r2, r3, r4, r5, r6, r7, r8, r9⟩ := operatorAssign_copy
      { s with faces := s.faces ++ [{ mNumIndices := uninit, mIndices := none }] }
      s.faces.length o { mNumIndices := uninit, mIndices := none } fo (by simp)
      (by simp only; rw [List.getElem?_append_left holt]; exact ho) (by omega) hwo rfl
    refine ⟨s1, a, L, ?_, r1, r2, r3, r4, r5, r6, r7, r8, r9⟩
    simp only [aiFace.newCopy, hg]

/-- C27, witness: the face at address 1, with the indices `9, 8`, is assigned the face at
address 0, with the indices `1, 2, 3`: the assignment stops at `delete mIndices` on the
block of `9, 8`, which the destructor would release. The copy constructor on the face at
address 0 gives a face at address 2 with a new block of `1, 2, 3`. -/
theorem operatorAssign_deletes_array_as_scalar_witness :
    (aiFace.operatorAssign
        { faces := [{ mNumIndices := 3, mIndices := some 0 }, { mNumIndices := 2, mIndices := some 1 }]
          arrays := [some [1, 2, 3], some [9, 8]] } 1 0 = .error .mismatchedDelete ∧
      aiFace.destroy
        { faces := [{ mNumIndices := 3, mIndices := some 0 }, { mNumIndices := 2, mIndices := some 1 }]
          arrays := [some [1, 2, 3], some [9, 8]] }
        { mNumIndices := 2, mIndices := some 1 } =
        .ok { faces := [{ mNumIndices := 3, mIndices := some 0 },
                        { mNumIndices := 2, mIndices := some 1 }]
              arrays := [some [1, 2, 3], none] }) ∧
    aiFace.newCopy
        { faces := [{ mNumIndices := 3, mIndices := some 0 }, { mNumIndices := 2, mIndices := some 1 }]
          arrays := [some [1, 2, 3], some [9, 8]] } 0 77 =
      .ok ({ faces := [{ mNumIndices := 3, mIndices := some 0 },
                       { mNumIndices := 2, mIndices := some 1 },
                       { mNumIndices := 3, mIndices := some 2 }]
             arrays := [some [1, 2, 3], some [9, 8], some [1, 2, 3]] }, 2) :=
  ⟨(operatorAssign_deletes_array_as_scalar
    { faces := [{ mNumIndices := 3, mIndices := some 0 }, { mNumIndices := 2, mIndices := some 1 }]
      arrays := [some [1, 2, 3], some [9, 8]] }).1 1 0
    { mNumIndices := 2, mIndices := some 1 } { mNumIndices := 3, mIndices := some 0 } 1 [9, 8]
    rfl rfl (by decide) rfl rfl, rfl⟩

end Assimp
